import Mathlib

/-!
# Cursor codecs of `lib/protocol/stream.js`

A shallow embedding of the two cursor classes `Readable` and `Writeable`.

* A Node.js `Buffer` is a list of bytes; a byte is a `Fin 256`.
* A cursor position is a natural number (a byte offset).
* A JavaScript Number holding an integer and a BigInt are both an `Int`.
* A thrown exception is `none`; a call that returns gives `some` of the
  returned value and the cursor after the call.
* A JavaScript string is the list of its UTF-16 code units.
* A finite Number that need not be an integer is an element of an ordered field
  `K` (every double is a rational number), and a Number that may be NaN or an
  infinity is an `Option K`, with `none` for those. `Math.PI` is a parameter `PI`.
* The rounding of Number arithmetic to doubles and the number of arguments one
  call may take are fixed by the JavaScript engine, not by the source: they are
  the fields of an `Engine`, and `Engine.binary64` is IEEE-754 binary64 rounding.
  The products of `Writeable.angle` and `Writeable.vec3fa` are rounded, because
  their rounding decides which integer is written. The product that
  `Readable.angle` and `Readable.vec3fa` return is kept exact: the double returned
  is the one nearest to it.
* A parameter default (`n = 0`, `r = 0`, `str = ''`, `obj = {}`) only applies to
  an omitted argument; the definitions take the argument as given, and an
  absent field of the `skillid` object is `none`.
-/

namespace Tera

/-! ## JavaScript number conversions -/

/-- A byte of a `Buffer`. -/
abbrev Byte := Fin 256

/-- A UTF-16 code unit of a JavaScript string. -/
abbrev CodeUnit := Fin 65536

/-- ECMAScript `ToUint8` on an integer: what a typed-array store keeps. -/
def toUint8 (n : Int) : Byte := ⟨(n % 256).toNat, by omega⟩

/-- ECMAScript `ToUint32` on an integer, which is also `n >>> 0`. -/
def toUint32 (n : Int) : Int := n % 4294967296

/-- ECMAScript `ToInt32` on an integer. -/
def toInt32 (n : Int) : Int :=
  if 2147483648 ≤ n % 4294967296 then n % 4294967296 - 4294967296 else n % 4294967296

/-- ECMAScript `ToUint16` on an integer: what `String.fromCharCode` keeps. -/
def toUint16 (n : Int) : CodeUnit := ⟨(n % 65536).toNat, by omega⟩

/-- The Number operator `a & b`: both operands go through `ToInt32`, the 32-bit
patterns are combined bit by bit, and the pattern is read back as an int32. -/
def numberAnd (a b : Int) : Int :=
  toInt32 (Int.ofNat (Nat.land (toUint32 a).toNat (toUint32 b).toNat))

/-- What the JavaScript engine fixes and the source does not define. `nearest x` is
the double that a real result `x` of Number arithmetic is rounded to, `none` when
that is an infinity; `argLimit` is the largest number of arguments one call may
take, beyond which `f.apply(null, args)` throws a `RangeError`. -/
structure Engine (K : Type) where
  nearest : K → Option K
  argLimit : Nat

/-- The BigInt operator `a & b` (two's complement of unbounded width). -/
def bigAnd (a b : Int) : Int := Int.land a b

/-- The BigInt operator `a | b` (two's complement of unbounded width). -/
def bigOr (a b : Int) : Int := Int.lor a b

/-- The BigInt operator `a << k` for a literal `k`. -/
def bigShl (a : Int) (k : Nat) : Int := a <<< (k : Int)

/-- The BigInt operator `a >> k` for a literal `k` (arithmetic shift). -/
def bigShr (a : Int) (k : Nat) : Int := a >>> k

/-! ## The `Buffer` primitives the cursors call

These are methods of the Node.js `Buffer` class, which the source calls but does
not define; each definition follows the documented behaviour of the method. -/

/-- A Node.js `Buffer`: a fixed-length sequence of bytes. -/
abbrev Buffer := List Byte

namespace Buffer

/-- `Buffer.alloc(n)`: `n` zero bytes. -/
def alloc (n : Nat) : Buffer := List.replicate n 0

/-- `buf[i] = v`: stores `ToUint8(v)`; an index outside the buffer is ignored. -/
def setIndex (b : Buffer) (i : Nat) (v : Int) : Buffer := b.set i (toUint8 v)

/-- `buf.readUInt8(offset)`: throws when the byte is outside the buffer. -/
def readUInt8 (b : Buffer) (offset : Nat) : Option Int :=
  match b[offset]? with
  | some first => some (first.val : Int)
  | none => none

/-- `buf.readUInt16LE(offset)`. -/
def readUInt16LE (b : Buffer) (offset : Nat) : Option Int :=
  match b[offset]?, b[offset + 1]? with
  | some first, some last => some ((first.val : Int) + (last.val : Int) * 2 ^ 8)
  | _, _ => none

/-- `buf.readInt16LE(offset)`: the same two bytes as a two's complement int16. -/
def readInt16LE (b : Buffer) (offset : Nat) : Option Int :=
  match b[offset]?, b[offset + 1]? with
  | some first, some last =>
    let val : Int := (first.val : Int) + (last.val : Int) * 2 ^ 8
    some (if 2 ^ 15 ≤ val then val - 2 ^ 16 else val)
  | _, _ => none

/-- `buf.readUInt32LE(offset)`. -/
def readUInt32LE (b : Buffer) (offset : Nat) : Option Int :=
  match b[offset]?, b[offset + 1]?, b[offset + 2]?, b[offset + 3]? with
  | some first, some b1, some b2, some last =>
    some ((first.val : Int) + (b1.val : Int) * 2 ^ 8 + (b2.val : Int) * 2 ^ 16
      + (last.val : Int) * 2 ^ 24)
  | _, _, _, _ => none

/-- `buf.readInt32LE(offset)`: the same four bytes as a two's complement int32. -/
def readInt32LE (b : Buffer) (offset : Nat) : Option Int :=
  match b[offset]?, b[offset + 1]?, b[offset + 2]?, b[offset + 3]? with
  | some first, some b1, some b2, some last =>
    let val : Int := (first.val : Int) + (b1.val : Int) * 2 ^ 8 + (b2.val : Int) * 2 ^ 16
      + (last.val : Int) * 2 ^ 24
    some (if 2 ^ 31 ≤ val then val - 2 ^ 32 else val)
  | _, _, _, _ => none

/-- `buf.writeUInt16LE(value, offset)`: throws when `value` is outside
`0..65535` or the two bytes do not fit; returns the buffer and `offset + 2`. -/
def writeUInt16LE (b : Buffer) (value : Int) (offset : Nat) : Option (Buffer × Nat) :=
  if value < 0 ∨ 65535 < value then none
  else if b.length < offset + 2 then none
  else some ((b.set offset (toUint8 value)).set (offset + 1) (toUint8 (value / 2 ^ 8)),
    offset + 2)

/-- `buf.writeUInt32LE(value, offset)`: throws when `value` is outside
`0..2^32-1` or the four bytes do not fit; returns the buffer and `offset + 4`. -/
def writeUInt32LE (b : Buffer) (value : Int) (offset : Nat) : Option (Buffer × Nat) :=
  if value < 0 ∨ 4294967295 < value then none
  else if b.length < offset + 4 then none
  else some ((((b.set offset (toUint8 value)).set (offset + 1) (toUint8 (value / 2 ^ 8))).set
    (offset + 2) (toUint8 (value / 2 ^ 16))).set (offset + 3) (toUint8 (value / 2 ^ 24)),
    offset + 4)

/-- The `ucs2` encoding of a string: each code unit as two bytes, low byte first. -/
def ucs2 (s : List CodeUnit) : List Byte :=
  s.flatMap fun c => [toUint8 (c.val : Int), toUint8 ((c.val : Int) / 2 ^ 8)]

/-- `buf.fill(str, offset, end, 'ucs2')`: throws when `end` is beyond the
buffer; otherwise the bytes at `offset .. end-1` become the encoded string,
repeated as often as needed to fill the range. -/
def fill (b : Buffer) (str : List CodeUnit) (offset end_ : Nat) : Option Buffer :=
  if b.length < end_ then none
  else if end_ ≤ offset then some b
  else
    let pat := ucs2 str
    some (b.take offset
      ++ (List.range (end_ - offset)).map (fun i => pat.getD (i % pat.length) 0)
      ++ b.drop end_)

/-- `Buffer.from(buf.slice(start, end))`: both ends are clamped to the buffer,
so the copy may be shorter than `end - start`; it never throws. -/
def slice (b : Buffer) (start end_ : Nat) : Buffer := (b.take end_).drop start

/-- `src.copy(target, targetStart)`: copies as many bytes of `src` as fit
before the end of `target`; it never throws for a position that is too large. -/
def copy (src target : Buffer) (targetStart : Nat) : Buffer :=
  if target.length ≤ targetStart then target
  else
    let nb := min src.length (target.length - targetStart)
    target.take targetStart ++ src.take nb ++ target.drop (targetStart + nb)

end Buffer

/-! ## `Readable`: the decode cursor -/

/-- `SkillID` of `./types`, as the record of fields `Readable.skillid` builds. -/
structure SkillID where
  id : Int
  huntingZoneId : Int
  type : Int
  npc : Bool
  reserved : Int
deriving DecidableEq, Repr

/-- `class Readable`: a buffer and a read position. -/
structure Readable where
  buffer : Buffer
  position : Nat
deriving DecidableEq, Repr

namespace Readable

/-- `seek(n) { return this.position = n }`. -/
def seek (r : Readable) (n : Nat) : Nat × Readable := (n, { r with position := n })

/-- `skip(n) { return this.position += n }`. -/
def skip (r : Readable) (n : Nat) : Nat × Readable :=
  (r.position + n, { r with position := r.position + n })

/-- `byte() { return this.buffer.readUInt8(this.position++) }`. -/
def byte (r : Readable) : Option (Int × Readable) := do
  let ret ← r.buffer.readUInt8 r.position
  pure (ret, { r with position := r.position + 1 })

/-- `uint16()`: `readUInt16LE` at the position, then `position += 2`. -/
def uint16 (r : Readable) : Option (Int × Readable) := do
  let ret ← r.buffer.readUInt16LE r.position
  pure (ret, { r with position := r.position + 2 })

/-- `uint32()`: `readUInt32LE` at the position, then `position += 4`. -/
def uint32 (r : Readable) : Option (Int × Readable) := do
  let ret ← r.buffer.readUInt32LE r.position
  pure (ret, { r with position := r.position + 4 })

/-- `uint64() { return BigInt(this.uint32()) | (BigInt(this.uint32()) << 32n) }`. -/
def uint64 (r : Readable) : Option (Int × Readable) := do
  let (lo, r1) ← r.uint32
  let (hi, r2) ← r1.uint32
  pure (bigOr lo (bigShl hi 32), r2)

/-- `int16()`: `readInt16LE` at the position, then `position += 2`. -/
def int16 (r : Readable) : Option (Int × Readable) := do
  let ret ← r.buffer.readInt16LE r.position
  pure (ret, { r with position := r.position + 2 })

/-- `int32()`: `readInt32LE` at the position, then `position += 4`. -/
def int32 (r : Readable) : Option (Int × Readable) := do
  let ret ← r.buffer.readInt32LE r.position
  pure (ret, { r with position := r.position + 4 })

/-- `int64() { return BigInt(this.uint32()) | (BigInt(this.int32()) << 32n) }`. -/
def int64 (r : Readable) : Option (Int × Readable) := do
  let (lo, r1) ← r.uint32
  let (hi, r2) ← r1.int32
  pure (bigOr lo (bigShl hi 32), r2)

/-- `bytes(n)`: `Buffer.from(this.buffer.slice(this.position, this.position += n))`. -/
def bytes (r : Readable) (n : Nat) : Buffer × Readable :=
  (r.buffer.slice r.position (r.position + n), { r with position := r.position + n })

/-- `bool()`: reads a byte, calls `log.warn` once when it is greater than 1, and
returns `!!ret`. The second component is the number of `log.warn` calls made. -/
def bool (r : Readable) : Option (Bool × Nat × Readable) := do
  let (ret, r1) ← r.byte
  pure (decide (ret ≠ 0), if 1 < ret then 1 else 0, r1)

/-- `skillid()`: one `uint64`, unpacked by BigInt shifts and masks. -/
def skillid (r : Readable) : Option (SkillID × Readable) := do
  let (raw, r1) ← r.uint64
  let type := bigAnd (bigShr raw 28) 0xF
  let npc := decide (bigAnd raw 0x0100000000 ≠ 0)
  pure ({ id := bigAnd raw (if npc then 0xffff else 0xfffffff),
          huntingZoneId := if npc then bigAnd (bigShr raw 16) 0xfff else 0,
          type := type,
          npc := npc,
          reserved := bigShr raw 33 }, r1)

/-- The loop of `string()`: `while(c = this.uint16()) ret[++i] = c`. It stops at
the first zero code unit, or throws when `uint16` reads beyond the buffer. -/
def stringLoop (r : Readable) (ret : List Int) : Option (List Int × Readable) :=
  match h : r.uint16 with
  | none => none
  | some (c, r1) => if c = 0 then some (ret, r1) else stringLoop r1 (ret ++ [c])
termination_by r.buffer.length - r.position
decreasing_by
  simp only [uint16, Buffer.readUInt16LE, Option.bind_eq_bind, Option.pure_def] at h
  split at h
  · rename_i first last h0 h1
    simp only [Option.some_bind, Option.some.injEq, Prod.mk.injEq] at h
    have hlt := (List.getElem?_eq_some_iff.mp h1).1
    rw [← h.2]
    simp only
    omega
  · simp at h

/-- `string()`: the loop, then `String.fromCharCode.apply(null, ret)`, which
throws when `ret` holds more elements than one call may take as arguments. -/
def string {K : Type} (e : Engine K) (r : Readable) : Option (List CodeUnit × Readable) := do
  let (ret, r1) ← r.stringLoop []
  if e.argLimit < ret.length then none else pure (ret.map toUint16, r1)

end Readable

/-! ## `Writeable`: the encode cursor -/

/-- The object passed to `Writeable.skillid`; a field that is absent is `none`. -/
structure SkillObj where
  id : Option Int
  huntingZoneId : Option Int
  type : Option Int
  npc : Option Bool
  reserved : Option Int
deriving DecidableEq, Repr

/-- The argument of `Writeable.skillid`: a plain Number or an object. -/
inductive SkillArg where
  | number (n : Int)
  | object (obj : SkillObj)
deriving DecidableEq, Repr

/-- `class Writeable`: the requested length, the buffer and a write position. -/
structure Writeable where
  length : Nat
  buffer : Buffer
  position : Nat
deriving DecidableEq, Repr

namespace Writeable

/-- `constructor(length)`: a zero-filled buffer of that length, position 0. -/
def new (length : Nat) : Writeable :=
  { length := length, buffer := Buffer.alloc length, position := 0 }

/-- `seek(n) { this.position = n }`. -/
def seek (w : Writeable) (n : Nat) : Writeable := { w with position := n }

/-- `skip(n) { this.position += n }`. -/
def skip (w : Writeable) (n : Nat) : Writeable := { w with position := w.position + n }

/-- `bool(b) { this.buffer[this.position++] = !!b }`. -/
def bool (w : Writeable) (b : Bool) : Writeable :=
  { w with buffer := w.buffer.setIndex w.position (if b then 1 else 0),
           position := w.position + 1 }

/-- `byte(n) { this.buffer[this.position++] = n }`. -/
def byte (w : Writeable) (n : Int) : Writeable :=
  { w with buffer := w.buffer.setIndex w.position n, position := w.position + 1 }

/-- `uint16(n) { this.position = this.buffer.writeUInt16LE(n & 0xffff, this.position) }`. -/
def uint16 (w : Writeable) (n : Int) : Option Writeable := do
  let (buf, pos) ← w.buffer.writeUInt16LE (numberAnd n 0xffff) w.position
  pure { w with buffer := buf, position := pos }

/-- `uint32(n) { this.position = this.buffer.writeUInt32LE(n >>> 0, this.position) }`. -/
def uint32 (w : Writeable) (n : Int) : Option Writeable := do
  let (buf, pos) ← w.buffer.writeUInt32LE (toUint32 n) w.position
  pure { w with buffer := buf, position := pos }

/-- `uint64(n)`: a Number argument is first made a BigInt; then
`this.uint32(Number(n & 0xffffffffn))` and
`this.uint32(Number((n >> 32n) & 0xffffffffn))`. -/
def uint64 (w : Writeable) (n : Int) : Option Writeable := do
  let w1 ← w.uint32 (bigAnd n 0xffffffff)
  w1.uint32 (bigAnd (bigShr n 32) 0xffffffff)

/-- `bytes(buf)`: nothing happens for a missing `buf`; otherwise `buf.copy` at
the position, which then advances by `buf.length`. -/
def bytes (w : Writeable) (buf : Option Buffer) : Writeable :=
  match buf with
  | none => w
  | some src =>
    { w with buffer := Buffer.copy src w.buffer w.position, position := w.position + src.length }

/-- `skillid(obj)`: a Number becomes the object with `type: 1, id: obj`; the fields
are masked with the Number operator `&`, made BigInts, shifted and or-ed into
`raw`, and `raw` is written by `uint64`. An absent field masks to 0. -/
def skillid (w : Writeable) (arg : SkillArg) : Option Writeable :=
  let obj : SkillObj := match arg with
    | .number n => { id := some n, huntingZoneId := none, type := some 1, npc := none,
                     reserved := none }
    | .object o => o
  let npc : Bool := obj.npc.getD false
  let raw0 := numberAnd (obj.id.getD 0) (if npc then 0xffff else 0xfffffff)
  let raw1 := if npc then bigOr raw0 (bigShl (numberAnd (obj.huntingZoneId.getD 0) 0xfff) 16)
    else raw0
  let raw2 := bigOr raw1 (bigShl (numberAnd (obj.type.getD 0) 0xf) 28)
  let raw3 := bigOr raw2 (bigShl (numberAnd (if npc then 1 else 0) 1) 32)
  let raw4 := bigOr raw3 (bigShl (numberAnd (obj.reserved.getD 0) 1) 33)
  w.uint64 raw4

/-- `string(str)`: `this.buffer.fill(str + '\0', this.position,
this.position += (str.length + 1) * 2, 'ucs2')`. -/
def string (w : Writeable) (str : List CodeUnit) : Option Writeable := do
  let start := w.position
  let end_ := w.position + (str.length + 1) * 2
  let buf ← w.buffer.fill (str ++ [0]) start end_
  pure { w with buffer := buf, position := end_ }

/-- `int16: Writeable.prototype.uint16`. -/
def int16 (w : Writeable) (n : Int) : Option Writeable := w.uint16 n

/-- `int32: Writeable.prototype.uint32`. -/
def int32 (w : Writeable) (n : Int) : Option Writeable := w.uint32 n

/-- `int64: Writeable.prototype.uint64`. -/
def int64 (w : Writeable) (n : Int) : Option Writeable := w.uint64 n

end Writeable

/-! ## Angles -/

section Angle

variable {K : Type} [LinearOrderedField K] [FloorRing K]

/-- `MULT_INT16_TO_RAD = 1 / 0x8000 * Math.PI`. -/
def MULT_INT16_TO_RAD (PI : K) : K := 1 / 0x8000 * PI

/-- `Math.round(x)`: the integer nearest to `x`, a tie going up. -/
def Math.round (x : K) : Int := Int.floor (x + 1 / 2)

/-- Rounding to the nearest integer, a tie going to the even one. -/
def roundHalfEven (y : K) : Int :=
  if y - (Int.floor y : K) < 1 / 2 then Int.floor y
  else if 1 / 2 < y - (Int.floor y : K) then Int.floor y + 1
  else if Int.floor y % 2 = 0 then Int.floor y
  else Int.floor y + 1

/-- IEEE-754 binary64 rounding to nearest, ties to even. Around `x` the doubles are
the multiples of `2 ^ (e - 52)`, where `2 ^ e ≤ |x| < 2 ^ (e + 1)` and `e` is not
taken below `-1022`; a magnitude of `2 ^ 1024 - 2 ^ 970` or more, half a step
beyond the largest double, rounds to an infinity. -/
def nearestDouble (x : K) : Option K :=
  if 2 ^ 1024 - 2 ^ 970 ≤ |x| then none
  else some ((roundHalfEven (x / 2 ^ (max (Int.log 2 |x|) (-1022) - 52)) : K)
    * 2 ^ (max (Int.log 2 |x|) (-1022) - 52))

/-- An engine with IEEE-754 doubles and the given limit on arguments. -/
def Engine.binary64 (argLimit : Nat) : Engine K :=
  { nearest := nearestDouble, argLimit := argLimit }

/-- The Number operator `x / y` on finite operands: the quotient rounded to a
double; a division by zero gives NaN or an infinity. -/
def Number.div (e : Engine K) (x y : K) : Option K :=
  if y = 0 then none else e.nearest (x / y)

/-- The Number operator `a * b`: the product rounded to a double; an operand that
is NaN or an infinity gives NaN or an infinity. -/
def Number.mul (e : Engine K) (a b : Option K) : Option K :=
  match a, b with
  | some x, some y => e.nearest (x * y)
  | _, _ => none

/-- `MULT_RAD_TO_INT16 = 1 / Math.PI * 0x8000`, each operation rounded to a double. -/
def MULT_RAD_TO_INT16 (e : Engine K) (PI : K) : Option K :=
  Number.mul e (Number.div e 1 PI) (some 0x8000)

/-- `angle() { return this.int16() * MULT_INT16_TO_RAD }`. -/
def Readable.angle (PI : K) (r : Readable) : Option (K × Readable) := do
  let (v, r1) ← r.int16
  pure ((v : K) * MULT_INT16_TO_RAD PI, r1)

/-- `angle(r) { this.int16(Math.round(r * MULT_RAD_TO_INT16)) }`. The product is a
double. `Math.round` keeps an infinity, and `n & 0xffff` in `int16` is 0 for it. -/
def Writeable.angle (e : Engine K) (PI : K) (w : Writeable) (r : K) : Option Writeable :=
  match Number.mul e (some r) (MULT_RAD_TO_INT16 e PI) with
  | some p => w.int16 (Math.round p)
  | none => w.int16 0

end Angle

/-- `Math.PI`: the double nearest to π, `0x400921FB54442D18`. -/
def Math.PI : ℚ := 884279719003555 / 281474976710656

/-! ## Floats and vectors

The IEEE-754 conversions done inside `readFloatLE`, `writeFloatLE`, `readDoubleLE`
and `writeDoubleLE` are not modelled: they are the fields of a `FloatCodec`, which
every float operation takes as a parameter. `writeFloatLE` may be handed NaN, which
is `none`; a value read has to be an element of `K`. -/

/-- The conversions between a Number and its 4 or 8 bytes. -/
structure FloatCodec (K : Type) where
  floatBytes : Option K → List Byte
  floatBytes_length : ∀ x, (floatBytes x).length = 4
  floatValue : List Byte → K
  doubleBytes : K → List Byte
  doubleBytes_length : ∀ x, (doubleBytes x).length = 8
  doubleValue : List Byte → K

/-- A codec to instantiate statements with: a Number is stored as the 4 or 8
little-endian bytes of its integer part, taken modulo `2^32` or `2^64`, and NaN as
`00 00 C0 7F`. -/
def FloatCodec.integerPart : FloatCodec ℚ where
  floatBytes
    | some x => [toUint8 (Int.floor x), toUint8 (Int.floor x / 2 ^ 8),
        toUint8 (Int.floor x / 2 ^ 16), toUint8 (Int.floor x / 2 ^ 24)]
    | none => [0x00, 0x00, 0xC0, 0x7F]
  floatBytes_length x := by cases x <;> rfl
  floatValue b := (((b.getD 0 0).val + (b.getD 1 0).val * 2 ^ 8 + (b.getD 2 0).val * 2 ^ 16
    + (b.getD 3 0).val * 2 ^ 24 : Nat) : ℚ)
  doubleBytes x := [toUint8 (Int.floor x), toUint8 (Int.floor x / 2 ^ 8),
    toUint8 (Int.floor x / 2 ^ 16), toUint8 (Int.floor x / 2 ^ 24),
    toUint8 (Int.floor x / 2 ^ 32), toUint8 (Int.floor x / 2 ^ 40),
    toUint8 (Int.floor x / 2 ^ 48), toUint8 (Int.floor x / 2 ^ 56)]
  doubleBytes_length _ := rfl
  doubleValue b := (((b.getD 0 0).val + (b.getD 1 0).val * 2 ^ 8 + (b.getD 2 0).val * 2 ^ 16
    + (b.getD 3 0).val * 2 ^ 24 + (b.getD 4 0).val * 2 ^ 32 + (b.getD 5 0).val * 2 ^ 40
    + (b.getD 6 0).val * 2 ^ 48 + (b.getD 7 0).val * 2 ^ 56 : Nat) : ℚ)

/-- `Vec3` of `./types`, as the record of its three components. -/
structure Vec3 (K : Type) where
  x : K
  y : K
  z : K

section Float

variable {K : Type} [LinearOrderedField K] [FloorRing K]

/-- `buf.readFloatLE(offset)`: throws when the four bytes are not all inside. -/
def Buffer.readFloatLE (c : FloatCodec K) (b : Buffer) (offset : Nat) : Option K :=
  if b.length < offset + 4 then none
  else some (c.floatValue ((b.drop offset).take 4))

/-- `buf.readDoubleLE(offset)`: throws when the eight bytes are not all inside. -/
def Buffer.readDoubleLE (c : FloatCodec K) (b : Buffer) (offset : Nat) : Option K :=
  if b.length < offset + 8 then none
  else some (c.doubleValue ((b.drop offset).take 8))

/-- `buf.writeFloatLE(value, offset)`: throws when the four bytes do not fit;
returns the buffer and `offset + 4`. Any Number is accepted, NaN included. -/
def Buffer.writeFloatLE (c : FloatCodec K) (b : Buffer) (value : Option K) (offset : Nat) :
    Option (Buffer × Nat) :=
  if b.length < offset + 4 then none
  else some (b.take offset ++ (c.floatBytes value ++ b.drop (offset + 4)), offset + 4)

/-- `buf.writeDoubleLE(value, offset)`: throws when the eight bytes do not fit;
returns the buffer and `offset + 8`. -/
def Buffer.writeDoubleLE (c : FloatCodec K) (b : Buffer) (value : K) (offset : Nat) :
    Option (Buffer × Nat) :=
  if b.length < offset + 8 then none
  else some (b.take offset ++ (c.doubleBytes value ++ b.drop (offset + 8)), offset + 8)

/-- The Number operator `x % y`: the remainder of the division truncated towards
zero, so that the result has the sign of `x`. -/
def Number.rem (x y : K) : K :=
  x - y * ((if 0 ≤ x / y then Int.floor (x / y) else Int.ceil (x / y) : Int) : K)

/-- `float()`: `readFloatLE` at the position, then `position += 4`. -/
def Readable.float (c : FloatCodec K) (r : Readable) : Option (K × Readable) := do
  let ret ← Buffer.readFloatLE c r.buffer r.position
  pure (ret, { r with position := r.position + 4 })

/-- `double()`: `readDoubleLE` at the position, then `position += 8`. -/
def Readable.double (c : FloatCodec K) (r : Readable) : Option (K × Readable) := do
  let ret ← Buffer.readDoubleLE c r.buffer r.position
  pure (ret, { r with position := r.position + 8 })

/-- `vec3() { return new Vec3(this.float(), this.float(), this.float()) }`. -/
def Readable.vec3 (c : FloatCodec K) (r : Readable) : Option (Vec3 K × Readable) := do
  let (x, r1) ← r.float c
  let (y, r2) ← r1.float c
  let (z, r3) ← r2.float c
  pure ({ x := x, y := y, z := z }, r3)

/-- `vec3fa()`: three `float()` reads, each multiplied by `MULT_INT16_TO_RAD`. -/
def Readable.vec3fa (c : FloatCodec K) (PI : K) (r : Readable) :
    Option (Vec3 K × Readable) := do
  let (x, r1) ← r.float c
  let (y, r2) ← r1.float c
  let (z, r3) ← r2.float c
  pure ({ x := x * MULT_INT16_TO_RAD PI, y := y * MULT_INT16_TO_RAD PI,
          z := z * MULT_INT16_TO_RAD PI }, r3)

/-- `float(n) { this.position = this.buffer.writeFloatLE(n, this.position) }`. -/
def Writeable.float (c : FloatCodec K) (w : Writeable) (n : Option K) :
    Option Writeable := do
  let (buf, pos) ← Buffer.writeFloatLE c w.buffer n w.position
  pure { w with buffer := buf, position := pos }

/-- `double(n) { this.position = this.buffer.writeDoubleLE(n, this.position) }`. -/
def Writeable.double (c : FloatCodec K) (w : Writeable) (n : K) : Option Writeable := do
  let (buf, pos) ← Buffer.writeDoubleLE c w.buffer n w.position
  pure { w with buffer := buf, position := pos }

/-- `vec3(v)`: `this.float(v.x)`, `this.float(v.y)`, `this.float(v.z)`. -/
def Writeable.vec3 (c : FloatCodec K) (w : Writeable) (v : Vec3 K) : Option Writeable := do
  let w1 ← w.float c (some v.x)
  let w2 ← w1.float c (some v.y)
  w2.float c (some v.z)

/-- The argument `Math.round(v.x * MULT_RAD_TO_INT16 % 0x10000)` that `vec3fa`
passes to `float` for a component: `*` and `%` bind alike and associate to the left,
so the double product is reduced by `%` first, which is exact on doubles, and the
remainder is rounded. A product that is an infinity gives NaN, which is `none`. -/
def Writeable.vec3faArg (e : Engine K) (PI : K) (component : K) : Option Int :=
  (Number.mul e (some component) (MULT_RAD_TO_INT16 e PI)).map fun p =>
    Math.round (Number.rem p 0x10000)

/-- `vec3fa(v)`: one `this.float(Math.round(... % 0x10000))` for each of
`v.x`, `v.y`, `v.z`. -/
def Writeable.vec3fa (c : FloatCodec K) (e : Engine K) (PI : K) (w : Writeable)
    (v : Vec3 K) : Option Writeable := do
  let w1 ← w.float c ((Writeable.vec3faArg e PI v.x).map fun n => (n : K))
  let w2 ← w1.float c ((Writeable.vec3faArg e PI v.y).map fun n => (n : K))
  w2.float c ((Writeable.vec3faArg e PI v.z).map fun n => (n : K))

end Float

/-! ## Sequences of fields

Neither cursor knows a message: a caller performs one field operation after
another. `Field` names one such call, `write` and `read` perform it on either
cursor, and `writeAll` and `readAll` perform a sequence of calls in order. -/

/-- One call of a field operation of `Writeable`, with its argument. -/
inductive Field (K : Type) where
  | bool (b : Bool)
  | byte (n : Int)
  | uint16 (n : Int)
  | int16 (n : Int)
  | uint32 (n : Int)
  | int32 (n : Int)
  | uint64 (n : Int)
  | int64 (n : Int)
  | float (n : K)
  | double (n : K)
  | vec3 (v : Vec3 K)
  | vec3fa (v : Vec3 K)
  | angle (r : K)
  | skillid (arg : SkillArg)
  | bytes (buf : Option Buffer)
  | string (str : List CodeUnit)

section Fields

variable {K : Type} [LinearOrderedField K] [FloorRing K]

/-- The width of a field in bytes: the tabulated width of a fixed-width field,
the length of the buffer given to `bytes`, `(length + 1) * 2` for `string`. -/
def Field.width : Field K → Nat
  | .bool _ => 1
  | .byte _ => 1
  | .uint16 _ => 2
  | .int16 _ => 2
  | .uint32 _ => 4
  | .int32 _ => 4
  | .uint64 _ => 8
  | .int64 _ => 8
  | .float _ => 4
  | .double _ => 8
  | .vec3 _ => 12
  | .vec3fa _ => 12
  | .angle _ => 2
  | .skillid _ => 8
  | .bytes none => 0
  | .bytes (some buf) => buf.length
  | .string str => (str.length + 1) * 2

/-- The fields whose width does not depend on the value: all but `bytes` and `string`. -/
def Field.fixedWidth : Field K → Bool
  | .bytes _ => false
  | .string _ => false
  | _ => true

/-- The `Writeable` operation a field names, applied to its argument. -/
def Writeable.write (c : FloatCodec K) (e : Engine K) (PI : K) (w : Writeable) :
    Field K → Option Writeable
  | .bool b => some (w.bool b)
  | .byte n => some (w.byte n)
  | .uint16 n => w.uint16 n
  | .int16 n => w.int16 n
  | .uint32 n => w.uint32 n
  | .int32 n => w.int32 n
  | .uint64 n => w.uint64 n
  | .int64 n => w.int64 n
  | .float n => w.float c (some n)
  | .double n => w.double c n
  | .vec3 v => w.vec3 c v
  | .vec3fa v => w.vec3fa c e PI v
  | .angle r => w.angle e PI r
  | .skillid arg => w.skillid arg
  | .bytes buf => some (w.bytes buf)
  | .string str => w.string str

/-- The `Readable` operation of the same name as the field, keeping the cursor
and dropping the value read; `bytes` reads as many bytes as the field is wide. -/
def Readable.read (c : FloatCodec K) (e : Engine K) (PI : K) (r : Readable) :
    Field K → Option Readable
  | .bool _ => r.bool.map fun x => x.2.2
  | .byte _ => r.byte.map fun x => x.2
  | .uint16 _ => r.uint16.map fun x => x.2
  | .int16 _ => r.int16.map fun x => x.2
  | .uint32 _ => r.uint32.map fun x => x.2
  | .int32 _ => r.int32.map fun x => x.2
  | .uint64 _ => r.uint64.map fun x => x.2
  | .int64 _ => r.int64.map fun x => x.2
  | .float _ => (r.float c).map fun x => x.2
  | .double _ => (r.double c).map fun x => x.2
  | .vec3 _ => (r.vec3 c).map fun x => x.2
  | .vec3fa _ => (r.vec3fa c PI).map fun x => x.2
  | .angle _ => (r.angle PI).map fun x => x.2
  | .skillid _ => r.skillid.map fun x => x.2
  | .bytes buf => some (r.bytes (Field.width (Field.bytes buf : Field K))).2
  | .string _ => (r.string e).map fun x => x.2

/-- The fields of a sequence written one after another; a throw ends the sequence. -/
def Writeable.writeAll (c : FloatCodec K) (e : Engine K) (PI : K) (w : Writeable) :
    List (Field K) → Option Writeable
  | [] => some w
  | f :: fs => (w.write c e PI f).bind fun w1 => w1.writeAll c e PI fs

/-- The fields of a sequence read one after another; a throw ends the sequence. -/
def Readable.readAll (c : FloatCodec K) (e : Engine K) (PI : K) (r : Readable) :
    List (Field K) → Option Readable
  | [] => some r
  | f :: fs => (r.read c e PI f).bind fun r1 => r1.readAll c e PI fs

/-- The total width of a sequence of fields. -/
def Field.totalWidth (fs : List (Field K)) : Nat := (fs.map Field.width).sum

end Fields

/-! ## Bit operations as arithmetic -/

theorem nat_ldiff_mask (k n : Nat) : Nat.ldiff (2 ^ k - 1) n = 2 ^ k - (n % 2 ^ k + 1) := by
  apply Nat.eq_of_testBit_eq
  intro i
  rw [Nat.testBit_ldiff, Nat.testBit_two_pow_sub_one,
    Nat.testBit_two_pow_sub_succ (Nat.mod_lt _ (Nat.two_pow_pos k)), Nat.testBit_mod_two_pow]
  by_cases h : i < k <;> simp [h]

theorem bigAnd_mask (x : Int) (k : Nat) :
    bigAnd x (((2 ^ k - 1 : Nat) : Int)) = x % 2 ^ k := by
  have hpos : 0 < 2 ^ k := Nat.two_pow_pos k
  cases x with
  | ofNat n =>
    show ((Nat.land n (2 ^ k - 1) : Nat) : Int) = _
    have : Nat.land n (2 ^ k - 1) = n % 2 ^ k := Nat.and_pow_two_sub_one_eq_mod n k
    rw [this]
    simp
  | negSucc n =>
    show ((Nat.ldiff (2 ^ k - 1) n : Nat) : Int) = _
    rw [nat_ldiff_mask]
    have h1 : n % 2 ^ k < 2 ^ k := Nat.mod_lt _ hpos
    have h2 : ((2 : Int) ^ k) = ((2 ^ k : Nat) : Int) := by push_cast; rfl
    rw [h2, Int.emod_negSucc, Int.natAbs_ofNat, Int.subNatNat_eq_coe]
    omega

theorem bigShr_eq (x : Int) (k : Nat) : bigShr x k = x / 2 ^ k := by
  unfold bigShr
  rw [Int.shiftRight_eq_div_pow]
  push_cast; rfl

theorem nat_ldiff_shift (h lo k : Nat) (hlo : lo < 2 ^ k) :
    Nat.ldiff (Nat.shiftLeft' true h k) lo = 2 ^ k * h + (2 ^ k - (lo + 1)) := by
  have e : Nat.shiftLeft' true h k = 2 ^ k * h + (2 ^ k - 1) := by
    have := Nat.shiftLeft'_tt_eq_mul_pow h k
    have hp := Nat.two_pow_pos k
    rw [Nat.add_mul, Nat.mul_comm] at this
    omega
  rw [e]
  apply Nat.eq_of_testBit_eq
  intro i
  have hp := Nat.two_pow_pos k
  rw [Nat.testBit_ldiff, Nat.testBit_mul_pow_two_add h (by omega : 2 ^ k - 1 < 2 ^ k),
    Nat.testBit_mul_pow_two_add h (by omega : 2 ^ k - (lo + 1) < 2 ^ k),
    Nat.testBit_two_pow_sub_one, Nat.testBit_two_pow_sub_succ hlo]
  by_cases hi : i < k
  · simp [hi]
  · simp [hi]
    intro _
    exact Nat.testBit_lt_two_pow (lt_of_lt_of_le hlo (Nat.pow_le_pow_right (by decide) (by omega)))

theorem bigOr_bigShl (lo hi : Int) (k : Nat) (h0 : 0 ≤ lo) (h1 : lo < 2 ^ k) :
    bigOr lo (bigShl hi k) = lo + hi * 2 ^ k := by
  obtain ⟨l, rfl⟩ := Int.eq_ofNat_of_zero_le h0
  have hl : l < 2 ^ k := by exact_mod_cast h1
  unfold bigOr bigShl
  cases hi with
  | ofNat h =>
    rw [Int.ofNat_eq_coe, Int.shiftLeft_coe_nat]
    show ((Nat.lor l (h <<< k) : Nat) : Int) = _
    have : Nat.lor l (h <<< k) = 2 ^ k * h + l := by
      rw [Nat.mul_add_lt_is_or hl, Nat.shiftLeft_eq, Nat.mul_comm]
      exact Nat.lor_comm _ _
    rw [this]
    push_cast
    ring
  | negSucc h =>
    rw [Int.shiftLeft_negSucc]
    show Int.negSucc (Nat.ldiff (Nat.shiftLeft' true h k) l) = _
    rw [nat_ldiff_shift h l k hl, Int.negSucc_eq, Int.negSucc_eq]
    have hp := Nat.two_pow_pos k
    have h2 : ((2 : Int) ^ k) = ((2 ^ k : Nat) : Int) := by push_cast; rfl
    rw [h2]
    generalize 2 ^ k = m at *
    push_cast [Nat.cast_sub (by omega : l + 1 ≤ m)]
    ring

theorem toUint8_val (n : Int) : ((toUint8 n).val : Int) = n % 256 := by
  simp only [toUint8]
  omega

theorem writeUInt32LE_spec (b : Buffer) (v : Int) (off : Nat)
    (hv0 : 0 ≤ v) (hv1 : v < 4294967296) (hroom : off + 4 ≤ b.length) :
    ∃ b1 : Buffer, b.writeUInt32LE v off = some (b1, off + 4) ∧ b1.length = b.length ∧
      (∀ i, i < off ∨ off + 4 ≤ i → b1[i]? = b[i]?) ∧
      b1[off]? = some (toUint8 v) ∧ b1[off + 1]? = some (toUint8 (v / 2 ^ 8)) ∧
      b1[off + 2]? = some (toUint8 (v / 2 ^ 16)) ∧
      b1[off + 3]? = some (toUint8 (v / 2 ^ 24)) := by
  refine ⟨(((b.set off (toUint8 v)).set (off + 1) (toUint8 (v / 2 ^ 8))).set
    (off + 2) (toUint8 (v / 2 ^ 16))).set (off + 3) (toUint8 (v / 2 ^ 24)), ?_, ?_, ?_, ?_, ?_, ?_, ?_⟩
  · unfold Buffer.writeUInt32LE
    rw [if_neg (by omega), if_neg (by omega)]
  · simp
  · intro i hi
    simp only [List.getElem?_set]
    split_ifs <;> first | rfl | omega
  all_goals
    simp only [List.getElem?_set, List.length_set]
    split_ifs <;> first | rfl | omega

theorem readUInt32LE_spec (b : Buffer) (off : Nat) (x0 x1 x2 x3 : Byte)
    (h0 : b[off]? = some x0) (h1 : b[off + 1]? = some x1) (h2 : b[off + 2]? = some x2)
    (h3 : b[off + 3]? = some x3) :
    b.readUInt32LE off = some ((x0.val : Int) + (x1.val : Int) * 2 ^ 8 + (x2.val : Int) * 2 ^ 16
      + (x3.val : Int) * 2 ^ 24) := by
  simp only [Buffer.readUInt32LE, h0, h1, h2, h3]

theorem le32_compose (v : Int) (hv0 : 0 ≤ v) (hv1 : v < 4294967296) :
    ((toUint8 v).val : Int) + ((toUint8 (v / 2 ^ 8)).val : Int) * 2 ^ 8
      + ((toUint8 (v / 2 ^ 16)).val : Int) * 2 ^ 16
      + ((toUint8 (v / 2 ^ 24)).val : Int) * 2 ^ 24 = v := by
  simp only [toUint8_val]
  omega

theorem toUint8_eq_of_emod (a b : Int) (h : a % 256 = b % 256) : toUint8 a = toUint8 b := by
  apply Fin.ext
  simp only [toUint8]
  omega

theorem Writeable.uint32_spec (w : Writeable) (n : Int)
    (hroom : w.position + 4 ≤ w.buffer.length) :
    ∃ w1 : Writeable, w.uint32 n = some w1 ∧ w1.length = w.length ∧
      w1.position = w.position + 4 ∧ w1.buffer.length = w.buffer.length ∧
      (∀ i, i < w.position ∨ w.position + 4 ≤ i → w1.buffer[i]? = w.buffer[i]?) ∧
      w1.buffer[w.position]? = some (toUint8 n) ∧
      w1.buffer[w.position + 1]? = some (toUint8 (n / 2 ^ 8)) ∧
      w1.buffer[w.position + 2]? = some (toUint8 (n / 2 ^ 16)) ∧
      w1.buffer[w.position + 3]? = some (toUint8 (n / 2 ^ 24)) := by
  have h0 : 0 ≤ toUint32 n := by unfold toUint32; omega
  have h1 : toUint32 n < 4294967296 := by unfold toUint32; omega
  obtain ⟨b1, hw, hlen, hframe, e0, e1, e2, e3⟩ :=
    writeUInt32LE_spec w.buffer (toUint32 n) w.position h0 h1 hroom
  refine ⟨{ w with buffer := b1, position := w.position + 4 }, ?_, rfl, rfl, hlen, hframe,
    ?_, ?_, ?_, ?_⟩
  · simp [Writeable.uint32, hw]
  · rw [e0]; congr 1; apply toUint8_eq_of_emod; unfold toUint32; omega
  · rw [e1]; congr 1; apply toUint8_eq_of_emod; unfold toUint32; omega
  · rw [e2]; congr 1; apply toUint8_eq_of_emod; unfold toUint32; omega
  · rw [e3]; congr 1; apply toUint8_eq_of_emod; unfold toUint32; omega

theorem bigAnd_mask32 (x : Int) : bigAnd x 0xffffffff = x % 4294967296 := by
  have := bigAnd_mask x 32
  norm_num at this
  exact this

theorem Writeable.uint64_spec (w : Writeable) (n : Int)
    (hroom : w.position + 8 ≤ w.buffer.length) :
    ∃ w2 : Writeable, w.uint64 n = some w2 ∧ w2.length = w.length ∧
      w2.position = w.position + 8 ∧ w2.buffer.length = w.buffer.length ∧
      (∀ i, i < w.position ∨ w.position + 8 ≤ i → w2.buffer[i]? = w.buffer[i]?) ∧
      w2.buffer[w.position]? = some (toUint8 n) ∧
      w2.buffer[w.position + 1]? = some (toUint8 (n / 2 ^ 8)) ∧
      w2.buffer[w.position + 2]? = some (toUint8 (n / 2 ^ 16)) ∧
      w2.buffer[w.position + 3]? = some (toUint8 (n / 2 ^ 24)) ∧
      w2.buffer[w.position + 4]? = some (toUint8 (n / 2 ^ 32)) ∧
      w2.buffer[w.position + 5]? = some (toUint8 (n / 2 ^ 40)) ∧
      w2.buffer[w.position + 6]? = some (toUint8 (n / 2 ^ 48)) ∧
      w2.buffer[w.position + 7]? = some (toUint8 (n / 2 ^ 56)) := by
  obtain ⟨w1, hw1, hl1, hp1, hb1, hf1, a0, a1, a2, a3⟩ :=
    Writeable.uint32_spec w (bigAnd n 0xffffffff) (by omega)
  obtain ⟨w2, hw2, hl2, hp2, hb2, hf2, c0, c1, c2, c3⟩ :=
    Writeable.uint32_spec w1 (bigAnd (bigShr n 32) 0xffffffff) (by omega)
  rw [hp1] at hf2 c0 c1 c2 c3
  rw [bigAnd_mask32] at a0 a1 a2 a3 c0 c1 c2 c3
  rw [bigShr_eq] at c0 c1 c2 c3
  refine ⟨w2, ?_, by rw [hl2, hl1], by rw [hp2, hp1], by rw [hb2, hb1], ?_,
    ?_, ?_, ?_, ?_, ?_, ?_, ?_, ?_⟩
  · simp [Writeable.uint64, hw1, hw2]
  · intro i hi
    rw [hf2 i (by omega), hf1 i (by omega)]
  · rw [hf2 _ (by omega), a0]; congr 1; apply toUint8_eq_of_emod; omega
  · rw [hf2 _ (by omega), a1]; congr 1; apply toUint8_eq_of_emod; omega
  · rw [hf2 _ (by omega), a2]; congr 1; apply toUint8_eq_of_emod; omega
  · rw [hf2 _ (by omega), a3]; congr 1; apply toUint8_eq_of_emod; omega
  · rw [c0]; congr 1; apply toUint8_eq_of_emod; omega
  · rw [show w.position + 5 = w.position + 4 + 1 from rfl, c1]; congr 1
    apply toUint8_eq_of_emod; omega
  · rw [show w.position + 6 = w.position + 4 + 2 from rfl, c2]; congr 1
    apply toUint8_eq_of_emod; omega
  · rw [show w.position + 7 = w.position + 4 + 3 from rfl, c3]; congr 1
    apply toUint8_eq_of_emod; omega

theorem Readable.uint32_of_bytes (buf : Buffer) (p : Nat) (x0 x1 x2 x3 : Byte)
    (h0 : buf[p]? = some x0) (h1 : buf[p + 1]? = some x1) (h2 : buf[p + 2]? = some x2)
    (h3 : buf[p + 3]? = some x3) :
    Readable.uint32 ⟨buf, p⟩ = some ((x0.val : Int) + (x1.val : Int) * 2 ^ 8
      + (x2.val : Int) * 2 ^ 16 + (x3.val : Int) * 2 ^ 24, ⟨buf, p + 4⟩) := by
  simp [Readable.uint32, readUInt32LE_spec buf p x0 x1 x2 x3 h0 h1 h2 h3]

theorem Readable.int32_of_bytes (buf : Buffer) (p : Nat) (x0 x1 x2 x3 : Byte)
    (h0 : buf[p]? = some x0) (h1 : buf[p + 1]? = some x1) (h2 : buf[p + 2]? = some x2)
    (h3 : buf[p + 3]? = some x3) :
    Readable.int32 ⟨buf, p⟩ = some (toInt32 ((x0.val : Int) + (x1.val : Int) * 2 ^ 8
      + (x2.val : Int) * 2 ^ 16 + (x3.val : Int) * 2 ^ 24), ⟨buf, p + 4⟩) := by
  have e : toInt32 ((x0.val : Int) + (x1.val : Int) * 2 ^ 8
      + (x2.val : Int) * 2 ^ 16 + (x3.val : Int) * 2 ^ 24)
      = if (2 : Int) ^ 31 ≤ (x0.val : Int) + (x1.val : Int) * 2 ^ 8
          + (x2.val : Int) * 2 ^ 16 + (x3.val : Int) * 2 ^ 24
        then (x0.val : Int) + (x1.val : Int) * 2 ^ 8
          + (x2.val : Int) * 2 ^ 16 + (x3.val : Int) * 2 ^ 24 - 2 ^ 32
        else (x0.val : Int) + (x1.val : Int) * 2 ^ 8
          + (x2.val : Int) * 2 ^ 16 + (x3.val : Int) * 2 ^ 24 := by
    unfold toInt32
    have := x0.isLt; have := x1.isLt; have := x2.isLt; have := x3.isLt
    split_ifs <;> omega
  rw [e]
  simp [Readable.int32, Buffer.readInt32LE, h0, h1, h2, h3]

theorem Readable.uint64_of_bytes (buf : Buffer) (p : Nat) (x0 x1 x2 x3 x4 x5 x6 x7 : Byte)
    (h0 : buf[p]? = some x0) (h1 : buf[p + 1]? = some x1) (h2 : buf[p + 2]? = some x2)
    (h3 : buf[p + 3]? = some x3) (h4 : buf[p + 4]? = some x4) (h5 : buf[p + 5]? = some x5)
    (h6 : buf[p + 6]? = some x6) (h7 : buf[p + 7]? = some x7) :
    Readable.uint64 ⟨buf, p⟩ = some ((x0.val : Int) + (x1.val : Int) * 2 ^ 8
      + (x2.val : Int) * 2 ^ 16 + (x3.val : Int) * 2 ^ 24 + (x4.val : Int) * 2 ^ 32
      + (x5.val : Int) * 2 ^ 40 + (x6.val : Int) * 2 ^ 48 + (x7.val : Int) * 2 ^ 56,
      ⟨buf, p + 8⟩) := by
  have e1 := Readable.uint32_of_bytes buf p x0 x1 x2 x3 h0 h1 h2 h3
  have e2 := Readable.uint32_of_bytes buf (p + 4) x4 x5 x6 x7 h4 h5 h6 h7
  have := x0.isLt; have := x1.isLt; have := x2.isLt; have := x3.isLt
  simp only [Readable.uint64, e1, e2, Option.bind_eq_bind, Option.some_bind, Option.pure_def]
  rw [bigOr_bigShl _ _ 32 (by omega) (by omega)]
  congr 2
  ring

theorem Readable.int64_of_bytes (buf : Buffer) (p : Nat) (x0 x1 x2 x3 x4 x5 x6 x7 : Byte)
    (h0 : buf[p]? = some x0) (h1 : buf[p + 1]? = some x1) (h2 : buf[p + 2]? = some x2)
    (h3 : buf[p + 3]? = some x3) (h4 : buf[p + 4]? = some x4) (h5 : buf[p + 5]? = some x5)
    (h6 : buf[p + 6]? = some x6) (h7 : buf[p + 7]? = some x7) :
    Readable.int64 ⟨buf, p⟩ = some ((x0.val : Int) + (x1.val : Int) * 2 ^ 8
      + (x2.val : Int) * 2 ^ 16 + (x3.val : Int) * 2 ^ 24
      + toInt32 ((x4.val : Int) + (x5.val : Int) * 2 ^ 8 + (x6.val : Int) * 2 ^ 16
          + (x7.val : Int) * 2 ^ 24) * 2 ^ 32,
      ⟨buf, p + 8⟩) := by
  have e1 := Readable.uint32_of_bytes buf p x0 x1 x2 x3 h0 h1 h2 h3
  have e2 := Readable.int32_of_bytes buf (p + 4) x4 x5 x6 x7 h4 h5 h6 h7
  have := x0.isLt; have := x1.isLt; have := x2.isLt; have := x3.isLt
  simp only [Readable.int64, e1, e2, Option.bind_eq_bind, Option.some_bind, Option.pure_def]
  rw [bigOr_bigShl _ _ 32 (by omega) (by omega)]

/-! ## What the integer writers store and the readers return -/

theorem numberAnd_mask (a : Int) (k : Nat) (hk : k ≤ 31) :
    numberAnd a (((2 ^ k - 1 : Nat)) : Int) = a % 2 ^ k := by
  have hp : 0 < 2 ^ k := Nat.two_pow_pos k
  have hle : 2 ^ k ≤ 2 ^ 31 := Nat.pow_le_pow_right (by decide) hk
  have hdvd : ((2 : Int) ^ k) ∣ 4294967296 := by
    have : (4294967296 : Int) = 2 ^ 32 := by norm_num
    rw [this]
    exact pow_dvd_pow 2 (by omega)
  have hcast : ((2 : Int) ^ k) = ((2 ^ k : Nat) : Int) := by push_cast; rfl
  have hmod := Int.emod_emod_of_dvd a hdvd
  have hland : Nat.land (a % 4294967296).toNat (2 ^ k - 1)
      = (a % 4294967296).toNat % 2 ^ k := Nat.and_pow_two_sub_one_eq_mod _ k
  have hm : (toUint32 (((2 ^ k - 1 : Nat)) : Int)).toNat = 2 ^ k - 1 := by
    unfold toUint32
    norm_num at hle
    omega
  unfold numberAnd
  rw [hm]
  unfold toUint32
  rw [hland]
  have hlt : (a % 4294967296).toNat % 2 ^ k < 2 ^ k := Nat.mod_lt _ hp
  have e : (Int.ofNat ((a % 4294967296).toNat % 2 ^ k)) = a % 2 ^ k := by
    rw [← hmod, hcast]
    simp only [Int.ofNat_eq_coe, Int.natCast_mod]
    congr 1
    omega
  rw [e]
  have h0 : 0 ≤ a % 2 ^ k := Int.emod_nonneg _ (by positivity)
  have h1 : a % 2 ^ k < 2 ^ k := Int.emod_lt_of_pos _ (by positivity)
  rw [hcast] at h0 h1 ⊢
  norm_num at hle
  unfold toInt32
  generalize a % ((2 ^ k : Nat) : Int) = x at *
  generalize 2 ^ k = m at *
  split_ifs <;> omega

theorem numberAnd_ffff (a : Int) : numberAnd a 0xffff = a % 65536 := by
  simpa using numberAnd_mask a 16 (by decide)

theorem numberAnd_fffffff (a : Int) : numberAnd a 0xfffffff = a % 268435456 := by
  simpa using numberAnd_mask a 28 (by decide)

theorem numberAnd_fff (a : Int) : numberAnd a 0xfff = a % 4096 := by
  simpa using numberAnd_mask a 12 (by decide)

theorem numberAnd_f (a : Int) : numberAnd a 0xf = a % 16 := by
  simpa using numberAnd_mask a 4 (by decide)

theorem numberAnd_one (a : Int) : numberAnd a 1 = a % 2 := by
  simpa using numberAnd_mask a 1 (by decide)

theorem writeUInt16LE_spec (b : Buffer) (v : Int) (off : Nat)
    (hv0 : 0 ≤ v) (hv1 : v < 65536) (hroom : off + 2 ≤ b.length) :
    ∃ b1 : Buffer, b.writeUInt16LE v off = some (b1, off + 2) ∧ b1.length = b.length ∧
      (∀ i, i < off ∨ off + 2 ≤ i → b1[i]? = b[i]?) ∧
      b1[off]? = some (toUint8 v) ∧ b1[off + 1]? = some (toUint8 (v / 2 ^ 8)) := by
  refine ⟨(b.set off (toUint8 v)).set (off + 1) (toUint8 (v / 2 ^ 8)), ?_, ?_, ?_, ?_, ?_⟩
  · unfold Buffer.writeUInt16LE
    rw [if_neg (by omega), if_neg (by omega)]
  · simp
  · intro i hi
    simp only [List.getElem?_set]
    split_ifs <;> first | rfl | omega
  all_goals
    simp only [List.getElem?_set, List.length_set]
    split_ifs <;> first | rfl | omega

theorem Writeable.uint16_spec (w : Writeable) (n : Int)
    (hroom : w.position + 2 ≤ w.buffer.length) :
    ∃ w1 : Writeable, w.uint16 n = some w1 ∧ w1.length = w.length ∧
      w1.position = w.position + 2 ∧ w1.buffer.length = w.buffer.length ∧
      (∀ i, i < w.position ∨ w.position + 2 ≤ i → w1.buffer[i]? = w.buffer[i]?) ∧
      w1.buffer[w.position]? = some (toUint8 n) ∧
      w1.buffer[w.position + 1]? = some (toUint8 (n / 2 ^ 8)) := by
  obtain ⟨b1, hw, hlen, hframe, e0, e1⟩ :=
    writeUInt16LE_spec w.buffer (numberAnd n 0xffff) w.position
      (by rw [numberAnd_ffff]; omega) (by rw [numberAnd_ffff]; omega) hroom
  rw [numberAnd_ffff] at e0 e1
  refine ⟨{ w with buffer := b1, position := w.position + 2 }, ?_, rfl, rfl, hlen, hframe,
    ?_, ?_⟩
  · simp [Writeable.uint16, hw]
  · rw [e0]; congr 1; apply toUint8_eq_of_emod; omega
  · rw [e1]; congr 1; apply toUint8_eq_of_emod; omega

theorem Readable.uint16_of_bytes (buf : Buffer) (p : Nat) (x0 x1 : Byte)
    (h0 : buf[p]? = some x0) (h1 : buf[p + 1]? = some x1) :
    Readable.uint16 ⟨buf, p⟩ = some ((x0.val : Int) + (x1.val : Int) * 2 ^ 8, ⟨buf, p + 2⟩) := by
  simp [Readable.uint16, Buffer.readUInt16LE, h0, h1]

theorem Readable.int16_of_bytes (buf : Buffer) (p : Nat) (x0 x1 : Byte)
    (h0 : buf[p]? = some x0) (h1 : buf[p + 1]? = some x1) :
    Readable.int16 ⟨buf, p⟩ = some (
      (if (2 : Int) ^ 15 ≤ (x0.val : Int) + (x1.val : Int) * 2 ^ 8
        then (x0.val : Int) + (x1.val : Int) * 2 ^ 8 - 2 ^ 16
        else (x0.val : Int) + (x1.val : Int) * 2 ^ 8), ⟨buf, p + 2⟩) := by
  simp [Readable.int16, Buffer.readInt16LE, h0, h1]

theorem Writeable.byte_spec (w : Writeable) (n : Int)
    (hroom : w.position + 1 ≤ w.buffer.length) :
    (w.byte n).length = w.length ∧ (w.byte n).position = w.position + 1 ∧
      (w.byte n).buffer.length = w.buffer.length ∧
      (∀ i, i ≠ w.position → (w.byte n).buffer[i]? = w.buffer[i]?) ∧
      (w.byte n).buffer[w.position]? = some (toUint8 n) := by
  refine ⟨rfl, rfl, ?_, ?_, ?_⟩
  · simp [Writeable.byte, Buffer.setIndex]
  · intro i hi
    simp only [Writeable.byte, Buffer.setIndex, List.getElem?_set]
    rw [if_neg (by omega)]
  · simp only [Writeable.byte, Buffer.setIndex, List.getElem?_set]
    split_ifs <;> first | rfl | omega

theorem Readable.byte_of_bytes (buf : Buffer) (p : Nat) (x0 : Byte) (h0 : buf[p]? = some x0) :
    Readable.byte ⟨buf, p⟩ = some ((x0.val : Int), ⟨buf, p + 1⟩) := by
  simp [Readable.byte, Buffer.readUInt8, h0]

theorem getElem?_append_add (pre l : List Byte) (k : Nat) (x : Byte) (h : l[k]? = some x) :
    (pre ++ l)[pre.length + k]? = some x := by
  rw [List.getElem?_append_right (by omega), ← h]
  congr 1
  omega

theorem uint64_write_read (w : Writeable) (n : Int) (h0 : 0 ≤ n)
    (h1 : n < 2 ^ 64) (hroom : w.position + 8 ≤ w.buffer.length) :
    ∃ w2 : Writeable, w.uint64 n = some w2 ∧ w2.position = w.position + 8 ∧
      Readable.uint64 ⟨w2.buffer, w.position⟩ = some (n, ⟨w2.buffer, w.position + 8⟩) := by
  obtain ⟨w2, hw, -, hp, -, -, b0, b1, b2, b3, b4, b5, b6, b7⟩ :=
    Writeable.uint64_spec w n hroom
  refine ⟨w2, hw, hp, ?_⟩
  rw [Readable.uint64_of_bytes _ _ _ _ _ _ _ _ _ _ b0 b1 b2 b3 b4 b5 b6 b7]
  congr 2
  simp only [toUint8_val]
  omega

/-! ## `skillid`: the packed value as arithmetic -/

theorem bigAnd_bit_ne_zero (x : Int) (k : Nat) (h : 0 ≤ x) :
    bigAnd x (((2 ^ k : Nat)) : Int) ≠ 0 ↔ x / 2 ^ k % 2 = 1 := by
  obtain ⟨n, rfl⟩ := Int.eq_ofNat_of_zero_le h
  have e : bigAnd (n : Int) (((2 ^ k : Nat)) : Int) = ((n &&& 2 ^ k : Nat) : Int) := rfl
  rw [e]
  have hbit : (n &&& 2 ^ k ≠ 0) ↔ n.testBit k = true := by
    constructor
    · intro hne
      obtain ⟨i, hi⟩ := Nat.ne_zero_implies_bit_true hne
      rw [Nat.testBit_and, Nat.testBit_two_pow] at hi
      simp only [Bool.and_eq_true, decide_eq_true_eq] at hi
      rw [hi.2]
      exact hi.1
    · intro ht hz
      have : (n &&& 2 ^ k).testBit k = true := by
        rw [Nat.testBit_and, Nat.testBit_two_pow, ht]
        simp
      rw [hz] at this
      simp at this
  have hdm : n.testBit k = true ↔ n / 2 ^ k % 2 = 1 := by
    rw [Nat.testBit_to_div_mod]
    simp
  constructor
  · intro hne
    have h1 : n &&& 2 ^ k ≠ 0 := by
      intro hz
      apply hne
      rw [hz]
      rfl
    have h2 := hdm.mp (hbit.mp h1)
    have h3 : (((n / 2 ^ k % 2 : Nat)) : Int) = 1 := by rw [h2]; rfl
    push_cast at h3
    exact h3
  · intro h1 hz
    have h2 : n / 2 ^ k % 2 = 1 := by
      have : (((n / 2 ^ k % 2 : Nat)) : Int) = 1 := by push_cast; exact h1
      exact_mod_cast this
    have h3 := hbit.mpr (hdm.mpr h2)
    apply h3
    exact_mod_cast hz

theorem bigAnd_bit32_ne_zero (x : Int) (h : 0 ≤ x) :
    bigAnd x 0x0100000000 ≠ 0 ↔ x / 4294967296 % 2 = 1 := by
  simpa using bigAnd_bit_ne_zero x 32 h

theorem bigAnd_ffff (a : Int) : bigAnd a 0xffff = a % 65536 := by
  simpa using bigAnd_mask a 16

theorem bigAnd_fffffff (a : Int) : bigAnd a 0xfffffff = a % 268435456 := by
  simpa using bigAnd_mask a 28

theorem bigAnd_fff (a : Int) : bigAnd a 0xfff = a % 4096 := by
  simpa using bigAnd_mask a 12

theorem bigAnd_F (a : Int) : bigAnd a 0xF = a % 16 := by
  simpa using bigAnd_mask a 4

/-- The 64-bit value `Writeable.skillid` packs, as arithmetic. -/
theorem Writeable.skillid_eq_uint64 (w : Writeable) (obj : SkillObj) :
    w.skillid (.object obj) = w.uint64
      ((if obj.npc.getD false then obj.id.getD 0 % 65536 else obj.id.getD 0 % 268435456)
        + (if obj.npc.getD false then obj.huntingZoneId.getD 0 % 4096 else 0) * 65536
        + obj.type.getD 0 % 16 * 268435456
        + (if obj.npc.getD false then 1 else 0) * 4294967296
        + obj.reserved.getD 0 % 2 * 8589934592) := by
  unfold Writeable.skillid
  simp only
  congr 1
  cases obj.npc.getD false
  · simp only [Bool.false_eq_true, if_false, numberAnd_fffffff, numberAnd_f, numberAnd_one]
    rw [bigOr_bigShl _ _ 28 (by omega) (by omega), bigOr_bigShl _ _ 32 (by omega) (by omega),
      bigOr_bigShl _ _ 33 (by omega) (by omega)]
    norm_num
  · simp only [if_true, numberAnd_ffff, numberAnd_fff, numberAnd_f, numberAnd_one]
    rw [bigOr_bigShl _ _ 16 (by omega) (by omega), bigOr_bigShl _ _ 28 (by omega) (by omega),
      bigOr_bigShl _ _ 32 (by omega) (by omega), bigOr_bigShl _ _ 33 (by omega) (by omega)]
    norm_num

/-- What `Readable.skillid` unpacks from a non-negative 64-bit value, as arithmetic. -/
theorem Readable.skillid_of_uint64 (r r1 : Readable) (raw : Int) (h0 : 0 ≤ raw)
    (h : r.uint64 = some (raw, r1)) :
    r.skillid = some (
      { id := if raw / 4294967296 % 2 = 1 then raw % 65536 else raw % 268435456,
        huntingZoneId := if raw / 4294967296 % 2 = 1 then raw / 65536 % 4096 else 0,
        type := raw / 268435456 % 16,
        npc := decide (raw / 4294967296 % 2 = 1),
        reserved := raw / 8589934592 }, r1) := by
  simp only [Readable.skillid, h, Option.bind_eq_bind, Option.some_bind, Option.pure_def,
    bigAnd_bit32_ne_zero raw h0, bigShr_eq, bigAnd_F, bigAnd_fff]
  by_cases hb : raw / 4294967296 % 2 = 1
  · simp [hb, bigAnd_ffff]
  · simp [hb, bigAnd_fffffff]

theorem skillid_write_read (w : Writeable) (obj : SkillObj)
    (hroom : w.position + 8 ≤ w.buffer.length) :
    ∃ w2 : Writeable, w.skillid (.object obj) = some w2 ∧ w2.position = w.position + 8 ∧
      Readable.skillid ⟨w2.buffer, w.position⟩ = some (
        { id := if obj.npc.getD false then obj.id.getD 0 % 65536
            else obj.id.getD 0 % 268435456,
          huntingZoneId := if obj.npc.getD false then obj.huntingZoneId.getD 0 % 4096 else 0,
          type := obj.type.getD 0 % 16,
          npc := obj.npc.getD false,
          reserved := obj.reserved.getD 0 % 2 }, ⟨w2.buffer, w.position + 8⟩) := by
  rw [Writeable.skillid_eq_uint64]
  generalize hraw : ((if obj.npc.getD false then obj.id.getD 0 % 65536
      else obj.id.getD 0 % 268435456)
        + (if obj.npc.getD false then obj.huntingZoneId.getD 0 % 4096 else 0) * 65536
        + obj.type.getD 0 % 16 * 268435456
        + (if obj.npc.getD false then 1 else 0) * 4294967296
        + obj.reserved.getD 0 % 2 * 8589934592) = raw
  have hb : 0 ≤ raw ∧ raw < 2 ^ 64 := by
    rw [← hraw]
    split_ifs <;> omega
  obtain ⟨w2, hw, hp, hr⟩ := uint64_write_read w raw hb.1 hb.2 hroom
  refine ⟨w2, hw, hp, ?_⟩
  rw [Readable.skillid_of_uint64 _ _ raw hb.1 hr]
  congr 2
  rw [← hraw]
  cases obj.npc.getD false
  · simp only [Bool.false_eq_true, if_false]
    have e : ¬ ((obj.id.getD 0 % 268435456 + 0 * 65536 + obj.type.getD 0 % 16 * 268435456
        + 0 * 4294967296 + obj.reserved.getD 0 % 2 * 8589934592) / 4294967296 % 2 = 1) := by
      omega
    simp only [e, if_false, decide_False]
    congr 1 <;> omega
  · simp only [if_true]
    have e : (obj.id.getD 0 % 65536 + obj.huntingZoneId.getD 0 % 4096 * 65536
        + obj.type.getD 0 % 16 * 268435456
        + 1 * 4294967296 + obj.reserved.getD 0 % 2 * 8589934592) / 4294967296 % 2 = 1 := by
      omega
    simp only [e, if_true, decide_True]
    congr 1 <;> omega

/-! ## Strings -/

theorem Readable.stringLoop_step (r r1 : Readable) (c : Int) (ret : List Int)
    (h : r.uint16 = some (c, r1)) :
    r.stringLoop ret = if c = 0 then some (ret, r1) else r1.stringLoop (ret ++ [c]) := by
  rw [Readable.stringLoop]
  split
  · rename_i h2
    rw [h] at h2
    cases h2
  · rename_i c2 r2 h2
    rw [h] at h2
    cases h2
    rfl

theorem ucs2_length (s : List CodeUnit) : (Buffer.ucs2 s).length = s.length * 2 := by
  induction s with
  | nil => rfl
  | cons c s ih =>
    simp only [Buffer.ucs2, List.flatMap_cons, List.length_append, List.length_cons,
      List.length_nil] at ih ⊢
    omega

theorem range_map_getD (pat : List Byte) :
    (List.range pat.length).map (fun i => pat.getD (i % pat.length) 0) = pat := by
  apply List.ext_getElem?
  intro i
  by_cases hi : i < pat.length
  · simp [hi, Nat.mod_eq_of_lt hi, List.getD_eq_getElem?_getD]
  · have h1 : pat.length ≤ i := by omega
    rw [List.getElem?_eq_none (by simpa using h1), List.getElem?_eq_none h1]

theorem codeUnit_bytes (c : CodeUnit) :
    (((toUint8 (c.val : Int)).val : Int) + ((toUint8 ((c.val : Int) / 2 ^ 8)).val : Int) * 2 ^ 8)
      = (c.val : Int) := by
  have := c.isLt
  simp only [toUint8_val]
  omega

theorem toUint16_val (c : CodeUnit) : toUint16 (c.val : Int) = c := by
  apply Fin.ext
  have := c.isLt
  simp only [toUint16]
  omega

theorem Readable.stringLoop_ucs2 (s : List CodeUnit) (hz : ∀ c ∈ s, c ≠ 0) :
    ∀ (pre post : List Byte) (ret : List Int),
      Readable.stringLoop ⟨pre ++ (Buffer.ucs2 (s ++ [0]) ++ post), pre.length⟩ ret
        = some (ret ++ s.map (fun c => (c.val : Int)),
            ⟨pre ++ (Buffer.ucs2 (s ++ [0]) ++ post), pre.length + (s.length + 1) * 2⟩) := by
  induction s with
  | nil =>
    intro pre post ret
    have h := Readable.uint16_of_bytes (pre ++ (Buffer.ucs2 ([] ++ [0]) ++ post)) pre.length
      (toUint8 0) (toUint8 (0 / 2 ^ 8))
      (getElem?_append_add pre _ 0 _ (by simp [Buffer.ucs2]))
      (getElem?_append_add pre _ 1 _ (by simp [Buffer.ucs2]))
    rw [Readable.stringLoop_step _ _ _ _ h]
    simp [toUint8]
  | cons c s ih =>
    intro pre post ret
    have hc : c ≠ 0 := hz c (by simp)
    have hs : ∀ d ∈ s, d ≠ 0 := fun d hd => hz d (by simp [hd])
    have h := Readable.uint16_of_bytes (pre ++ (Buffer.ucs2 (c :: s ++ [0]) ++ post)) pre.length
      (toUint8 (c.val : Int)) (toUint8 ((c.val : Int) / 2 ^ 8))
      (getElem?_append_add pre _ 0 _ (by simp [Buffer.ucs2]))
      (getElem?_append_add pre _ 1 _ (by simp [Buffer.ucs2]))
    rw [Readable.stringLoop_step _ _ _ _ h, codeUnit_bytes]
    have hne : ¬ ((c.val : Int) = 0) := by
      intro h0
      apply hc
      apply Fin.ext
      have : c.val = 0 := by exact_mod_cast h0
      rw [this]
      rfl
    rw [if_neg hne]
    have hbuf : pre ++ (Buffer.ucs2 (c :: s ++ [0]) ++ post)
        = (pre ++ [toUint8 (c.val : Int), toUint8 ((c.val : Int) / 2 ^ 8)])
          ++ (Buffer.ucs2 (s ++ [0]) ++ post) := by
      simp [Buffer.ucs2]
    have hlen : pre.length + 2
        = (pre ++ [toUint8 (c.val : Int), toUint8 ((c.val : Int) / 2 ^ 8)]).length := by
      simp
    rw [hbuf, hlen, ih hs]
    simp only [List.length_append, List.length_cons, List.length_nil, List.map_cons,
      List.append_assoc, List.singleton_append]
    congr 3
    omega

theorem Writeable.string_spec (w : Writeable) (s : List CodeUnit)
    (hroom : w.position + (s.length + 1) * 2 ≤ w.buffer.length) :
    w.string s = some
      { length := w.length,
        buffer := w.buffer.take w.position ++ (Buffer.ucs2 (s ++ [0])
          ++ w.buffer.drop (w.position + (s.length + 1) * 2)),
        position := w.position + (s.length + 1) * 2 } := by
  have hl : (Buffer.ucs2 (s ++ [0])).length = (s.length + 1) * 2 := by
    rw [ucs2_length]; simp
  have hr : w.position + (s.length + 1) * 2 - w.position = (Buffer.ucs2 (s ++ [0])).length := by
    rw [hl]; omega
  simp only [Writeable.string, Buffer.fill, Option.bind_eq_bind, Option.pure_def]
  rw [if_neg (by omega), if_neg (by omega)]
  simp only [Option.some_bind, hr, range_map_getD, List.append_assoc]

theorem splice_frame (buf pat : List Byte) (p : Nat) (hroom : p + pat.length ≤ buf.length) :
    (buf.take p ++ (pat ++ buf.drop (p + pat.length))).length = buf.length ∧
    ∀ i, i < p ∨ p + pat.length ≤ i →
      (buf.take p ++ (pat ++ buf.drop (p + pat.length)))[i]? = buf[i]? := by
  have hpre : (buf.take p).length = p := by
    rw [List.length_take]; omega
  constructor
  · simp only [List.length_append, List.length_take, List.length_drop]
    omega
  · intro i hi
    rcases hi with hi | hi
    · rw [List.getElem?_append_left (by omega), List.getElem?_take_of_lt hi]
    · rw [List.getElem?_append_right (by omega), List.getElem?_append_right (by omega),
        List.getElem?_drop]
      congr 1
      omega

/-! ## Angles: what `Readable.angle` returns -/

section AngleLemmas

variable {K : Type} [LinearOrderedField K]

theorem angle_write_read (PI : K) (w : Writeable) (idx : Int)
    (hroom : w.position + 2 ≤ w.buffer.length) :
    ∃ w2 : Writeable, w.int16 idx = some w2 ∧ w2.position = w.position + 2 ∧
      Readable.angle PI ⟨w2.buffer, w.position⟩
        = some ((((idx + 32768) % 65536 - 32768 : Int) : K) * MULT_INT16_TO_RAD PI,
            ⟨w2.buffer, w.position + 2⟩) := by
  obtain ⟨w1, hw, -, hp, -, -, b0, b1⟩ := Writeable.uint16_spec w idx hroom
  refine ⟨w1, hw, hp, ?_⟩
  simp only [Readable.angle, Readable.int16_of_bytes _ _ _ _ b0 b1, Option.bind_eq_bind,
    Option.some_bind, Option.pure_def]
  congr 4
  simp only [toUint8_val]
  split_ifs <;> omega

theorem round_bounds [FloorRing K] (x : K) : ((Math.round x : Int) : K) ≤ x + 1 / 2 ∧
    x - 1 / 2 < ((Math.round x : Int) : K) := by
  unfold Math.round
  constructor
  · exact Int.floor_le _
  · have := Int.lt_floor_add_one (x + 1 / 2)
    linarith

theorem angle_value_bounds (PI : K) (hPI : 0 < PI) (v : Int) (h0 : -32768 ≤ v)
    (h1 : v ≤ 32767) :
    -PI ≤ (v : K) * MULT_INT16_TO_RAD PI ∧ (v : K) * MULT_INT16_TO_RAD PI < PI := by
  have hv0 : (-32768 : K) ≤ (v : K) := by exact_mod_cast h0
  have hv1 : (v : K) ≤ 32767 := by exact_mod_cast h1
  unfold MULT_INT16_TO_RAD
  constructor
  · have : (v : K) * (1 / 0x8000 * PI) = (v : K) * PI / 32768 := by ring
    rw [this, le_div_iff₀ (by norm_num)]
    nlinarith
  · have : (v : K) * (1 / 0x8000 * PI) = (v : K) * PI / 32768 := by ring
    rw [this, div_lt_iff₀ (by norm_num)]
    nlinarith

theorem Readable.angle_of_bytes (PI : K) (buf : Buffer) (p : Nat) (x0 x1 : Byte)
    (h0 : buf[p]? = some x0) (h1 : buf[p + 1]? = some x1) :
    ∃ v : Int, -32768 ≤ v ∧ v ≤ 32767 ∧
      Readable.int16 ⟨buf, p⟩ = some (v, ⟨buf, p + 2⟩) ∧
      Readable.angle PI ⟨buf, p⟩ = some ((v : K) * MULT_INT16_TO_RAD PI, ⟨buf, p + 2⟩) := by
  have hr := Readable.int16_of_bytes buf p x0 x1 h0 h1
  have := x0.isLt
  have := x1.isLt
  refine ⟨_, ?_, ?_, hr, ?_⟩
  · split_ifs <;> omega
  · split_ifs <;> omega
  · simp only [Readable.angle, hr, Option.bind_eq_bind, Option.some_bind, Option.pure_def]

theorem angle_read_lowest (PI : K) :
    Readable.angle PI ⟨[0x00, 0x80], 0⟩ = some (-PI, ⟨[0x00, 0x80], 2⟩) := by
  have hr : Readable.int16 ⟨[0x00, 0x80], 0⟩ = some (-32768, ⟨[0x00, 0x80], 2⟩) := by decide
  simp only [Readable.angle, hr, Option.bind_eq_bind, Option.some_bind, Option.pure_def,
    MULT_INT16_TO_RAD]
  congr 2
  push_cast
  ring

end AngleLemmas

theorem int16_write_read (w : Writeable) (idx : Int)
    (hroom : w.position + 2 ≤ w.buffer.length) :
    ∃ w2 : Writeable, w.int16 idx = some w2 ∧ w2.position = w.position + 2 ∧
      Readable.int16 ⟨w2.buffer, w.position⟩
        = some ((idx + 32768) % 65536 - 32768, ⟨w2.buffer, w.position + 2⟩) ∧
      Readable.uint16 ⟨w2.buffer, w.position⟩
        = some (idx % 65536, ⟨w2.buffer, w.position + 2⟩) := by
  obtain ⟨w1, hw, -, hp, -, -, b0, b1⟩ := Writeable.uint16_spec w idx hroom
  refine ⟨w1, hw, hp, ?_, ?_⟩
  · rw [Readable.int16_of_bytes _ _ _ _ b0 b1]
    congr 2
    simp only [toUint8_val]
    split_ifs <;> omega
  · rw [Readable.uint16_of_bytes _ _ _ _ b0 b1]
    congr 2
    simp only [toUint8_val]
    omega

theorem round_intCast {K : Type} [LinearOrderedField K] [FloorRing K] (k : Int) :
    Math.round (k : K) = k := by
  unfold Math.round
  rw [Int.floor_eq_iff]
  constructor <;> linarith

theorem byte_exists (buf : Buffer) (i : Nat) (h : i < buf.length) :
    ∃ x : Byte, buf[i]? = some x :=
  ⟨buf[i], List.getElem?_eq_getElem h⟩

theorem Readable.uint64_of_room (buf : Buffer) (p : Nat) (hroom : p + 8 ≤ buf.length) :
    ∃ (raw : Int) (x0 x1 x2 x3 x4 x5 x6 x7 : Byte),
      buf[p]? = some x0 ∧ buf[p + 1]? = some x1 ∧ buf[p + 2]? = some x2 ∧
      buf[p + 3]? = some x3 ∧ buf[p + 4]? = some x4 ∧ buf[p + 5]? = some x5 ∧
      buf[p + 6]? = some x6 ∧ buf[p + 7]? = some x7 ∧
      raw = (x0.val : Int) + (x1.val : Int) * 2 ^ 8 + (x2.val : Int) * 2 ^ 16
        + (x3.val : Int) * 2 ^ 24 + (x4.val : Int) * 2 ^ 32 + (x5.val : Int) * 2 ^ 40
        + (x6.val : Int) * 2 ^ 48 + (x7.val : Int) * 2 ^ 56 ∧
      0 ≤ raw ∧ raw < 2 ^ 64 ∧
      Readable.uint64 ⟨buf, p⟩ = some (raw, ⟨buf, p + 8⟩) := by
  obtain ⟨x0, h0⟩ := byte_exists buf p (by omega)
  obtain ⟨x1, h1⟩ := byte_exists buf (p + 1) (by omega)
  obtain ⟨x2, h2⟩ := byte_exists buf (p + 2) (by omega)
  obtain ⟨x3, h3⟩ := byte_exists buf (p + 3) (by omega)
  obtain ⟨x4, h4⟩ := byte_exists buf (p + 4) (by omega)
  obtain ⟨x5, h5⟩ := byte_exists buf (p + 5) (by omega)
  obtain ⟨x6, h6⟩ := byte_exists buf (p + 6) (by omega)
  obtain ⟨x7, h7⟩ := byte_exists buf (p + 7) (by omega)
  have := x0.isLt; have := x1.isLt; have := x2.isLt; have := x3.isLt
  have := x4.isLt; have := x5.isLt; have := x6.isLt; have := x7.isLt
  refine ⟨_, x0, x1, x2, x3, x4, x5, x6, x7, h0, h1, h2, h3, h4, h5, h6, h7, rfl, ?_, ?_,
    Readable.uint64_of_bytes buf p x0 x1 x2 x3 x4 x5 x6 x7 h0 h1 h2 h3 h4 h5 h6 h7⟩
  · omega
  · omega

theorem toUint8_of_val (x : Byte) (a : Int) (h : a % 256 = (x.val : Int)) : toUint8 a = x := by
  apply Fin.ext
  simp only [toUint8]
  omega

theorem first_zero_split (s : List CodeUnit) (k : Nat) (hk : k < s.length)
    (h0 : s[k]? = some 0) :
    s = s.take k ++ 0 :: s.drop (k + 1) := by
  have h1 : s.drop k = 0 :: s.drop (k + 1) := by
    rw [List.drop_eq_getElem_cons hk]
    congr 1
    have := List.getElem?_eq_getElem hk
    rw [this] at h0
    exact Option.some.inj h0
  conv_lhs => rw [← List.take_append_drop k s, h1]

theorem ucs2_append (a b : List CodeUnit) :
    Buffer.ucs2 (a ++ b) = Buffer.ucs2 a ++ Buffer.ucs2 b := by
  simp [Buffer.ucs2]

section RemLemmas

variable {K : Type} [LinearOrderedField K] [FloorRing K]

theorem round_sub_int (x : K) (t : Int) :
    Math.round (x - 65536 * (t : K)) = Math.round x - 65536 * t := by
  unfold Math.round
  have e : x - 65536 * (t : K) + 1 / 2 = (x + 1 / 2) - ((65536 * t : Int) : K) := by
    push_cast
    ring
  rw [e, Int.floor_sub_int]

end RemLemmas

/-! ## Where each reader leaves the cursor -/

theorem Readable.byte_cursor (r : Readable) :
    (r.position + 1 ≤ r.buffer.length →
      ∃ v, r.byte = some (v, ⟨r.buffer, r.position + 1⟩)) ∧
    (r.buffer.length < r.position + 1 → r.byte = none) := by
  obtain ⟨buf, p⟩ := r
  constructor
  · intro h
    obtain ⟨x, hx⟩ := byte_exists buf p (by simpa using h)
    exact ⟨_, Readable.byte_of_bytes buf p x hx⟩
  · intro h
    have h0 : buf[p]? = none := List.getElem?_eq_none (by simp at h; omega)
    simp [Readable.byte, Buffer.readUInt8, h0]

theorem Readable.uint16_cursor (r : Readable) :
    (r.position + 2 ≤ r.buffer.length →
      ∃ v, r.uint16 = some (v, ⟨r.buffer, r.position + 2⟩)) ∧
    (r.buffer.length < r.position + 2 → r.uint16 = none) := by
  obtain ⟨buf, p⟩ := r
  constructor
  · intro h
    simp only at h
    obtain ⟨x0, h0⟩ := byte_exists buf p (by omega)
    obtain ⟨x1, h1⟩ := byte_exists buf (p + 1) (by omega)
    exact ⟨_, Readable.uint16_of_bytes buf p x0 x1 h0 h1⟩
  · intro h
    simp only at h
    have h1 : buf[p + 1]? = none := List.getElem?_eq_none (by omega)
    cases h0 : buf[p]? <;> simp [Readable.uint16, Buffer.readUInt16LE, h0, h1]

theorem Readable.int16_cursor (r : Readable) :
    (r.position + 2 ≤ r.buffer.length →
      ∃ v, r.int16 = some (v, ⟨r.buffer, r.position + 2⟩)) ∧
    (r.buffer.length < r.position + 2 → r.int16 = none) := by
  obtain ⟨buf, p⟩ := r
  constructor
  · intro h
    simp only at h
    obtain ⟨x0, h0⟩ := byte_exists buf p (by omega)
    obtain ⟨x1, h1⟩ := byte_exists buf (p + 1) (by omega)
    exact ⟨_, Readable.int16_of_bytes buf p x0 x1 h0 h1⟩
  · intro h
    simp only at h
    have h1 : buf[p + 1]? = none := List.getElem?_eq_none (by omega)
    cases h0 : buf[p]? <;> simp [Readable.int16, Buffer.readInt16LE, h0, h1]

theorem Readable.uint32_cursor (r : Readable) :
    (r.position + 4 ≤ r.buffer.length →
      ∃ v, r.uint32 = some (v, ⟨r.buffer, r.position + 4⟩)) ∧
    (r.buffer.length < r.position + 4 → r.uint32 = none) := by
  obtain ⟨buf, p⟩ := r
  constructor
  · intro h
    simp only at h
    obtain ⟨x0, h0⟩ := byte_exists buf p (by omega)
    obtain ⟨x1, h1⟩ := byte_exists buf (p + 1) (by omega)
    obtain ⟨x2, h2⟩ := byte_exists buf (p + 2) (by omega)
    obtain ⟨x3, h3⟩ := byte_exists buf (p + 3) (by omega)
    exact ⟨_, Readable.uint32_of_bytes buf p x0 x1 x2 x3 h0 h1 h2 h3⟩
  · intro h
    simp only at h
    have h3 : buf[p + 3]? = none := List.getElem?_eq_none (by omega)
    cases h0 : buf[p]? <;> cases h1 : buf[p + 1]? <;> cases h2 : buf[p + 2]? <;>
      simp [Readable.uint32, Buffer.readUInt32LE, h0, h1, h2, h3]

theorem Readable.int32_cursor (r : Readable) :
    (r.position + 4 ≤ r.buffer.length →
      ∃ v, r.int32 = some (v, ⟨r.buffer, r.position + 4⟩)) ∧
    (r.buffer.length < r.position + 4 → r.int32 = none) := by
  obtain ⟨buf, p⟩ := r
  constructor
  · intro h
    simp only at h
    obtain ⟨x0, h0⟩ := byte_exists buf p (by omega)
    obtain ⟨x1, h1⟩ := byte_exists buf (p + 1) (by omega)
    obtain ⟨x2, h2⟩ := byte_exists buf (p + 2) (by omega)
    obtain ⟨x3, h3⟩ := byte_exists buf (p + 3) (by omega)
    exact ⟨_, Readable.int32_of_bytes buf p x0 x1 x2 x3 h0 h1 h2 h3⟩
  · intro h
    simp only at h
    have h3 : buf[p + 3]? = none := List.getElem?_eq_none (by omega)
    cases h0 : buf[p]? <;> cases h1 : buf[p + 1]? <;> cases h2 : buf[p + 2]? <;>
      simp [Readable.int32, Buffer.readInt32LE, h0, h1, h2, h3]

/-- Two reads in a row: the cursor after both, or a throw when either lacks room. -/
theorem cursor_seq {α β γ : Type} (a b : Nat) (r : Readable)
    (f : Readable → Option (α × Readable)) (g : Readable → Option (β × Readable))
    (k : α → β → γ)
    (hf : ∀ r : Readable, (r.position + a ≤ r.buffer.length →
        ∃ v, f r = some (v, ⟨r.buffer, r.position + a⟩)) ∧
      (r.buffer.length < r.position + a → f r = none))
    (hg : ∀ r : Readable, (r.position + b ≤ r.buffer.length →
        ∃ v, g r = some (v, ⟨r.buffer, r.position + b⟩)) ∧
      (r.buffer.length < r.position + b → g r = none)) :
    (r.position + (a + b) ≤ r.buffer.length →
      ∃ v, ((f r).bind fun x => (g x.2).bind fun y => some (k x.1 y.1, y.2))
        = some (v, ⟨r.buffer, r.position + (a + b)⟩)) ∧
    (r.buffer.length < r.position + (a + b) →
      ((f r).bind fun x => (g x.2).bind fun y => some (k x.1 y.1, y.2)) = none) := by
  constructor
  · intro h
    obtain ⟨v1, h1⟩ := (hf r).1 (by omega)
    obtain ⟨v2, h2⟩ := (hg ⟨r.buffer, r.position + a⟩).1 (by simp only; omega)
    refine ⟨k v1 v2, ?_⟩
    simp only [h1, Option.some_bind, h2, Nat.add_assoc]
  · intro h
    by_cases ha : r.position + a ≤ r.buffer.length
    · obtain ⟨v1, h1⟩ := (hf r).1 ha
      have h2 := (hg ⟨r.buffer, r.position + a⟩).2 (by simp only; omega)
      simp only [h1, Option.some_bind, h2, Option.none_bind]
    · have h1 := (hf r).2 (by omega)
      simp only [h1, Option.none_bind]

theorem Readable.uint64_cursor (r : Readable) :
    (r.position + 8 ≤ r.buffer.length →
      ∃ v, r.uint64 = some (v, ⟨r.buffer, r.position + 8⟩)) ∧
    (r.buffer.length < r.position + 8 → r.uint64 = none) :=
  cursor_seq 4 4 r Readable.uint32 Readable.uint32 (fun lo hi => bigOr lo (bigShl hi 32))
    Readable.uint32_cursor Readable.uint32_cursor

theorem Readable.int64_cursor (r : Readable) :
    (r.position + 8 ≤ r.buffer.length →
      ∃ v, r.int64 = some (v, ⟨r.buffer, r.position + 8⟩)) ∧
    (r.buffer.length < r.position + 8 → r.int64 = none) :=
  cursor_seq 4 4 r Readable.uint32 Readable.int32 (fun lo hi => bigOr lo (bigShl hi 32))
    Readable.uint32_cursor Readable.int32_cursor

/-- A read followed by a computation on its value leaves the cursor where the read did. -/
theorem cursor_map {α γ : Type} (a : Nat) (r : Readable)
    (f : Readable → Option (α × Readable)) (k : α → γ)
    (hf : ∀ r : Readable, (r.position + a ≤ r.buffer.length →
        ∃ v, f r = some (v, ⟨r.buffer, r.position + a⟩)) ∧
      (r.buffer.length < r.position + a → f r = none)) :
    (r.position + a ≤ r.buffer.length →
      ∃ v, ((f r).bind fun x => some (k x.1, x.2)) = some (v, ⟨r.buffer, r.position + a⟩)) ∧
    (r.buffer.length < r.position + a → ((f r).bind fun x => some (k x.1, x.2)) = none) := by
  constructor
  · intro h
    obtain ⟨v1, h1⟩ := (hf r).1 h
    exact ⟨k v1, by simp only [h1, Option.some_bind]⟩
  · intro h
    simp only [(hf r).2 h, Option.none_bind]

theorem Readable.bool_cursor (r : Readable) :
    (r.position + 1 ≤ r.buffer.length →
      ∃ v n, r.bool = some (v, n, ⟨r.buffer, r.position + 1⟩)) ∧
    (r.buffer.length < r.position + 1 → r.bool = none) := by
  constructor
  · intro h
    obtain ⟨v, hv⟩ := (Readable.byte_cursor r).1 h
    simp only [Readable.bool, hv, Option.bind_eq_bind, Option.some_bind, Option.pure_def]
    exact ⟨_, _, rfl⟩
  · intro h
    simp only [Readable.bool, (Readable.byte_cursor r).2 h, Option.bind_eq_bind,
      Option.none_bind]

theorem Readable.skillid_cursor (r : Readable) :
    (r.position + 8 ≤ r.buffer.length →
      ∃ v, r.skillid = some (v, ⟨r.buffer, r.position + 8⟩)) ∧
    (r.buffer.length < r.position + 8 → r.skillid = none) := by
  constructor
  · intro h
    obtain ⟨v, hv⟩ := (Readable.uint64_cursor r).1 h
    simp only [Readable.skillid, hv, Option.bind_eq_bind, Option.some_bind, Option.pure_def]
    exact ⟨_, rfl⟩
  · intro h
    simp only [Readable.skillid, (Readable.uint64_cursor r).2 h, Option.bind_eq_bind,
      Option.none_bind]

theorem Readable.float_cursor {K : Type} (c : FloatCodec K) (r : Readable) :
    (r.position + 4 ≤ r.buffer.length →
      ∃ v, r.float c = some (v, ⟨r.buffer, r.position + 4⟩)) ∧
    (r.buffer.length < r.position + 4 → r.float c = none) := by
  constructor
  · intro h
    simp only [Readable.float, Buffer.readFloatLE, Option.bind_eq_bind, Option.pure_def]
    rw [if_neg (by omega)]
    exact ⟨_, rfl⟩
  · intro h
    simp only [Readable.float, Buffer.readFloatLE, Option.bind_eq_bind, Option.pure_def]
    rw [if_pos h]
    rfl

theorem Readable.double_cursor {K : Type} (c : FloatCodec K) (r : Readable) :
    (r.position + 8 ≤ r.buffer.length →
      ∃ v, r.double c = some (v, ⟨r.buffer, r.position + 8⟩)) ∧
    (r.buffer.length < r.position + 8 → r.double c = none) := by
  constructor
  · intro h
    simp only [Readable.double, Buffer.readDoubleLE, Option.bind_eq_bind, Option.pure_def]
    rw [if_neg (by omega)]
    exact ⟨_, rfl⟩
  · intro h
    simp only [Readable.double, Buffer.readDoubleLE, Option.bind_eq_bind, Option.pure_def]
    rw [if_pos h]
    rfl

/-- Three `float` reads in a row, combined by `k`. -/
theorem float3_cursor {K : Type} (c : FloatCodec K) {γ : Type} (k : K → K → K → γ) (r : Readable) :
    (r.position + 12 ≤ r.buffer.length →
      ∃ v, ((r.float c).bind fun x => (x.2.float c).bind fun y => (y.2.float c).bind fun z =>
        some (k x.1 y.1 z.1, z.2)) = some (v, ⟨r.buffer, r.position + 12⟩)) ∧
    (r.buffer.length < r.position + 12 →
      ((r.float c).bind fun x => (x.2.float c).bind fun y => (y.2.float c).bind fun z =>
        some (k x.1 y.1 z.1, z.2)) = none) := by
  constructor
  · intro h
    obtain ⟨x, hx⟩ := (Readable.float_cursor c r).1 (by omega)
    obtain ⟨y, hy⟩ := (Readable.float_cursor c ⟨r.buffer, r.position + 4⟩).1
      (by simp only; omega)
    obtain ⟨z, hz⟩ := (Readable.float_cursor c ⟨r.buffer, r.position + 4 + 4⟩).1
      (by simp only; omega)
    exact ⟨k x y z, by simp only [hx, hy, hz, Option.some_bind]⟩
  · intro h
    by_cases h1 : r.position + 4 ≤ r.buffer.length
    · obtain ⟨x, hx⟩ := (Readable.float_cursor c r).1 h1
      by_cases h2 : r.position + 4 + 4 ≤ r.buffer.length
      · obtain ⟨y, hy⟩ := (Readable.float_cursor c ⟨r.buffer, r.position + 4⟩).1 h2
        have hz := (Readable.float_cursor c ⟨r.buffer, r.position + 4 + 4⟩).2
          (by simp only; omega)
        simp only [hx, hy, hz, Option.some_bind, Option.none_bind]
      · have hy := (Readable.float_cursor c ⟨r.buffer, r.position + 4⟩).2
          (by simp only; omega)
        simp only [hx, hy, Option.some_bind, Option.none_bind]
    · have hx := (Readable.float_cursor c r).2 (by omega)
      simp only [hx, Option.none_bind]

theorem Readable.vec3_cursor {K : Type} (c : FloatCodec K) (r : Readable) :
    (r.position + 12 ≤ r.buffer.length →
      ∃ v, r.vec3 c = some (v, ⟨r.buffer, r.position + 12⟩)) ∧
    (r.buffer.length < r.position + 12 → r.vec3 c = none) :=
  float3_cursor c (fun x y z => Vec3.mk x y z) r

section FloatCursor

variable {K : Type} [LinearOrderedField K]

theorem Readable.angle_cursor (PI : K) (r : Readable) :
    (r.position + 2 ≤ r.buffer.length →
      ∃ v, r.angle PI = some (v, ⟨r.buffer, r.position + 2⟩)) ∧
    (r.buffer.length < r.position + 2 → r.angle PI = none) := by
  constructor
  · intro h
    obtain ⟨v, hv⟩ := (Readable.int16_cursor r).1 h
    simp only [Readable.angle, hv, Option.bind_eq_bind, Option.some_bind, Option.pure_def]
    exact ⟨_, rfl⟩
  · intro h
    simp only [Readable.angle, (Readable.int16_cursor r).2 h, Option.bind_eq_bind,
      Option.none_bind]

theorem Readable.vec3fa_cursor (c : FloatCodec K) (PI : K) (r : Readable) :
    (r.position + 12 ≤ r.buffer.length →
      ∃ v, r.vec3fa c PI = some (v, ⟨r.buffer, r.position + 12⟩)) ∧
    (r.buffer.length < r.position + 12 → r.vec3fa c PI = none) :=
  float3_cursor c (fun x y z => Vec3.mk (x * MULT_INT16_TO_RAD PI)
    (y * MULT_INT16_TO_RAD PI) (z * MULT_INT16_TO_RAD PI)) r

end FloatCursor

/-! ## What each writer changes -/

/-- Two writes in a row change the bytes of both fields and nothing else. -/
theorem wrote_trans (w w1 w2 : Writeable) (a b : Nat)
    (h1 : w1.position = w.position + a ∧ w1.buffer.length = w.buffer.length ∧
      ∀ i, i < w.position ∨ w.position + a ≤ i → w1.buffer[i]? = w.buffer[i]?)
    (h2 : w2.position = w1.position + b ∧ w2.buffer.length = w1.buffer.length ∧
      ∀ i, i < w1.position ∨ w1.position + b ≤ i → w2.buffer[i]? = w1.buffer[i]?) :
    w2.position = w.position + (a + b) ∧ w2.buffer.length = w.buffer.length ∧
      ∀ i, i < w.position ∨ w.position + (a + b) ≤ i → w2.buffer[i]? = w.buffer[i]? := by
  obtain ⟨p1, l1, f1⟩ := h1
  obtain ⟨p2, l2, f2⟩ := h2
  refine ⟨by omega, by omega, ?_⟩
  intro i hi
  rw [f2 i (by omega), f1 i (by omega)]

theorem Writeable.bool_wrote (w : Writeable) (b : Bool) :
    (w.bool b).position = w.position + 1 ∧ (w.bool b).buffer.length = w.buffer.length ∧
      ∀ i, i < w.position ∨ w.position + 1 ≤ i → (w.bool b).buffer[i]? = w.buffer[i]? := by
  refine ⟨rfl, ?_, ?_⟩
  · simp [Writeable.bool, Buffer.setIndex]
  · intro i hi
    simp only [Writeable.bool, Buffer.setIndex, List.getElem?_set]
    rw [if_neg (by omega)]

theorem Writeable.byte_wrote (w : Writeable) (n : Int) :
    (w.byte n).position = w.position + 1 ∧ (w.byte n).buffer.length = w.buffer.length ∧
      ∀ i, i < w.position ∨ w.position + 1 ≤ i → (w.byte n).buffer[i]? = w.buffer[i]? := by
  refine ⟨rfl, ?_, ?_⟩
  · simp [Writeable.byte, Buffer.setIndex]
  · intro i hi
    simp only [Writeable.byte, Buffer.setIndex, List.getElem?_set]
    rw [if_neg (by omega)]

theorem Writeable.uint16_wrote (w : Writeable) (n : Int) :
    (w.position + 2 ≤ w.buffer.length →
      ∃ w1 : Writeable, w.uint16 n = some w1 ∧ w1.position = w.position + 2 ∧
        w1.buffer.length = w.buffer.length ∧
        ∀ i, i < w.position ∨ w.position + 2 ≤ i → w1.buffer[i]? = w.buffer[i]?) ∧
    (w.buffer.length < w.position + 2 → w.uint16 n = none) := by
  constructor
  · intro h
    obtain ⟨w1, hw, -, hp, hl, hf, -⟩ := Writeable.uint16_spec w n h
    exact ⟨w1, hw, hp, hl, hf⟩
  · intro h
    simp only [Writeable.uint16, Buffer.writeUInt16LE, Option.bind_eq_bind, Option.pure_def]
    split_ifs <;> rfl

theorem Writeable.uint32_wrote (w : Writeable) (n : Int) :
    (w.position + 4 ≤ w.buffer.length →
      ∃ w1 : Writeable, w.uint32 n = some w1 ∧ w1.position = w.position + 4 ∧
        w1.buffer.length = w.buffer.length ∧
        ∀ i, i < w.position ∨ w.position + 4 ≤ i → w1.buffer[i]? = w.buffer[i]?) ∧
    (w.buffer.length < w.position + 4 → w.uint32 n = none) := by
  constructor
  · intro h
    obtain ⟨w1, hw, -, hp, hl, hf, -⟩ := Writeable.uint32_spec w n h
    exact ⟨w1, hw, hp, hl, hf⟩
  · intro h
    simp only [Writeable.uint32, Buffer.writeUInt32LE, Option.bind_eq_bind, Option.pure_def]
    split_ifs <;> rfl

theorem Writeable.uint64_wrote (w : Writeable) (n : Int) :
    (w.position + 8 ≤ w.buffer.length →
      ∃ w1 : Writeable, w.uint64 n = some w1 ∧ w1.position = w.position + 8 ∧
        w1.buffer.length = w.buffer.length ∧
        ∀ i, i < w.position ∨ w.position + 8 ≤ i → w1.buffer[i]? = w.buffer[i]?) ∧
    (w.buffer.length < w.position + 8 → w.uint64 n = none) := by
  constructor
  · intro h
    obtain ⟨w1, hw, -, hp, hl, hf, -⟩ := Writeable.uint64_spec w n h
    exact ⟨w1, hw, hp, hl, hf⟩
  · intro h
    by_cases h4 : w.position + 4 ≤ w.buffer.length
    · obtain ⟨w1, hw, hp, hl, -⟩ := (Writeable.uint32_wrote w (bigAnd n 0xffffffff)).1 h4
      have h2 := (Writeable.uint32_wrote w1 (bigAnd (bigShr n 32) 0xffffffff)).2 (by omega)
      simp only [Writeable.uint64, hw, h2, Option.bind_eq_bind, Option.some_bind]
    · have h1 := (Writeable.uint32_wrote w (bigAnd n 0xffffffff)).2 (by omega)
      simp only [Writeable.uint64, h1, Option.bind_eq_bind, Option.none_bind]

theorem Writeable.skillid_wrote (w : Writeable) (arg : SkillArg) :
    (w.position + 8 ≤ w.buffer.length →
      ∃ w1 : Writeable, w.skillid arg = some w1 ∧ w1.position = w.position + 8 ∧
        w1.buffer.length = w.buffer.length ∧
        ∀ i, i < w.position ∨ w.position + 8 ≤ i → w1.buffer[i]? = w.buffer[i]?) ∧
    (w.buffer.length < w.position + 8 → w.skillid arg = none) := by
  have hobj : ∃ obj : SkillObj, w.skillid arg = w.skillid (.object obj) := by
    cases arg with
    | number n => exact ⟨⟨some n, none, some 1, none, none⟩, rfl⟩
    | object o => exact ⟨o, rfl⟩
  obtain ⟨obj, he⟩ := hobj
  rw [he, Writeable.skillid_eq_uint64]
  exact Writeable.uint64_wrote w _

theorem Writeable.string_wrote (w : Writeable) (s : List CodeUnit)
    (hroom : w.position + (s.length + 1) * 2 ≤ w.buffer.length) :
    ∃ w1 : Writeable, w.string s = some w1 ∧ w1.position = w.position + (s.length + 1) * 2 ∧
      w1.buffer.length = w.buffer.length ∧
      ∀ i, i < w.position ∨ w.position + (s.length + 1) * 2 ≤ i →
        w1.buffer[i]? = w.buffer[i]? := by
  have hl : (Buffer.ucs2 (s ++ [0])).length = (s.length + 1) * 2 := by
    rw [ucs2_length]; simp
  obtain ⟨hlen, hframe⟩ := splice_frame w.buffer (Buffer.ucs2 (s ++ [0])) w.position
    (by rw [hl]; exact hroom)
  rw [hl] at hlen hframe
  exact ⟨_, Writeable.string_spec w s hroom, rfl, hlen, hframe⟩

theorem Writeable.bytes_wrote (w : Writeable) (src : Buffer)
    (hroom : w.position + src.length ≤ w.buffer.length) :
    (w.bytes (some src)).position = w.position + src.length ∧
      (w.bytes (some src)).buffer.length = w.buffer.length ∧
      ∀ i, i < w.position ∨ w.position + src.length ≤ i →
        (w.bytes (some src)).buffer[i]? = w.buffer[i]? := by
  refine ⟨rfl, ?_⟩
  simp only [Writeable.bytes, Buffer.copy]
  by_cases h : w.buffer.length ≤ w.position
  · rw [if_pos h]
    exact ⟨rfl, fun _ _ => rfl⟩
  · rw [if_neg h]
    have hmin : min src.length (w.buffer.length - w.position) = src.length := by omega
    simp only [hmin, List.take_length, List.append_assoc]
    exact splice_frame w.buffer src w.position hroom

theorem Writeable.double_wrote {K : Type} (c : FloatCodec K) (w : Writeable) (n : K) :
    (w.position + 8 ≤ w.buffer.length →
      ∃ w1 : Writeable, w.double c n = some w1 ∧ w1.position = w.position + 8 ∧
        w1.buffer.length = w.buffer.length ∧
        ∀ i, i < w.position ∨ w.position + 8 ≤ i → w1.buffer[i]? = w.buffer[i]?) ∧
    (w.buffer.length < w.position + 8 → w.double c n = none) := by
  constructor
  · intro h
    have hl := c.doubleBytes_length n
    obtain ⟨hlen, hframe⟩ := splice_frame w.buffer (c.doubleBytes n) w.position
      (by rw [hl]; exact h)
    rw [hl] at hlen hframe
    refine ⟨⟨w.length, w.buffer.take w.position ++ (c.doubleBytes n ++
      w.buffer.drop (w.position + 8)), w.position + 8⟩, ?_, rfl, hlen, hframe⟩
    simp only [Writeable.double, Buffer.writeDoubleLE, Option.bind_eq_bind, Option.pure_def]
    rw [if_neg (by omega)]
    rfl
  · intro h
    simp only [Writeable.double, Buffer.writeDoubleLE, Option.bind_eq_bind, Option.pure_def]
    rw [if_pos h]
    rfl

theorem Field.totalWidth_cons {K : Type} (f : Field K) (fs : List (Field K)) :
    Field.totalWidth (f :: fs) = f.width + Field.totalWidth fs := by
  simp [Field.totalWidth]

theorem Field.totalWidth_take_le {K : Type} (fs : List (Field K)) (k : Nat) :
    Field.totalWidth (fs.take k) ≤ Field.totalWidth fs := by
  induction fs generalizing k with
  | nil => simp [Field.totalWidth]
  | cons f fs ih =>
    cases k with
    | zero => simp [Field.totalWidth]
    | succ k =>
      rw [List.take_succ_cons, Field.totalWidth_cons, Field.totalWidth_cons]
      have := ih k
      omega

/-! ## Rounding to doubles and the index `Writeable.angle` writes -/

section DoubleLemmas

variable {K : Type} [LinearOrderedField K] [FloorRing K]

theorem roundHalfEven_abs (y : K) : |((roundHalfEven y : Int) : K) - y| ≤ 1 / 2 := by
  have h1 := Int.floor_le y
  have h2 := Int.lt_floor_add_one y
  unfold roundHalfEven
  rw [abs_le]
  split_ifs <;> push_cast <;> constructor <;> linarith

theorem nearestDouble_accurate (x : K) (hx : |x| ≤ 2 ^ 1000) :
    ∃ y : K, nearestDouble x = some y ∧ |y - x| ≤ |x| / 2 ^ 53 + 1 / 2 ^ 1075 := by
  have hbig : ¬ ((2 : K) ^ 1024 - 2 ^ 970 ≤ |x|) := by
    intro h
    have : (2 : K) ^ 1000 < 2 ^ 1024 - 2 ^ 970 := by norm_num
    linarith
  unfold nearestDouble
  rw [if_neg hbig]
  refine ⟨_, rfl, ?_⟩
  generalize hE : max (Int.log 2 |x|) (-1022) = E
  have hu : (0 : K) < 2 ^ (E - 52) := zpow_pos (by norm_num) _
  have hr := roundHalfEven_abs (x / 2 ^ (E - 52))
  have e1 : ((roundHalfEven (x / 2 ^ (E - 52)) : Int) : K) * 2 ^ (E - 52) - x
      = (((roundHalfEven (x / 2 ^ (E - 52)) : Int) : K) - x / 2 ^ (E - 52)) * 2 ^ (E - 52) := by
    field_simp
  rw [e1, abs_mul, abs_of_pos hu]
  have hhalf : |((roundHalfEven (x / 2 ^ (E - 52)) : Int) : K) - x / 2 ^ (E - 52)| * 2 ^ (E - 52)
      ≤ 1 / 2 * 2 ^ (E - 52) := mul_le_mul_of_nonneg_right hr (le_of_lt hu)
  have hsplit : (1 : K) / 2 * 2 ^ (E - 52) = 2 ^ E / 2 ^ 53 := by
    rw [zpow_sub₀ (by norm_num : (2 : K) ≠ 0)]
    norm_num
    ring
  by_cases hx0 : x = 0
  · subst hx0
    have : ((roundHalfEven ((0 : K) / 2 ^ (E - 52)) : Int) : K) - 0 / 2 ^ (E - 52) = 0 := by
      simp [roundHalfEven]
    rw [this]
    simp
  · have hxpos : 0 < |x| := abs_pos.mpr hx0
    have hlog : (2 : K) ^ Int.log 2 |x| ≤ |x| := by
      have := Int.zpow_log_le_self (b := 2) (by norm_num) hxpos
      exact_mod_cast this
    by_cases hc : -1022 ≤ Int.log 2 |x|
    · have hEq : E = Int.log 2 |x| := by rw [← hE]; exact max_eq_left hc
      rw [hEq] at hhalf hsplit ⊢
      have h3 : (2 : K) ^ Int.log 2 |x| / 2 ^ 53 ≤ |x| / 2 ^ 53 :=
        div_le_div_of_nonneg_right hlog (by positivity)
      have h4 : (0 : K) ≤ 1 / 2 ^ 1075 := by positivity
      linarith
    · have hEq : E = -1022 := by rw [← hE]; exact max_eq_right (by omega)
      rw [hEq] at hhalf hsplit ⊢
      have h3 : (2 : K) ^ (-1022 : Int) / 2 ^ 53 = 1 / 2 ^ 1075 := by
        rw [zpow_neg, zpow_ofNat]
        field_simp
        norm_num
      have h4 : (0 : K) ≤ |x| / 2 ^ 53 := by positivity
      linarith

theorem nearestDouble_finite (x : K) (hx : |x| ≤ 2 ^ 100) : ∃ y : K, nearestDouble x = some y := by
  have h1 : (2 : K) ^ 100 ≤ 2 ^ 1000 := pow_le_pow_right₀ (by norm_num) (by norm_num)
  obtain ⟨y, hy, -⟩ := nearestDouble_accurate x (by linarith)
  exact ⟨y, hy⟩

theorem nearestDouble_close (x B : K) (hx : |x| ≤ B) (hB : B ≤ 2 ^ 20) :
    ∃ y : K, nearestDouble x = some y ∧ |y - x| ≤ B / 2 ^ 53 + 1 / 2 ^ 60 := by
  have h1 : (2 : K) ^ 20 ≤ 2 ^ 1000 := pow_le_pow_right₀ (by norm_num) (by norm_num)
  obtain ⟨y, hy, hd⟩ := nearestDouble_accurate x (by linarith)
  refine ⟨y, hy, ?_⟩
  have h2 : |x| / 2 ^ 53 ≤ B / 2 ^ 53 := div_le_div_of_nonneg_right hx (by positivity)
  have h3 : (1 : K) / 2 ^ 1075 ≤ 1 / 2 ^ 60 :=
    one_div_le_one_div_of_le (by positivity) (pow_le_pow_right₀ (by norm_num) (by norm_num))
  linarith

theorem MULT_RAD_TO_INT16_close (n : Nat) (PI : K) (h3 : 3 < PI) (h4 : PI < 4) :
    ∃ M : K, MULT_RAD_TO_INT16 (Engine.binary64 n) PI = some M ∧
      |M - 32768 / PI| ≤ 1 / 2 ^ 36 := by
  have hPI : 0 < PI := by linarith
  have e : (32768 : K) / PI = 32768 * (1 / PI) := by ring
  have hinv0 : 0 < 1 / PI := by positivity
  have hinv1 : 1 / PI ≤ 1 := by
    rw [div_le_iff₀ hPI]
    linarith
  have hdef : MULT_RAD_TO_INT16 (Engine.binary64 n) PI
      = (nearestDouble (1 / PI)).bind fun d => nearestDouble (d * 0x8000) := by
    unfold MULT_RAD_TO_INT16 Number.div
    rw [if_neg (ne_of_gt hPI)]
    show Number.mul _ (nearestDouble (1 / PI)) _ = _
    cases nearestDouble (1 / PI) <;> rfl
  rw [hdef, e]
  generalize 1 / PI = q at hinv0 hinv1
  obtain ⟨d, hd, hdc⟩ := nearestDouble_close q 1 (by rw [abs_of_pos hinv0]; exact hinv1)
    (by norm_num)
  obtain ⟨hd0, hd1⟩ := abs_le.mp hdc
  have t1 : (1 : K) / 2 ^ 53 + 1 / 2 ^ 60 ≤ 1 / 2 ^ 52 := by norm_num
  have t2 : (1 : K) / 2 ^ 52 ≤ 1 := by norm_num
  have hd2 : |d * 0x8000| ≤ 2 ^ 16 := by
    rw [abs_le]
    constructor <;> norm_num <;> linarith
  obtain ⟨M, hM, hMc⟩ := nearestDouble_close (d * 0x8000) (2 ^ 16) hd2 (by norm_num)
  obtain ⟨hM0, hM1⟩ := abs_le.mp hMc
  refine ⟨M, ?_, ?_⟩
  · rw [hd]
    exact hM
  · have t3 : (2 : K) ^ 16 / 2 ^ 53 + 1 / 2 ^ 60 + 32768 * (1 / 2 ^ 53 + 1 / 2 ^ 60)
        ≤ 1 / 2 ^ 36 := by norm_num
    rw [abs_le]
    constructor <;> linarith

theorem angle_product_close (n : Nat) (PI : K) (h3 : 3 < PI) (h4 : PI < 4) (r : K)
    (hr : |r| ≤ 8) :
    ∃ P : K, Number.mul (Engine.binary64 n) (some r) (MULT_RAD_TO_INT16 (Engine.binary64 n) PI)
        = some P ∧ |P - r * 32768 / PI| ≤ 1 / 2 ^ 30 := by
  have hPI : 0 < PI := by linarith
  obtain ⟨M, hM, hMc⟩ := MULT_RAD_TO_INT16_close n PI h3 h4
  obtain ⟨hMa, hMb⟩ := abs_le.mp hMc
  have hq0 : (0 : K) < 32768 / PI := by positivity
  have hq1 : (32768 : K) / PI ≤ 10923 := by
    rw [div_le_iff₀ hPI]
    linarith
  have hq2 : (8000 : K) ≤ 32768 / PI := by
    rw [le_div_iff₀ hPI]
    linarith
  have t1 : (1 : K) / 2 ^ 36 ≤ 1 := by norm_num
  have hM0 : 0 ≤ M := by linarith
  have hM1 : M ≤ 10924 := by linarith
  have hrM : |r * M| ≤ 2 ^ 17 := by
    rw [abs_mul, abs_of_nonneg hM0]
    have h0 : 0 ≤ |r| := abs_nonneg r
    have : |r| * M ≤ 8 * 10924 := mul_le_mul hr hM1 hM0 (by norm_num)
    have t2 : (8 : K) * 10924 ≤ 2 ^ 17 := by norm_num
    linarith
  obtain ⟨P, hP, hPc⟩ := nearestDouble_close (r * M) (2 ^ 17) hrM (by norm_num)
  refine ⟨P, ?_, ?_⟩
  · rw [hM]
    exact hP
  · have e : P - r * 32768 / PI = (P - r * M) + r * (M - 32768 / PI) := by ring
    have h2 : |r * (M - 32768 / PI)| ≤ 8 * (1 / 2 ^ 36) := by
      rw [abs_mul]
      exact mul_le_mul hr hMc (abs_nonneg _) (by norm_num)
    rw [e]
    refine le_trans (abs_add _ _) ?_
    have t3 : (2 : K) ^ 17 / 2 ^ 53 + 1 / 2 ^ 60 + 8 * (1 / 2 ^ 36) ≤ 1 / 2 ^ 30 := by norm_num
    linarith

theorem round_near (P x : K) (k : Int) (hP : |P - x| ≤ 1 / 2 ^ 30)
    (hk : |x - (k : K)| ≤ 1 / 2 - 1 / 2 ^ 29) : Math.round P = k := by
  obtain ⟨hP0, hP1⟩ := abs_le.mp hP
  obtain ⟨hk0, hk1⟩ := abs_le.mp hk
  have t1 : (1 : K) / 2 ^ 30 < 1 / 2 ^ 29 := by norm_num
  unfold Math.round
  rw [Int.floor_eq_iff]
  constructor <;> linarith

theorem Writeable.int16_congr (w : Writeable) (a b : Int) (h : a % 65536 = b % 65536) :
    w.int16 a = w.int16 b := by
  unfold Writeable.int16 Writeable.uint16
  rw [numberAnd_ffff, numberAnd_ffff, h]

theorem Writeable.angle_of_product (n : Nat) (PI : K) (w : Writeable) (r P : K)
    (hP : Number.mul (Engine.binary64 n) (some r) (MULT_RAD_TO_INT16 (Engine.binary64 n) PI)
      = some P) :
    Writeable.angle (Engine.binary64 n) PI w r = w.int16 (Math.round P) := by
  unfold Writeable.angle
  rw [hP]

theorem Writeable.angle_near (n : Nat) (PI : K) (h3 : 3 < PI) (h4 : PI < 4) (w : Writeable)
    (r : K) (hr : |r| ≤ 8) (k : Int) (hk : |r * 32768 / PI - (k : K)| ≤ 1 / 2 - 1 / 2 ^ 29) :
    Writeable.angle (Engine.binary64 n) PI w r = w.int16 k := by
  obtain ⟨P, hP, hPc⟩ := angle_product_close n PI h3 h4 r hr
  rw [Writeable.angle_of_product n PI w r P hP, round_near P _ k hPc hk]

theorem angle_index (n : Nat) (PI : K) (h3 : 3 < PI) (h4 : PI < 4) (w : Writeable) (r : K)
    (h0 : -PI < r) (h1 : r ≤ PI) :
    ∃ idx : Int, Writeable.angle (Engine.binary64 n) PI w r = w.int16 idx ∧
      -32768 ≤ idx ∧ idx ≤ 32768 ∧
      |(idx : K) * PI / 32768 - r| ≤ PI / 32768 ∧
      (r ≤ PI * (65535 / 65536 - 1 / 2 ^ 44) → idx ≤ 32767) ∧
      (PI * (65535 / 65536 + 1 / 2 ^ 44) ≤ r → idx = 32768) := by
  have hPI : 0 < PI := by linarith
  have hr8 : |r| ≤ 8 := by
    rw [abs_le]
    constructor <;> linarith
  obtain ⟨P, hP, hPc⟩ := angle_product_close n PI h3 h4 r hr8
  obtain ⟨hP0, hP1⟩ := abs_le.mp hPc
  obtain ⟨hle, hlt⟩ := round_bounds P
  have hr : r = (r * 32768 / PI) * (PI / 32768) := by field_simp
  have hx0 : -32768 < r * 32768 / PI := by
    rw [lt_div_iff₀ hPI]
    linarith
  have hx1 : r * 32768 / PI ≤ 32768 := by
    rw [div_le_iff₀ hPI]
    linarith
  have t1 : (1 : K) / 2 ^ 30 < 1 / 2 := by norm_num
  have t2 : (0 : K) < 1 / 2 ^ 30 := by positivity
  refine ⟨Math.round P, Writeable.angle_of_product n PI w r P hP, ?_, ?_, ?_, ?_, ?_⟩
  · have : ((-32769 : Int) : K) < ((Math.round P : Int) : K) := by
      push_cast
      linarith
    have := Int.cast_lt.mp this
    omega
  · have : ((Math.round P : Int) : K) < ((32769 : Int) : K) := by
      push_cast
      linarith
    have := Int.cast_lt.mp this
    omega
  · generalize (Math.round P) = idx at hle hlt ⊢
    generalize r * 32768 / PI = x at hr hP0 hP1
    have hstep : 0 < PI / 32768 := by positivity
    have e : (idx : K) * PI / 32768 - r = ((idx : K) - x) * (PI / 32768) := by
      rw [hr]
      ring
    rw [e, abs_le]
    constructor <;> nlinarith
  · intro h2
    have hx2 : r * 32768 / PI ≤ 32768 * (65535 / 65536 - 1 / 2 ^ 44) := by
      rw [div_le_iff₀ hPI]
      linarith
    have t3 : (32768 : K) * (65535 / 65536 - 1 / 2 ^ 44) + 1 / 2 ^ 30 + 1 / 2 < 32768 := by
      norm_num
    have : ((Math.round P : Int) : K) < ((32768 : Int) : K) := by
      push_cast
      linarith only [hle, hP1, hx2, t3]
    have := Int.cast_lt.mp this
    omega
  · intro h2
    have hx2 : 32768 * (65535 / 65536 + 1 / 2 ^ 44) ≤ r * 32768 / PI := by
      rw [le_div_iff₀ hPI]
      linarith
    have t3 : (32767 : K) < 32768 * (65535 / 65536 + 1 / 2 ^ 44) - 1 / 2 ^ 30 - 1 / 2 := by
      norm_num
    have ha : ((32767 : Int) : K) < ((Math.round P : Int) : K) := by
      push_cast
      linarith only [hlt, hP0, hx2, t3]
    have hb : ((Math.round P : Int) : K) < ((32769 : Int) : K) := by
      push_cast
      linarith only [hle, hP1, hx1, t1]
    have := Int.cast_lt.mp ha
    have := Int.cast_lt.mp hb
    omega

theorem nearestDouble_multiple (x y : K) (hx : 2 ^ 68 ≤ |x|)
    (h : nearestDouble x = some y) : ∃ m : Int, y = (m : K) * 65536 := by
  unfold nearestDouble at h
  split_ifs at h
  have hy := Option.some.inj h
  have hxpos : 0 < |x| := lt_of_lt_of_le (by positivity) hx
  have h68 : (((2 : Nat) : K)) ^ (68 : Int) ≤ |x| := by
    have e : (((2 : Nat) : K)) ^ (68 : Int) = 2 ^ 68 := by norm_num
    rw [e]
    exact hx
  have hlog : 68 ≤ Int.log 2 |x| := (Int.zpow_le_iff_le_log (by norm_num) hxpos).mp h68
  have hE : max (Int.log 2 |x|) (-1022) = Int.log 2 |x| := max_eq_left (by omega)
  rw [hE] at hy
  obtain ⟨j, hj⟩ : ∃ j : Nat, Int.log 2 |x| - 52 = (j : Int) + 16 :=
    ⟨(Int.log 2 |x| - 68).toNat, by omega⟩
  rw [hj] at hy
  have e2 : (2 : K) ^ ((j : Int) + 16) = ((2 ^ j : Int) : K) * 65536 := by
    rw [zpow_add₀ (by norm_num : (2 : K) ≠ 0), zpow_natCast]
    push_cast
    norm_num
  refine ⟨roundHalfEven (x / 2 ^ ((j : Int) + 16)) * 2 ^ j, ?_⟩
  rw [← hy, e2]
  push_cast
  ring

theorem Writeable.angle_of_overflow (n : Nat) (PI : K) (w : Writeable) (r : K)
    (hP : Number.mul (Engine.binary64 n) (some r) (MULT_RAD_TO_INT16 (Engine.binary64 n) PI)
      = none) :
    Writeable.angle (Engine.binary64 n) PI w r = w.int16 0 := by
  unfold Writeable.angle
  rw [hP]

theorem angle_normalise (n : Nat) (PI : K) (h3 : 3 < PI) (h4 : PI < 4) (w : Writeable) (r : K)
    (hroom : w.position + 2 ≤ w.buffer.length) :
    ∃ (w1 : Writeable) (idx : Int), Writeable.angle (Engine.binary64 n) PI w r = some w1 ∧
      Readable.uint16 ⟨w1.buffer, w.position⟩
        = some (idx % 2 ^ 16, ⟨w1.buffer, w.position + 2⟩) ∧
      (∀ P : K, Number.mul (Engine.binary64 n) (some r)
          (MULT_RAD_TO_INT16 (Engine.binary64 n) PI) = some P →
        (idx : K) ≤ P + 1 / 2 ∧ P - 1 / 2 < (idx : K)) ∧
      (Number.mul (Engine.binary64 n) (some r) (MULT_RAD_TO_INT16 (Engine.binary64 n) PI)
          = none → idx = 0) ∧
      (|r| ≤ 8 → ∀ k : Int, |r * 32768 / PI - (k : K)| ≤ 1 / 2 - 1 / 2 ^ 29 → idx = k) := by
  cases hprod : Number.mul (Engine.binary64 n) (some r) (MULT_RAD_TO_INT16 (Engine.binary64 n) PI)
    with
  | none =>
    obtain ⟨w1, hw, -, -, hr⟩ := int16_write_read w 0 hroom
    refine ⟨w1, 0, ?_, hr, ?_, fun _ => rfl, ?_⟩
    · rw [Writeable.angle_of_overflow n PI w r hprod]
      exact hw
    · intro P hP
      cases hP
    · intro hr8
      obtain ⟨P, hP, -⟩ := angle_product_close n PI h3 h4 r hr8
      rw [hprod] at hP
      cases hP
  | some P =>
    obtain ⟨w1, hw, -, -, hr⟩ := int16_write_read w (Math.round P) hroom
    refine ⟨w1, Math.round P, ?_, hr, ?_, ?_, ?_⟩
    · rw [Writeable.angle_of_product n PI w r P hprod]
      exact hw
    · intro P2 hP2
      cases hP2
      exact round_bounds P
    · intro h
      cases h
    · intro hr8 k hk
      obtain ⟨P2, hP2, hPc⟩ := angle_product_close n PI h3 h4 r hr8
      rw [hprod] at hP2
      cases hP2
      exact round_near P _ k hPc hk

theorem Number.rem_trunc (x : K) :
    ∃ t : Int, Number.rem x 0x10000 = x - 65536 * (t : K) ∧
      (0 ≤ x → 0 ≤ t ∧ 65536 * (t : K) ≤ x ∧ x < 65536 * (t : K) + 65536) ∧
      (x < 0 → t ≤ 0 ∧ 65536 * (t : K) - 65536 < x ∧ x ≤ 65536 * (t : K)) := by
  have hx : x = 65536 * (x / 65536) := by field_simp
  unfold Number.rem
  by_cases hq : 0 ≤ x / 0x10000
  · rw [if_pos hq]
    have hx0 : 0 ≤ x := by
      rw [hx]
      exact mul_nonneg (by norm_num) hq
    have h1 := Int.floor_le (x / 0x10000)
    have h2 := Int.lt_floor_add_one (x / 0x10000)
    refine ⟨Int.floor (x / 0x10000), rfl, ?_, ?_⟩
    · intro _
      refine ⟨Int.floor_nonneg.mpr hq, ?_, ?_⟩ <;> linarith
    · intro h
      linarith
  · rw [if_neg hq]
    have hneg : x / 0x10000 < 0 := lt_of_not_le hq
    have hx0 : x < 0 := by
      rw [hx]
      exact mul_neg_of_pos_of_neg (by norm_num) hneg
    have h1 := Int.le_ceil (x / 0x10000)
    have h2 := Int.ceil_lt_add_one (x / 0x10000)
    have hc : Int.ceil (x / 0x10000) ≤ 0 := by
      rw [Int.ceil_le]
      exact_mod_cast le_of_lt hneg
    refine ⟨Int.ceil (x / 0x10000), rfl, ?_, ?_⟩
    · intro h
      linarith
    · intro _
      refine ⟨hc, ?_, ?_⟩ <;> linarith

theorem Writeable.vec3faArg_of_product (n : Nat) (PI : K) (c P : K)
    (hP : Number.mul (Engine.binary64 n) (some c) (MULT_RAD_TO_INT16 (Engine.binary64 n) PI)
      = some P) :
    ∃ a t : Int, Writeable.vec3faArg (Engine.binary64 n) PI c = some a ∧
      a = Math.round P - 65536 * t ∧
      (a : K) ≤ P - 65536 * (t : K) + 1 / 2 ∧ P - 65536 * (t : K) - 1 / 2 < (a : K) ∧
      (0 ≤ P → 0 ≤ t ∧ 65536 * (t : K) ≤ P ∧ P < 65536 * (t : K) + 65536) ∧
      (P < 0 → t ≤ 0 ∧ 65536 * (t : K) - 65536 < P ∧ P ≤ 65536 * (t : K)) := by
  obtain ⟨t, ht, hpos, hneg⟩ := Number.rem_trunc P
  refine ⟨Math.round (Number.rem P 0x10000), t, ?_, ?_, ?_, ?_, hpos, hneg⟩
  · unfold Writeable.vec3faArg
    rw [hP]
    rfl
  · rw [ht, round_sub_int]
  · rw [← ht]
    exact (round_bounds _).1
  · rw [← ht]
    exact (round_bounds _).2

theorem Writeable.vec3faArg_near (n : Nat) (PI : K) (h3 : 3 < PI) (h4 : PI < 4) (c : K)
    (hc : |c| ≤ 8) (k : Int) (hk : |c * 32768 / PI - (k : K)| ≤ 1 / 2 - 1 / 2 ^ 29) :
    ∃ a : Int, Writeable.vec3faArg (Engine.binary64 n) PI c = some a ∧
      (0 ≤ k → k ≤ 65535 → a = k) ∧ (65537 ≤ k → a = k - 65536) ∧
      (-65535 ≤ k → k < 0 → a = k) ∧ (k ≤ -65537 → a = k + 65536) ∧
      (k = 65536 → a = 0 ∨ a = 65536) ∧ (k = -65536 → a = 0 ∨ a = -65536) := by
  have hPI : 0 < PI := by linarith
  obtain ⟨hc0, hc1⟩ := abs_le.mp hc
  obtain ⟨hk0, hk1⟩ := abs_le.mp hk
  obtain ⟨P, hP, hPc⟩ := angle_product_close n PI h3 h4 c hc
  obtain ⟨hP0, hP1⟩ := abs_le.mp hPc
  obtain ⟨a, t, ha, hat, -, -, hpos, hneg⟩ := Writeable.vec3faArg_of_product n PI c P hP
  have hround : Math.round P = k := round_near P _ k hPc hk
  rw [hround] at hat
  have hx0 : -87382 ≤ c * 32768 / PI := by
    rw [le_div_iff₀ hPI]
    linarith
  have hx1 : c * 32768 / PI ≤ 87382 := by
    rw [div_le_iff₀ hPI]
    linarith
  have t1 : (0 : K) < 1 / 2 ^ 29 := by positivity
  have t2 : (1 : K) / 2 ^ 30 < 1 / 2 ^ 29 := by norm_num
  have hkl : -87383 < k := by
    have : ((-87383 : Int) : K) < (k : K) := by
      push_cast
      linarith
    exact Int.cast_lt.mp this
  have hku : k < 87383 := by
    have : (k : K) < ((87383 : Int) : K) := by
      push_cast
      linarith
    exact Int.cast_lt.mp this
  have hPk0 : (k : K) - 1 / 2 < P := by linarith
  have hPk1 : P < (k : K) + 1 / 2 := by linarith
  refine ⟨a, ha, ?_⟩
  rcases le_or_lt 0 P with hs | hs
  · obtain ⟨ht0, hlo, hhi⟩ := hpos hs
    have i1 : 65536 * t - 1 < k := by
      have : ((65536 * t - 1 : Int) : K) < (k : K) := by
        push_cast
        linarith
      exact Int.cast_lt.mp this
    have i2 : k < 65536 * t + 65537 := by
      have : (k : K) < ((65536 * t + 65537 : Int) : K) := by
        push_cast
        linarith
      exact Int.cast_lt.mp this
    refine ⟨?_, ?_, ?_, ?_, ?_, ?_⟩ <;> intros <;> omega
  · obtain ⟨ht0, hlo, hhi⟩ := hneg hs
    have i1 : k < 65536 * t + 1 := by
      have : (k : K) < ((65536 * t + 1 : Int) : K) := by
        push_cast
        linarith
      exact Int.cast_lt.mp this
    have i2 : 65536 * t - 65537 < k := by
      have : ((65536 * t - 65537 : Int) : K) < (k : K) := by
        push_cast
        linarith
      exact Int.cast_lt.mp this
    refine ⟨?_, ?_, ?_, ?_, ?_, ?_⟩ <;> intros <;> omega

end DoubleLemmas

theorem Math.PI_bounds : (3 : ℚ) < Math.PI ∧ Math.PI < 4 := by
  have e : Math.PI = 884279719003555 / 281474976710656 := rfl
  rw [e]
  constructor <;> norm_num

/-! ## Strings and the argument limit -/

theorem Readable.string_of_loop {K : Type} (e : Engine K) (r r1 : Readable) (s : List CodeUnit)
    (h : r.stringLoop [] = some ([] ++ s.map (fun c => (c.val : Int)), r1)) :
    Readable.string e r = if e.argLimit < s.length then none else some (s, r1) := by
  have hmap : (s.map (fun c => (c.val : Int))).map toUint16 = s := by
    rw [List.map_map]
    conv_rhs => rw [← List.map_id s]
    apply List.map_congr_left
    intro c _
    exact toUint16_val c
  simp only [Readable.string, h, Option.bind_eq_bind, Option.some_bind, Option.pure_def,
    List.nil_append, List.length_map, hmap]

theorem string_written_read {K : Type} (e : Engine K) (w : Writeable) (s : List CodeUnit)
    (hz : ∀ c ∈ s, c ≠ 0) (hroom : w.position + (s.length + 1) * 2 ≤ w.buffer.length) :
    ∃ w2 : Writeable, w.string s = some w2 ∧
      w2.position = w.position + (s.length + 1) * 2 ∧
      w2.buffer.length = w.buffer.length ∧
      (∀ i, i < w.position ∨ w.position + (s.length + 1) * 2 ≤ i →
        w2.buffer[i]? = w.buffer[i]?) ∧
      Readable.string e ⟨w2.buffer, w.position⟩
        = if e.argLimit < s.length then none else some (s, ⟨w2.buffer, w2.position⟩) := by
  have hl : (Buffer.ucs2 (s ++ [0])).length = (s.length + 1) * 2 := by
    rw [ucs2_length]; simp
  have hpre : (w.buffer.take w.position).length = w.position := by
    rw [List.length_take]; omega
  obtain ⟨hlen, hframe⟩ := splice_frame w.buffer (Buffer.ucs2 (s ++ [0])) w.position
    (by rw [hl]; exact hroom)
  rw [hl] at hlen hframe
  refine ⟨_, Writeable.string_spec w s hroom, rfl, hlen, hframe, ?_⟩
  have hloop := Readable.stringLoop_ucs2 s hz (w.buffer.take w.position)
    (w.buffer.drop (w.position + (s.length + 1) * 2)) []
  rw [hpre] at hloop
  exact Readable.string_of_loop e _ _ s hloop

theorem string_written_read_zero {K : Type} (e : Engine K) (w : Writeable) (s : List CodeUnit)
    (k : Nat) (hk : k < s.length) (h0 : s[k]? = some 0) (hfirst : ∀ c ∈ s.take k, c ≠ 0)
    (hroom : w.position + (s.length + 1) * 2 ≤ w.buffer.length) :
    ∃ w2 : Writeable, w.string s = some w2 ∧
      w2.position = w.position + 2 * (s.length + 1) ∧
      Readable.string e ⟨w2.buffer, w.position⟩
        = (if e.argLimit < k then none
          else some (s.take k, ⟨w2.buffer, w.position + 2 * (k + 1)⟩)) ∧
      w.position + 2 * (k + 1) < w2.position := by
  have hpre : (w.buffer.take w.position).length = w.position := by
    rw [List.length_take]; omega
  have hsplit := first_zero_split s k hk h0
  have hlenk : (s.take k).length = k := by
    rw [List.length_take]; omega
  refine ⟨_, Writeable.string_spec w s hroom, by simp only; omega, ?_, by simp only; omega⟩
  have hbytes : Buffer.ucs2 (s ++ [0])
      = Buffer.ucs2 (s.take k ++ [0]) ++ Buffer.ucs2 (s.drop (k + 1) ++ [0]) := by
    conv_lhs => rw [hsplit]
    rw [← ucs2_append]
    congr 1
    simp
  have hloop := Readable.stringLoop_ucs2 (s.take k) hfirst (w.buffer.take w.position)
    (Buffer.ucs2 (s.drop (k + 1) ++ [0]) ++ w.buffer.drop (w.position + (s.length + 1) * 2)) []
  rw [hpre, hlenk] at hloop
  simp only [hbytes, List.append_assoc]
  have h := Readable.string_of_loop e _ _ (s.take k) hloop
  rw [hlenk] at h
  rw [h]
  have e2 : w.position + (k + 1) * 2 = w.position + 2 * (k + 1) := by omega
  rw [e2]

theorem codeUnit_A_ne_zero : (0x41 : CodeUnit) ≠ 0 := by decide

theorem long_string_throws {K : Type} (e : Engine K) (n : Nat) (h : e.argLimit < n) :
    (∀ c ∈ (List.replicate n 0x41 : List CodeUnit), c ≠ 0) ∧
    ∃ w2 : Writeable,
      (Writeable.new ((n + 1) * 2)).string (List.replicate n 0x41) = some w2 ∧
      w2.position = (n + 1) * 2 ∧
      Readable.string e ⟨w2.buffer, 0⟩ = none := by
  have hz : ∀ c ∈ (List.replicate n 0x41 : List CodeUnit), c ≠ 0 := by
    intro c hc
    rw [List.eq_of_mem_replicate hc]
    exact codeUnit_A_ne_zero
  have hlen : (List.replicate n (0x41 : CodeUnit)).length = n := List.length_replicate _ _
  have hpos : (Writeable.new ((n + 1) * 2)).position = 0 := rfl
  have hroom : (Writeable.new ((n + 1) * 2)).position
      + ((List.replicate n (0x41 : CodeUnit)).length + 1) * 2
      ≤ (Writeable.new ((n + 1) * 2)).buffer.length := by
    rw [hlen, hpos]
    simp [Writeable.new, Buffer.alloc]
  obtain ⟨w2, hw, hp, -, -, hr⟩ := string_written_read e
    (Writeable.new ((n + 1) * 2)) (List.replicate n 0x41) hz hroom
  rw [hlen, hpos] at hp hr
  refine ⟨hz, w2, hw, by omega, ?_⟩
  rw [hr, if_pos h]

theorem long_prefix_throws {K : Type} (e : Engine K) (n : Nat) (h : e.argLimit < n) :
    ((List.replicate n 0x41 ++ [0, 0x42] : List CodeUnit)[n]? = some 0) ∧
    (∀ c ∈ (List.replicate n 0x41 ++ [0, 0x42] : List CodeUnit).take n, c ≠ 0) ∧
    ∃ w2 : Writeable,
      (Writeable.new ((n + 3) * 2)).string (List.replicate n 0x41 ++ [0, 0x42]) = some w2 ∧
      Readable.string e ⟨w2.buffer, 0⟩ = none := by
  have hlen : (List.replicate n 0x41 ++ [0, 0x42] : List CodeUnit).length = n + 2 := by
    simp
  have h0 : (List.replicate n 0x41 ++ [0, 0x42] : List CodeUnit)[n]? = some 0 := by
    rw [List.getElem?_append_right (by simp)]
    simp
  have htake : (List.replicate n 0x41 ++ [0, 0x42] : List CodeUnit).take n
      = List.replicate n 0x41 := by
    rw [List.take_append_of_le_length (by simp), List.take_replicate]
    simp
  have hfirst : ∀ c ∈ (List.replicate n 0x41 ++ [0, 0x42] : List CodeUnit).take n,
      c ≠ 0 := by
    intro c hc
    rw [htake] at hc
    rw [List.eq_of_mem_replicate hc]
    exact codeUnit_A_ne_zero
  have hpos : (Writeable.new ((n + 3) * 2)).position = 0 := rfl
  have hroom : (Writeable.new ((n + 3) * 2)).position
      + ((List.replicate n 0x41 ++ [0, 0x42] : List CodeUnit).length + 1) * 2
      ≤ (Writeable.new ((n + 3) * 2)).buffer.length := by
    rw [hlen, hpos]
    simp [Writeable.new, Buffer.alloc]
  obtain ⟨w2, hw, -, hr, -⟩ := string_written_read_zero e
    (Writeable.new ((n + 3) * 2)) (List.replicate n 0x41 ++ [0, 0x42]) n
    (by rw [hlen]; omega) h0 hfirst hroom
  refine ⟨h0, hfirst, w2, hw, ?_⟩
  rw [hpos] at hr
  rw [hr, if_pos h]

/-! ## What each field operation writes and reads -/

theorem Writeable.float_wrote {K : Type} (c : FloatCodec K) (w : Writeable) (n : Option K) :
    (w.position + 4 ≤ w.buffer.length →
      ∃ w1 : Writeable, w.float c n = some w1 ∧ w1.position = w.position + 4 ∧
        w1.buffer.length = w.buffer.length ∧
        ∀ i, i < w.position ∨ w.position + 4 ≤ i → w1.buffer[i]? = w.buffer[i]?) ∧
    (w.buffer.length < w.position + 4 → w.float c n = none) := by
  constructor
  · intro h
    have hl := c.floatBytes_length n
    obtain ⟨hlen, hframe⟩ := splice_frame w.buffer (c.floatBytes n) w.position
      (by rw [hl]; exact h)
    rw [hl] at hlen hframe
    refine ⟨⟨w.length, w.buffer.take w.position ++ (c.floatBytes n ++
      w.buffer.drop (w.position + 4)), w.position + 4⟩, ?_, rfl, hlen, hframe⟩
    simp only [Writeable.float, Buffer.writeFloatLE, Option.bind_eq_bind, Option.pure_def]
    rw [if_neg (by omega)]
    rfl
  · intro h
    simp only [Writeable.float, Buffer.writeFloatLE, Option.bind_eq_bind, Option.pure_def]
    rw [if_pos h]
    rfl

/-- Three `float` writes in a row. -/
theorem float3_wrote {K : Type} (c : FloatCodec K) (w : Writeable) (x y z : Option K) :
    (w.position + 12 ≤ w.buffer.length →
      ∃ w1 : Writeable,
        ((w.float c x).bind fun w1 => (w1.float c y).bind fun w2 => w2.float c z) = some w1 ∧
        w1.position = w.position + 12 ∧ w1.buffer.length = w.buffer.length ∧
        ∀ i, i < w.position ∨ w.position + 12 ≤ i → w1.buffer[i]? = w.buffer[i]?) ∧
    (w.buffer.length < w.position + 12 →
      ((w.float c x).bind fun w1 => (w1.float c y).bind fun w2 => w2.float c z) = none) := by
  constructor
  · intro h
    obtain ⟨w1, e1, s1⟩ := (Writeable.float_wrote c w x).1 (by omega)
    obtain ⟨w2, e2, s2⟩ := (Writeable.float_wrote c w1 y).1 (by omega)
    obtain ⟨w3, e3, s3⟩ := (Writeable.float_wrote c w2 z).1 (by omega)
    refine ⟨w3, by simp only [e1, e2, e3, Option.some_bind], ?_⟩
    exact wrote_trans w w2 w3 8 4 (wrote_trans w w1 w2 4 4 s1 s2) s3
  · intro h
    by_cases h1 : w.position + 4 ≤ w.buffer.length
    · obtain ⟨w1, e1, s1⟩ := (Writeable.float_wrote c w x).1 h1
      by_cases h2 : w1.position + 4 ≤ w1.buffer.length
      · obtain ⟨w2, e2, s2⟩ := (Writeable.float_wrote c w1 y).1 h2
        have e3 := (Writeable.float_wrote c w2 z).2 (by omega)
        simp only [e1, e2, e3, Option.some_bind]
      · have e2 := (Writeable.float_wrote c w1 y).2 (by omega)
        simp only [e1, e2, Option.some_bind, Option.none_bind]
    · have e1 := (Writeable.float_wrote c w x).2 (by omega)
      simp only [e1, Option.none_bind]

section ReadCursor

variable {K : Type} [LinearOrderedField K]

/-- The reader named by a fixed-width field moves the cursor by the width of the
field when the bytes are inside the buffer, and throws otherwise. -/
theorem Readable.read_cursor (c : FloatCodec K) (e : Engine K) (PI : K) (r : Readable)
    (f : Field K) (hf : f.fixedWidth = true) :
    (r.position + f.width ≤ r.buffer.length →
      r.read c e PI f = some ⟨r.buffer, r.position + f.width⟩) ∧
    (r.buffer.length < r.position + f.width → r.read c e PI f = none) := by
  cases f with
  | bool b =>
    exact ⟨fun h => by obtain ⟨v, n, hv⟩ := (Readable.bool_cursor r).1 h; simp [Readable.read, hv, Field.width],
      fun h => by simp [Readable.read, (Readable.bool_cursor r).2 h]⟩
  | byte n =>
    exact ⟨fun h => by obtain ⟨v, hv⟩ := (Readable.byte_cursor r).1 h; simp [Readable.read, hv, Field.width],
      fun h => by simp [Readable.read, (Readable.byte_cursor r).2 h]⟩
  | uint16 n =>
    exact ⟨fun h => by obtain ⟨v, hv⟩ := (Readable.uint16_cursor r).1 h; simp [Readable.read, hv, Field.width],
      fun h => by simp [Readable.read, (Readable.uint16_cursor r).2 h]⟩
  | int16 n =>
    exact ⟨fun h => by obtain ⟨v, hv⟩ := (Readable.int16_cursor r).1 h; simp [Readable.read, hv, Field.width],
      fun h => by simp [Readable.read, (Readable.int16_cursor r).2 h]⟩
  | uint32 n =>
    exact ⟨fun h => by obtain ⟨v, hv⟩ := (Readable.uint32_cursor r).1 h; simp [Readable.read, hv, Field.width],
      fun h => by simp [Readable.read, (Readable.uint32_cursor r).2 h]⟩
  | int32 n =>
    exact ⟨fun h => by obtain ⟨v, hv⟩ := (Readable.int32_cursor r).1 h; simp [Readable.read, hv, Field.width],
      fun h => by simp [Readable.read, (Readable.int32_cursor r).2 h]⟩
  | uint64 n =>
    exact ⟨fun h => by obtain ⟨v, hv⟩ := (Readable.uint64_cursor r).1 h; simp [Readable.read, hv, Field.width],
      fun h => by simp [Readable.read, (Readable.uint64_cursor r).2 h]⟩
  | int64 n =>
    exact ⟨fun h => by obtain ⟨v, hv⟩ := (Readable.int64_cursor r).1 h; simp [Readable.read, hv, Field.width],
      fun h => by simp [Readable.read, (Readable.int64_cursor r).2 h]⟩
  | float n =>
    exact ⟨fun h => by obtain ⟨v, hv⟩ := (Readable.float_cursor c r).1 h; simp [Readable.read, hv, Field.width],
      fun h => by simp [Readable.read, (Readable.float_cursor c r).2 h]⟩
  | double n =>
    exact ⟨fun h => by obtain ⟨v, hv⟩ := (Readable.double_cursor c r).1 h; simp [Readable.read, hv, Field.width],
      fun h => by simp [Readable.read, (Readable.double_cursor c r).2 h]⟩
  | vec3 v =>
    exact ⟨fun h => by obtain ⟨v, hv⟩ := (Readable.vec3_cursor c r).1 h; simp [Readable.read, hv, Field.width],
      fun h => by simp [Readable.read, (Readable.vec3_cursor c r).2 h]⟩
  | vec3fa v =>
    exact ⟨fun h => by obtain ⟨v, hv⟩ := (Readable.vec3fa_cursor c PI r).1 h; simp [Readable.read, hv, Field.width],
      fun h => by simp [Readable.read, (Readable.vec3fa_cursor c PI r).2 h]⟩
  | angle a =>
    exact ⟨fun h => by obtain ⟨v, hv⟩ := (Readable.angle_cursor PI r).1 h; simp [Readable.read, hv, Field.width],
      fun h => by simp [Readable.read, (Readable.angle_cursor PI r).2 h]⟩
  | skillid a =>
    exact ⟨fun h => by obtain ⟨v, hv⟩ := (Readable.skillid_cursor r).1 h; simp [Readable.read, hv, Field.width],
      fun h => by simp [Readable.read, (Readable.skillid_cursor r).2 h]⟩
  | bytes b => simp [Field.fixedWidth] at hf
  | string s => simp [Field.fixedWidth] at hf

theorem Readable.readAll_cursor (c : FloatCodec K) (e : Engine K) (PI : K) (fs : List (Field K))
    (hfs : ∀ f ∈ fs, f.fixedWidth = true) :
    ∀ r : Readable, r.position + Field.totalWidth fs ≤ r.buffer.length →
      r.readAll c e PI fs = some ⟨r.buffer, r.position + Field.totalWidth fs⟩ := by
  induction fs with
  | nil =>
    intro r _
    simp [Readable.readAll, Field.totalWidth]
  | cons f fs ih =>
    intro r hroom
    rw [Field.totalWidth_cons] at hroom ⊢
    have e1 := (Readable.read_cursor c e PI r f (hfs f (by simp))).1 (by omega)
    have e2 := ih (fun g hg => hfs g (by simp [hg])) ⟨r.buffer, r.position + f.width⟩
      (by simp only; omega)
    simp only [Readable.readAll, e1, Option.some_bind, e2, Nat.add_assoc]

end ReadCursor

section FieldLemmas

variable {K : Type} [LinearOrderedField K] [FloorRing K]

theorem Writeable.angle_uint16 (e : Engine K) (PI : K) (w : Writeable) (r : K) :
    ∃ idx : Int, Writeable.angle e PI w r = w.uint16 idx := by
  unfold Writeable.angle
  cases Number.mul e (some r) (MULT_RAD_TO_INT16 e PI) with
  | none => exact ⟨0, rfl⟩
  | some p => exact ⟨Math.round p, rfl⟩

/-- With room for the field, the writer it names succeeds, advances by the width
of the field, keeps the length of the buffer and changes no byte outside the field. -/
theorem Writeable.write_wrote (c : FloatCodec K) (e : Engine K) (PI : K) (w : Writeable) (f : Field K)
    (hroom : w.position + f.width ≤ w.buffer.length) :
    ∃ w1 : Writeable, w.write c e PI f = some w1 ∧ w1.position = w.position + f.width ∧
      w1.buffer.length = w.buffer.length ∧
      ∀ i, i < w.position ∨ w.position + f.width ≤ i → w1.buffer[i]? = w.buffer[i]? := by
  cases f with
  | bool b => exact ⟨_, rfl, Writeable.bool_wrote w b⟩
  | byte n => exact ⟨_, rfl, Writeable.byte_wrote w n⟩
  | uint16 n => exact (Writeable.uint16_wrote w n).1 hroom
  | int16 n => exact (Writeable.uint16_wrote w n).1 hroom
  | uint32 n => exact (Writeable.uint32_wrote w n).1 hroom
  | int32 n => exact (Writeable.uint32_wrote w n).1 hroom
  | uint64 n => exact (Writeable.uint64_wrote w n).1 hroom
  | int64 n => exact (Writeable.uint64_wrote w n).1 hroom
  | float n => exact (Writeable.float_wrote c w (some n)).1 hroom
  | double n => exact (Writeable.double_wrote c w n).1 hroom
  | vec3 v => exact (float3_wrote c w (some v.x) (some v.y) (some v.z)).1 hroom
  | vec3fa v => exact (float3_wrote c w _ _ _).1 hroom
  | angle r =>
    obtain ⟨idx, hidx⟩ := Writeable.angle_uint16 e PI w r
    obtain ⟨w1, h1, s1⟩ := (Writeable.uint16_wrote w idx).1 hroom
    exact ⟨w1, hidx.trans h1, s1⟩
  | skillid arg => exact (Writeable.skillid_wrote w arg).1 hroom
  | bytes buf =>
    cases buf with
    | none => exact ⟨w, rfl, rfl, rfl, fun _ _ => rfl⟩
    | some src => exact ⟨_, rfl, Writeable.bytes_wrote w src hroom⟩
  | string s => exact Writeable.string_wrote w s hroom

/-- A fixed-width writer that returns has advanced by the width of its field. -/
theorem Writeable.write_position (c : FloatCodec K) (e : Engine K) (PI : K) (w w1 : Writeable)
    (f : Field K) (hf : f.fixedWidth = true) (h : w.write c e PI f = some w1) :
    w1.position = w.position + f.width := by
  by_cases hroom : w.position + f.width ≤ w.buffer.length
  · obtain ⟨w2, h2, hp, -⟩ := Writeable.write_wrote c e PI w f hroom
    rw [h2] at h
    cases h
    exact hp
  · have hlt : w.buffer.length < w.position + f.width := by omega
    cases f with
    | bool b => cases h; rfl
    | byte n => cases h; rfl
    | uint16 n => rw [show w.write c e PI (.uint16 n) = w.uint16 n from rfl,
        (Writeable.uint16_wrote w n).2 hlt] at h; cases h
    | int16 n => rw [show w.write c e PI (.int16 n) = w.uint16 n from rfl,
        (Writeable.uint16_wrote w n).2 hlt] at h; cases h
    | uint32 n => rw [show w.write c e PI (.uint32 n) = w.uint32 n from rfl,
        (Writeable.uint32_wrote w n).2 hlt] at h; cases h
    | int32 n => rw [show w.write c e PI (.int32 n) = w.uint32 n from rfl,
        (Writeable.uint32_wrote w n).2 hlt] at h; cases h
    | uint64 n => rw [show w.write c e PI (.uint64 n) = w.uint64 n from rfl,
        (Writeable.uint64_wrote w n).2 hlt] at h; cases h
    | int64 n => rw [show w.write c e PI (.int64 n) = w.uint64 n from rfl,
        (Writeable.uint64_wrote w n).2 hlt] at h; cases h
    | float n => rw [show w.write c e PI (.float n) = w.float c (some n) from rfl,
        (Writeable.float_wrote c w (some n)).2 hlt] at h; cases h
    | double n => rw [show w.write c e PI (.double n) = w.double c n from rfl,
        (Writeable.double_wrote c w n).2 hlt] at h; cases h
    | vec3 v =>
      have hn := (float3_wrote c w (some v.x) (some v.y) (some v.z)).2 hlt
      have h2 : ((w.float c (some v.x)).bind fun w1 => (w1.float c (some v.y)).bind fun w2 =>
          w2.float c (some v.z)) = some w1 := h
      rw [hn] at h2
      cases h2
    | vec3fa v =>
      have hn := (float3_wrote c w ((Writeable.vec3faArg e PI v.x).map fun n => (n : K))
        ((Writeable.vec3faArg e PI v.y).map fun n => (n : K))
        ((Writeable.vec3faArg e PI v.z).map fun n => (n : K))).2 hlt
      have h2 : ((w.float c ((Writeable.vec3faArg e PI v.x).map fun n => (n : K))).bind fun w1 =>
          (w1.float c ((Writeable.vec3faArg e PI v.y).map fun n => (n : K))).bind fun w2 =>
            w2.float c ((Writeable.vec3faArg e PI v.z).map fun n => (n : K))) = some w1 := h
      rw [hn] at h2
      cases h2
    | angle r =>
      obtain ⟨idx, hidx⟩ := Writeable.angle_uint16 e PI w r
      rw [show w.write c e PI (.angle r) = w.angle e PI r from rfl, hidx,
        (Writeable.uint16_wrote w idx).2 hlt] at h
      cases h
    | skillid arg => rw [show w.write c e PI (.skillid arg) = w.skillid arg from rfl,
        (Writeable.skillid_wrote w arg).2 hlt] at h; cases h
    | bytes b => simp [Field.fixedWidth] at hf
    | string s => simp [Field.fixedWidth] at hf

theorem Writeable.writeAll_wrote (c : FloatCodec K) (e : Engine K) (PI : K) (fs : List (Field K)) :
    ∀ w : Writeable, w.position + Field.totalWidth fs ≤ w.buffer.length →
      ∃ w1 : Writeable, w.writeAll c e PI fs = some w1 ∧
        w1.position = w.position + Field.totalWidth fs ∧
        w1.buffer.length = w.buffer.length ∧
        ∀ i, i < w.position ∨ w.position + Field.totalWidth fs ≤ i →
          w1.buffer[i]? = w.buffer[i]? := by
  induction fs with
  | nil =>
    intro w _
    exact ⟨w, rfl, rfl, rfl, fun _ _ => rfl⟩
  | cons f fs ih =>
    intro w hroom
    rw [Field.totalWidth_cons] at hroom ⊢
    obtain ⟨w1, e1, s1⟩ := Writeable.write_wrote c e PI w f (by omega)
    obtain ⟨w2, e2, s2⟩ := ih w1 (by omega)
    refine ⟨w2, ?_, wrote_trans w w1 w2 _ _ s1 s2⟩
    simp only [Writeable.writeAll, e1, Option.some_bind, e2]

end FieldLemmas

/-! ## The claims -/

/-- Claim C1: for every integer `n` with `0 ≤ n < 2^64` and every write position
`p` with `p + 8 ≤` the buffer length, `Writeable.uint64(n)` at `p` succeeds and ends
at `p + 8`, and `Readable.uint64` on the resulting buffer at `p` returns exactly
`n` and ends at `p + 8`. -/
theorem uint64_roundtrip (w : Writeable) (n : Int) (h0 : 0 ≤ n)
    (h1 : n < 2 ^ 64) (hroom : w.position + 8 ≤ w.buffer.length) :
    ∃ w2 : Writeable, w.uint64 n = some w2 ∧ w2.position = w.position + 8 ∧
      Readable.uint64 ⟨w2.buffer, w.position⟩ = some (n, ⟨w2.buffer, w.position + 8⟩) :=
  uint64_write_read w n h0 h1 hroom

theorem uint64_roundtrip_witness :
    ∃ w2 : Writeable, ((Writeable.new 12).seek 3).uint64 18446744073709551615 = some w2 ∧
      w2.position = ((Writeable.new 12).seek 3).position + 8 ∧
      Readable.uint64 ⟨w2.buffer, ((Writeable.new 12).seek 3).position⟩
        = some (18446744073709551615, ⟨w2.buffer, ((Writeable.new 12).seek 3).position + 8⟩) :=
  uint64_roundtrip ((Writeable.new 12).seek 3) 18446744073709551615 (by decide) (by decide)
    (by decide)

/-- Claim C2: for every integer `n` with `-2^63 ≤ n < 2^63`, `Writeable.int64(n)`
(which is `Writeable.uint64`) followed by `Readable.int64` from the same start
position returns exactly `n`; the result is negative exactly when bit 31 of the
second 32-bit word is set. -/
theorem int64_roundtrip (w : Writeable) (n : Int) (h0 : -2 ^ 63 ≤ n)
    (h1 : n < 2 ^ 63) (hroom : w.position + 8 ≤ w.buffer.length) :
    w.int64 n = w.uint64 n ∧
    ∃ w2 : Writeable, w.int64 n = some w2 ∧ w2.position = w.position + 8 ∧
      Readable.int64 ⟨w2.buffer, w.position⟩ = some (n, ⟨w2.buffer, w.position + 8⟩) ∧
      ∃ hi : Int, Readable.uint32 ⟨w2.buffer, w.position + 4⟩
          = some (hi, ⟨w2.buffer, w.position + 8⟩) ∧
        (n < 0 ↔ hi / 2 ^ 31 % 2 = 1) := by
  obtain ⟨w2, hw, -, hp, -, -, b0, b1, b2, b3, b4, b5, b6, b7⟩ :=
    Writeable.uint64_spec w n hroom
  refine ⟨rfl, w2, hw, hp, ?_, _, Readable.uint32_of_bytes _ _ _ _ _ _ b4 b5 b6 b7, ?_⟩
  · rw [Readable.int64_of_bytes _ _ _ _ _ _ _ _ _ _ b0 b1 b2 b3 b4 b5 b6 b7]
    congr 2
    simp only [toUint8_val, toInt32]
    split_ifs <;> omega
  · simp only [toUint8_val]
    omega

theorem int64_roundtrip_witness :
    (Writeable.new 8).int64 (-9223372036854775808)
      = (Writeable.new 8).uint64 (-9223372036854775808) ∧
    ∃ w2 : Writeable, (Writeable.new 8).int64 (-9223372036854775808) = some w2 ∧
      w2.position = (Writeable.new 8).position + 8 ∧
      Readable.int64 ⟨w2.buffer, (Writeable.new 8).position⟩
        = some (-9223372036854775808, ⟨w2.buffer, (Writeable.new 8).position + 8⟩) ∧
      ∃ hi : Int, Readable.uint32 ⟨w2.buffer, (Writeable.new 8).position + 4⟩
          = some (hi, ⟨w2.buffer, (Writeable.new 8).position + 8⟩) ∧
        ((-9223372036854775808 : Int) < 0 ↔ hi / 2 ^ 31 % 2 = 1) :=
  int64_roundtrip (Writeable.new 8) (-9223372036854775808) (by decide) (by decide) (by decide)

/-- Claim C3: for every SkillID whose fields are in range (type in 0..15, reserved
in {0,1}, and either npc false with `0 ≤ id < 2^28` and huntingZoneId 0, or npc true
with `0 ≤ id < 2^16` and `0 ≤ huntingZoneId < 2^12`), `Writeable.skillid` followed by
`Readable.skillid` from the same start position returns the same id,
huntingZoneId, type, npc and reserved. -/
theorem skillid_roundtrip (w : Writeable) (s : SkillID)
    (htype : 0 ≤ s.type ∧ s.type ≤ 15) (hres : s.reserved = 0 ∨ s.reserved = 1)
    (hfields : (s.npc = false ∧ 0 ≤ s.id ∧ s.id < 2 ^ 28 ∧ s.huntingZoneId = 0) ∨
      (s.npc = true ∧ 0 ≤ s.id ∧ s.id < 2 ^ 16 ∧
        0 ≤ s.huntingZoneId ∧ s.huntingZoneId < 2 ^ 12))
    (hroom : w.position + 8 ≤ w.buffer.length) :
    ∃ w2 : Writeable,
      w.skillid (.object ⟨some s.id, some s.huntingZoneId, some s.type, some s.npc,
        some s.reserved⟩) = some w2 ∧
      Readable.skillid ⟨w2.buffer, w.position⟩ = some (s, ⟨w2.buffer, w.position + 8⟩) := by
  obtain ⟨w2, hw, -, hr⟩ := skillid_write_read w
    ⟨some s.id, some s.huntingZoneId, some s.type, some s.npc, some s.reserved⟩ hroom
  refine ⟨w2, hw, ?_⟩
  rw [hr]
  congr 2
  obtain ⟨id, hz, ty, npc, res⟩ := s
  simp only [Option.getD_some] at *
  rcases hfields with ⟨hn, h1, h2, h3⟩ | ⟨hn, h1, h2, h3, h4⟩
  · subst hn
    simp only [Bool.false_eq_true, if_false]
    congr 1 <;> omega
  · subst hn
    simp only [if_true]
    congr 1 <;> omega

theorem skillid_roundtrip_witness :
    (∃ w2 : Writeable,
      (Writeable.new 8).skillid (.object ⟨some 12345, some 0, some 3, some false, some 0⟩)
        = some w2 ∧
      Readable.skillid ⟨w2.buffer, (Writeable.new 8).position⟩
        = some (⟨12345, 0, 3, false, 0⟩, ⟨w2.buffer, (Writeable.new 8).position + 8⟩)) ∧
    (∃ w2 : Writeable,
      (Writeable.new 8).skillid (.object ⟨some 200, some 999, some 5, some true, some 1⟩)
        = some w2 ∧
      Readable.skillid ⟨w2.buffer, (Writeable.new 8).position⟩
        = some (⟨200, 999, 5, true, 1⟩, ⟨w2.buffer, (Writeable.new 8).position + 8⟩)) :=
  ⟨skillid_roundtrip (Writeable.new 8) ⟨12345, 0, 3, false, 0⟩ (by decide) (by decide)
      (by decide) (by decide),
   skillid_roundtrip (Writeable.new 8) ⟨200, 999, 5, true, 1⟩ (by decide) (by decide)
      (by decide) (by decide)⟩

/-- Claim C4, amended: for every string `s` of UTF-16 code units with no zero code
unit (the empty string and non-ASCII units included), `Writeable.string(s)` writes
exactly `(len(s)+1)*2` bytes and advances the write position by that amount. When
`len(s)` is no more than the number of arguments one call may take,
`Readable.string` from the same start position returns `s` and ends at the same
position; when `s` is longer, `Readable.string` throws, because it hands all code
units to one call of `String.fromCharCode`. -/
theorem string_roundtrip {K : Type} (e : Engine K) (w : Writeable) (s : List CodeUnit)
    (hz : ∀ c ∈ s, c ≠ 0)
    (hroom : w.position + (s.length + 1) * 2 ≤ w.buffer.length) :
    ∃ w2 : Writeable, w.string s = some w2 ∧
      w2.position = w.position + (s.length + 1) * 2 ∧
      w2.buffer.length = w.buffer.length ∧
      (∀ i, i < w.position ∨ w.position + (s.length + 1) * 2 ≤ i →
        w2.buffer[i]? = w.buffer[i]?) ∧
      (s.length ≤ e.argLimit →
        Readable.string e ⟨w2.buffer, w.position⟩ = some (s, ⟨w2.buffer, w2.position⟩)) ∧
      (e.argLimit < s.length → Readable.string e ⟨w2.buffer, w.position⟩ = none) := by
  obtain ⟨w2, hw, hp, hlen, hframe, hr⟩ := string_written_read e w s hz hroom
  refine ⟨w2, hw, hp, hlen, hframe, ?_, ?_⟩
  · intro h
    rw [hr, if_neg (by omega)]
  · intro h
    rw [hr, if_pos h]

/-- The amended C4 at a string with non-ASCII code units written at position 2, and
at the empty string, for an engine that takes up to 65535 arguments. -/
theorem string_roundtrip_witness :
    (∃ w2 : Writeable, ((Writeable.new 12).seek 2).string [0x41, 0x3042, 0xD83D] = some w2 ∧
      w2.position = ((Writeable.new 12).seek 2).position + (3 + 1) * 2 ∧
      w2.buffer.length = ((Writeable.new 12).seek 2).buffer.length ∧
      (∀ i, i < ((Writeable.new 12).seek 2).position ∨
          ((Writeable.new 12).seek 2).position + (3 + 1) * 2 ≤ i →
        w2.buffer[i]? = ((Writeable.new 12).seek 2).buffer[i]?) ∧
      (3 ≤ (Engine.binary64 65535 : Engine ℚ).argLimit →
        Readable.string (Engine.binary64 65535 : Engine ℚ)
            ⟨w2.buffer, ((Writeable.new 12).seek 2).position⟩
          = some ([0x41, 0x3042, 0xD83D], ⟨w2.buffer, w2.position⟩)) ∧
      ((Engine.binary64 65535 : Engine ℚ).argLimit < 3 →
        Readable.string (Engine.binary64 65535 : Engine ℚ)
            ⟨w2.buffer, ((Writeable.new 12).seek 2).position⟩ = none)) ∧
    (∃ w2 : Writeable, (Writeable.new 2).string [] = some w2 ∧
      w2.position = (Writeable.new 2).position + (0 + 1) * 2 ∧
      w2.buffer.length = (Writeable.new 2).buffer.length ∧
      (∀ i, i < (Writeable.new 2).position ∨ (Writeable.new 2).position + (0 + 1) * 2 ≤ i →
        w2.buffer[i]? = (Writeable.new 2).buffer[i]?) ∧
      (0 ≤ (Engine.binary64 65535 : Engine ℚ).argLimit →
        Readable.string (Engine.binary64 65535 : Engine ℚ)
            ⟨w2.buffer, (Writeable.new 2).position⟩
          = some ([], ⟨w2.buffer, w2.position⟩)) ∧
      ((Engine.binary64 65535 : Engine ℚ).argLimit < 0 →
        Readable.string (Engine.binary64 65535 : Engine ℚ)
            ⟨w2.buffer, (Writeable.new 2).position⟩ = none)) :=
  ⟨string_roundtrip (Engine.binary64 65535) ((Writeable.new 12).seek 2)
      [0x41, 0x3042, 0xD83D] (by simp) (by decide),
   string_roundtrip (Engine.binary64 65535) (Writeable.new 2) [] (by simp) (by decide)⟩

/-- Claim C4 as stated fails for a string of 130000 code units `A` on an engine
that takes up to 129999 arguments in one call: the string holds no zero code unit,
`Writeable.string` writes it into a buffer of 260002 bytes, and `Readable.string`
from the same start position throws instead of returning it. -/
theorem string_roundtrip_counterexample :
    (∀ c ∈ (List.replicate 130000 0x41 : List CodeUnit), c ≠ 0) ∧
    ∃ w2 : Writeable,
      (Writeable.new ((130000 + 1) * 2)).string (List.replicate 130000 0x41) = some w2 ∧
      w2.position = (130000 + 1) * 2 ∧
      Readable.string (Engine.binary64 129999 : Engine ℚ) ⟨w2.buffer, 0⟩ = none :=
  long_string_throws (Engine.binary64 129999 : Engine ℚ) 130000 (Nat.lt_succ_self 129999)

/-- Claim C5: for byte, uint16, int16, uint32 and int32 and every value `v` in the
range of the type, writing `v` with the `Writeable` operation of that name (the
signed ones being the unsigned writers) and reading it with the `Readable`
operation of the same name from the same start position returns `v`. -/
theorem small_int_roundtrip (w : Writeable) :
    (∀ v : Int, 0 ≤ v → v ≤ 255 → w.position + 1 ≤ w.buffer.length →
      Readable.byte ⟨(w.byte v).buffer, w.position⟩
        = some (v, ⟨(w.byte v).buffer, w.position + 1⟩)) ∧
    (∀ v : Int, 0 ≤ v → v ≤ 65535 → w.position + 2 ≤ w.buffer.length →
      ∃ w1 : Writeable, w.uint16 v = some w1 ∧
        Readable.uint16 ⟨w1.buffer, w.position⟩ = some (v, ⟨w1.buffer, w.position + 2⟩)) ∧
    (∀ v : Int, -32768 ≤ v → v ≤ 32767 → w.position + 2 ≤ w.buffer.length →
      w.int16 v = w.uint16 v ∧
      ∃ w1 : Writeable, w.int16 v = some w1 ∧
        Readable.int16 ⟨w1.buffer, w.position⟩ = some (v, ⟨w1.buffer, w.position + 2⟩)) ∧
    (∀ v : Int, 0 ≤ v → v ≤ 2 ^ 32 - 1 → w.position + 4 ≤ w.buffer.length →
      ∃ w1 : Writeable, w.uint32 v = some w1 ∧
        Readable.uint32 ⟨w1.buffer, w.position⟩ = some (v, ⟨w1.buffer, w.position + 4⟩)) ∧
    (∀ v : Int, -2 ^ 31 ≤ v → v ≤ 2 ^ 31 - 1 → w.position + 4 ≤ w.buffer.length →
      w.int32 v = w.uint32 v ∧
      ∃ w1 : Writeable, w.int32 v = some w1 ∧
        Readable.int32 ⟨w1.buffer, w.position⟩ = some (v, ⟨w1.buffer, w.position + 4⟩)) := by
  refine ⟨?_, ?_, ?_, ?_, ?_⟩
  · intro v h0 h1 hroom
    obtain ⟨-, -, -, -, b0⟩ := Writeable.byte_spec w v hroom
    rw [Readable.byte_of_bytes _ _ _ b0]
    congr 2
    rw [toUint8_val]
    omega
  · intro v h0 h1 hroom
    obtain ⟨w1, hw, -, -, -, -, b0, b1⟩ := Writeable.uint16_spec w v hroom
    refine ⟨w1, hw, ?_⟩
    rw [Readable.uint16_of_bytes _ _ _ _ b0 b1]
    congr 2
    simp only [toUint8_val]
    omega
  · intro v h0 h1 hroom
    obtain ⟨w1, hw, -, -, -, -, b0, b1⟩ := Writeable.uint16_spec w v hroom
    refine ⟨rfl, w1, hw, ?_⟩
    rw [Readable.int16_of_bytes _ _ _ _ b0 b1]
    congr 2
    simp only [toUint8_val]
    split_ifs <;> omega
  · intro v h0 h1 hroom
    obtain ⟨w1, hw, -, -, -, -, b0, b1, b2, b3⟩ := Writeable.uint32_spec w v hroom
    refine ⟨w1, hw, ?_⟩
    rw [Readable.uint32_of_bytes _ _ _ _ _ _ b0 b1 b2 b3]
    congr 2
    simp only [toUint8_val]
    omega
  · intro v h0 h1 hroom
    obtain ⟨w1, hw, -, -, -, -, b0, b1, b2, b3⟩ := Writeable.uint32_spec w v hroom
    refine ⟨rfl, w1, hw, ?_⟩
    rw [Readable.int32_of_bytes _ _ _ _ _ _ b0 b1 b2 b3]
    congr 2
    simp only [toUint8_val, toInt32]
    split_ifs <;> omega

theorem small_int_roundtrip_witness :
    Readable.byte ⟨((Writeable.new 4).byte 255).buffer, (Writeable.new 4).position⟩
      = some (255, ⟨((Writeable.new 4).byte 255).buffer, (Writeable.new 4).position + 1⟩) ∧
    (∃ w1 : Writeable, (Writeable.new 4).uint16 65535 = some w1 ∧
      Readable.uint16 ⟨w1.buffer, (Writeable.new 4).position⟩
        = some (65535, ⟨w1.buffer, (Writeable.new 4).position + 2⟩)) ∧
    ((Writeable.new 4).int16 (-32768) = (Writeable.new 4).uint16 (-32768) ∧
      ∃ w1 : Writeable, (Writeable.new 4).int16 (-32768) = some w1 ∧
        Readable.int16 ⟨w1.buffer, (Writeable.new 4).position⟩
          = some (-32768, ⟨w1.buffer, (Writeable.new 4).position + 2⟩)) ∧
    (∃ w1 : Writeable, (Writeable.new 4).uint32 4294967295 = some w1 ∧
      Readable.uint32 ⟨w1.buffer, (Writeable.new 4).position⟩
        = some (4294967295, ⟨w1.buffer, (Writeable.new 4).position + 4⟩)) ∧
    ((Writeable.new 4).int32 (-2147483648) = (Writeable.new 4).uint32 (-2147483648) ∧
      ∃ w1 : Writeable, (Writeable.new 4).int32 (-2147483648) = some w1 ∧
        Readable.int32 ⟨w1.buffer, (Writeable.new 4).position⟩
          = some (-2147483648, ⟨w1.buffer, (Writeable.new 4).position + 4⟩)) :=
  ⟨(small_int_roundtrip (Writeable.new 4)).1 255 (by decide) (by decide) (by decide),
   (small_int_roundtrip (Writeable.new 4)).2.1 65535 (by decide) (by decide) (by decide),
   (small_int_roundtrip (Writeable.new 4)).2.2.1 (-32768) (by decide) (by decide) (by decide),
   (small_int_roundtrip (Writeable.new 4)).2.2.2.1 4294967295 (by decide) (by decide)
     (by decide),
   (small_int_roundtrip (Writeable.new 4)).2.2.2.2 (-2147483648) (by decide) (by decide)
     (by decide)⟩

/-- Claim C6: for `0 ≤ n < 2^64` the eight bytes `Writeable.uint64(n)` writes at
`p` are `buffer[p+i] = floor(n / 256^i) mod 256`; `Readable.uint64` over bytes
`b0..b7` returns the sum of `b_i * 256^i`; and `0x0102030405060708` is written as
`08 07 06 05 04 03 02 01` and read back unchanged. -/
theorem uint64_little_endian :
    (∀ (w : Writeable) (n : Int), 0 ≤ n → n < 2 ^ 64 → w.position + 8 ≤ w.buffer.length →
      ∃ w2 : Writeable, w.uint64 n = some w2 ∧
        ∀ i : Nat, i < 8 → ∃ b : Byte, w2.buffer[w.position + i]? = some b ∧
          (b.val : Int) = n / 256 ^ i % 256) ∧
    (∀ (pre post : List Byte) (b0 b1 b2 b3 b4 b5 b6 b7 : Byte),
      Readable.uint64 ⟨pre ++ [b0, b1, b2, b3, b4, b5, b6, b7] ++ post, pre.length⟩
        = some ((b0.val : Int) * 256 ^ 0 + (b1.val : Int) * 256 ^ 1 + (b2.val : Int) * 256 ^ 2
            + (b3.val : Int) * 256 ^ 3 + (b4.val : Int) * 256 ^ 4 + (b5.val : Int) * 256 ^ 5
            + (b6.val : Int) * 256 ^ 6 + (b7.val : Int) * 256 ^ 7,
          ⟨pre ++ [b0, b1, b2, b3, b4, b5, b6, b7] ++ post, pre.length + 8⟩)) ∧
    (Writeable.new 8).uint64 0x0102030405060708
      = some ⟨8, [0x08, 0x07, 0x06, 0x05, 0x04, 0x03, 0x02, 0x01], 8⟩ ∧
    Readable.uint64 ⟨[0x08, 0x07, 0x06, 0x05, 0x04, 0x03, 0x02, 0x01], 0⟩
      = some (0x0102030405060708, ⟨[0x08, 0x07, 0x06, 0x05, 0x04, 0x03, 0x02, 0x01], 8⟩) := by
  refine ⟨?_, ?_, by decide, by decide⟩
  · intro w n h0 h1 hroom
    obtain ⟨w2, hw, -, -, -, -, b0, b1, b2, b3, b4, b5, b6, b7⟩ :=
      Writeable.uint64_spec w n hroom
    refine ⟨w2, hw, ?_⟩
    intro i hi
    have hcases : i = 0 ∨ i = 1 ∨ i = 2 ∨ i = 3 ∨ i = 4 ∨ i = 5 ∨ i = 6 ∨ i = 7 := by omega
    rcases hcases with h | h | h | h | h | h | h | h <;> subst h
    · exact ⟨_, b0, by rw [toUint8_val]; norm_num⟩
    · exact ⟨_, b1, by rw [toUint8_val]; norm_num⟩
    · exact ⟨_, b2, by rw [toUint8_val]; norm_num⟩
    · exact ⟨_, b3, by rw [toUint8_val]; norm_num⟩
    · exact ⟨_, b4, by rw [toUint8_val]; norm_num⟩
    · exact ⟨_, b5, by rw [toUint8_val]; norm_num⟩
    · exact ⟨_, b6, by rw [toUint8_val]; norm_num⟩
    · exact ⟨_, b7, by rw [toUint8_val]; norm_num⟩
  · intro pre post b0 b1 b2 b3 b4 b5 b6 b7
    rw [List.append_assoc]
    rw [Readable.uint64_of_bytes (pre ++ ([b0, b1, b2, b3, b4, b5, b6, b7] ++ post)) pre.length
      b0 b1 b2 b3 b4 b5 b6 b7
      (getElem?_append_add pre _ 0 b0 (by simp)) (getElem?_append_add pre _ 1 b1 (by simp))
      (getElem?_append_add pre _ 2 b2 (by simp)) (getElem?_append_add pre _ 3 b3 (by simp))
      (getElem?_append_add pre _ 4 b4 (by simp)) (getElem?_append_add pre _ 5 b5 (by simp))
      (getElem?_append_add pre _ 6 b6 (by simp)) (getElem?_append_add pre _ 7 b7 (by simp))]
    congr 2
    norm_num

theorem uint64_little_endian_witness :
    ∃ w2 : Writeable, (Writeable.new 8).uint64 0x0102030405060708 = some w2 ∧
      ∀ i : Nat, i < 8 → ∃ b : Byte, w2.buffer[(Writeable.new 8).position + i]? = some b ∧
        (b.val : Int) = 0x0102030405060708 / 256 ^ i % 256 :=
  uint64_little_endian.1 (Writeable.new 8) 0x0102030405060708 (by decide) (by decide)
    (by decide)

/-- Claim C7: for every structured SkillID input with arbitrary integer id,
huntingZoneId, type and reserved and boolean npc, `Writeable.skillid` succeeds and
what it writes decodes to id mod 2^16 and huntingZoneId mod 2^12 when npc is true,
id mod 2^28 and huntingZoneId 0 when npc is false, type mod 16, reserved mod 2 and
npc unchanged. -/
theorem skillid_masking (w : Writeable) (id huntingZoneId type reserved : Int) (npc : Bool)
    (hroom : w.position + 8 ≤ w.buffer.length) :
    ∃ w2 : Writeable,
      w.skillid (.object ⟨some id, some huntingZoneId, some type, some npc, some reserved⟩)
        = some w2 ∧
      Readable.skillid ⟨w2.buffer, w.position⟩ = some (
        { id := if npc then id % 2 ^ 16 else id % 2 ^ 28,
          huntingZoneId := if npc then huntingZoneId % 2 ^ 12 else 0,
          type := type % 16,
          npc := npc,
          reserved := reserved % 2 }, ⟨w2.buffer, w.position + 8⟩) := by
  obtain ⟨w2, hw, -, hr⟩ := skillid_write_read w
    ⟨some id, some huntingZoneId, some type, some npc, some reserved⟩ hroom
  exact ⟨w2, hw, hr⟩

theorem skillid_masking_witness :
    ∃ w2 : Writeable,
      (Writeable.new 8).skillid
        (.object ⟨some (-1), some 0x12345, some 0x35, some true, some 3⟩) = some w2 ∧
      Readable.skillid ⟨w2.buffer, (Writeable.new 8).position⟩ = some (
        { id := if true then (-1) % 2 ^ 16 else (-1) % 2 ^ 28,
          huntingZoneId := if true then 0x12345 % 2 ^ 12 else 0,
          type := 0x35 % 16,
          npc := true,
          reserved := 3 % 2 }, ⟨w2.buffer, (Writeable.new 8).position + 8⟩) :=
  skillid_masking (Writeable.new 8) (-1) 0x12345 0x35 3 true (by decide)

/-- Claim C8: for every integer `n` with `0 ≤ n < 2^28`, `Writeable.skillid(n)` on a
plain integer writes exactly what `Writeable.skillid({type: 1, id: n})` writes, and
`Readable.skillid` on it returns id `n`, type 1, npc false, huntingZoneId 0 and
reserved 0. -/
theorem skillid_plain_integer (w : Writeable) (n : Int) (h0 : 0 ≤ n) (h1 : n < 2 ^ 28)
    (hroom : w.position + 8 ≤ w.buffer.length) :
    w.skillid (.number n) = w.skillid (.object ⟨some n, none, some 1, none, none⟩) ∧
    ∃ w2 : Writeable, w.skillid (.number n) = some w2 ∧ w2.position = w.position + 8 ∧
      Readable.skillid ⟨w2.buffer, w.position⟩
        = some (⟨n, 0, 1, false, 0⟩, ⟨w2.buffer, w.position + 8⟩) := by
  obtain ⟨w2, hw, hp, hr⟩ := skillid_write_read w ⟨some n, none, some 1, none, none⟩ hroom
  refine ⟨rfl, w2, hw, hp, ?_⟩
  rw [hr]
  congr 2
  simp only [Option.getD_some, Option.getD_none, Bool.false_eq_true, if_false]
  congr 1
  omega

theorem skillid_plain_integer_witness :
    (Writeable.new 8).skillid (.number 12345)
      = (Writeable.new 8).skillid (.object ⟨some 12345, none, some 1, none, none⟩) ∧
    ∃ w2 : Writeable, (Writeable.new 8).skillid (.number 12345) = some w2 ∧
      w2.position = (Writeable.new 8).position + 8 ∧
      Readable.skillid ⟨w2.buffer, (Writeable.new 8).position⟩
        = some (⟨12345, 0, 1, false, 0⟩, ⟨w2.buffer, (Writeable.new 8).position + 8⟩) :=
  skillid_plain_integer (Writeable.new 8) 12345 (by decide) (by decide) (by decide)

section AngleRoundTrip

variable {K : Type} [LinearOrderedField K] [FloorRing K]

/-- Claim C9, amended: with the arithmetic of `Writeable.angle` done in doubles, for
every angle `r` with `-pi < r ≤ pi`, `Writeable.angle(r)` succeeds and
`Readable.angle` reads a value back from its 2 bytes. That value either differs from
`r` by no more than one quantization step `pi / 32768`, or it is `-pi`. It is within
one step whenever `r ≤ pi * (65535 / 65536 - 2^-44)`, and it is `-pi` whenever
`pi * (65535 / 65536 + 2^-44) ≤ r`: there the index rounds to 32768, which is stored
as the int16 -32768. Between the two bounds the rounding of the double product
decides. -/
theorem angle_roundtrip (n : Nat) (PI : K) (h3 : 3 < PI) (h4 : PI < 4) (w : Writeable)
    (hroom : w.position + 2 ≤ w.buffer.length) (r : K) (h0 : -PI < r) (h1 : r ≤ PI) :
    ∃ (w2 : Writeable) (v : K), Writeable.angle (Engine.binary64 n) PI w r = some w2 ∧
      Readable.angle PI ⟨w2.buffer, w.position⟩ = some (v, ⟨w2.buffer, w.position + 2⟩) ∧
      (|v - r| ≤ PI / 32768 ∨ v = -PI) ∧
      (r ≤ PI * (65535 / 65536 - 1 / 2 ^ 44) → |v - r| ≤ PI / 32768) ∧
      (PI * (65535 / 65536 + 1 / 2 ^ 44) ≤ r → v = -PI) := by
  obtain ⟨idx, hidx, hi0, hi1, hclose, hlow, htop⟩ := angle_index n PI h3 h4 w r h0 h1
  obtain ⟨w2, hw, -, hr⟩ := angle_write_read PI w idx hroom
  have hin : idx ≤ 32767 →
      |(((idx + 32768) % 65536 - 32768 : Int) : K) * MULT_INT16_TO_RAD PI - r| ≤ PI / 32768 := by
    intro h
    have e : (idx + 32768) % 65536 - 32768 = idx := by omega
    rw [e]
    have e2 : (idx : K) * MULT_INT16_TO_RAD PI = (idx : K) * PI / 32768 := by
      unfold MULT_INT16_TO_RAD
      ring
    rw [e2]
    exact hclose
  have hout : idx = 32768 →
      (((idx + 32768) % 65536 - 32768 : Int) : K) * MULT_INT16_TO_RAD PI = -PI := by
    intro h
    rw [h]
    unfold MULT_INT16_TO_RAD
    norm_num
    ring
  refine ⟨w2, _, hidx.trans hw, hr, ?_, ?_, ?_⟩
  · rcases (by omega : idx ≤ 32767 ∨ idx = 32768) with h | h
    · exact Or.inl (hin h)
    · exact Or.inr (hout h)
  · intro h
    exact hin (hlow h)
  · intro h
    exact hout (htop h)

/-- The amended C9 at `r = 1` with `pi` the double `Math.PI`. -/
theorem angle_roundtrip_witness :
    ∃ (w2 : Writeable) (v : ℚ),
      Writeable.angle (Engine.binary64 0) Math.PI (Writeable.new 2) 1 = some w2 ∧
      Readable.angle Math.PI ⟨w2.buffer, (Writeable.new 2).position⟩
        = some (v, ⟨w2.buffer, (Writeable.new 2).position + 2⟩) ∧
      (|v - 1| ≤ Math.PI / 32768 ∨ v = -Math.PI) ∧
      ((1 : ℚ) ≤ Math.PI * (65535 / 65536 - 1 / 2 ^ 44) → |v - 1| ≤ Math.PI / 32768) ∧
      (Math.PI * (65535 / 65536 + 1 / 2 ^ 44) ≤ 1 → v = -Math.PI) :=
  angle_roundtrip 0 Math.PI Math.PI_bounds.1 Math.PI_bounds.2 (Writeable.new 2) (by decide) 1
    (by linarith [Math.PI_bounds.1]) (by linarith [Math.PI_bounds.1])

/-- Claim C9 as stated fails at `r = Math.PI`, which is in `(-pi, pi]`: the bytes
written are `00 80`, the value read back is `-Math.PI`, and it differs from `r` by
twice `Math.PI`, which is more than one quantization step. -/
theorem angle_roundtrip_counterexample :
    -Math.PI < Math.PI ∧ Math.PI ≤ Math.PI ∧
    Writeable.angle (Engine.binary64 0) Math.PI (Writeable.new 2) Math.PI
      = some ⟨2, [0x00, 0x80], 2⟩ ∧
    Readable.angle Math.PI ⟨[0x00, 0x80], 0⟩ = some (-Math.PI, ⟨[0x00, 0x80], 2⟩) ∧
    ¬ (|(-Math.PI) - Math.PI| ≤ Math.PI / 32768) := by
  have hpos : (0 : ℚ) < Math.PI := by linarith [Math.PI_bounds.1]
  refine ⟨by linarith, le_refl _, ?_, angle_read_lowest Math.PI, ?_⟩
  · obtain ⟨idx, hidx, -, -, -, -, htop⟩ := angle_index 0 Math.PI Math.PI_bounds.1
      Math.PI_bounds.2 (Writeable.new 2) Math.PI (by linarith) (le_refl _)
    rw [hidx, htop (by nlinarith)]
    decide
  · intro h
    have e : |(-Math.PI) - Math.PI| = 2 * Math.PI := by
      rw [abs_of_neg (by linarith)]
      ring
    rw [e] at h
    linarith

end AngleRoundTrip

section AngleClaims

variable {K : Type} [LinearOrderedField K]

/-- Claim C10, amended: for every 2-byte input, `Readable.angle` (one int16
multiplied by `pi / 32768`) returns a value in the half-open range `[-pi, pi)`:
at least `-pi` and strictly less than `pi`. -/
theorem angle_range (PI : K) (hPI : 0 < PI) (pre post : List Byte) (b0 b1 : Byte) :
    ∃ v : K, Readable.angle PI ⟨pre ++ ([b0, b1] ++ post), pre.length⟩
        = some (v, ⟨pre ++ ([b0, b1] ++ post), pre.length + 2⟩) ∧
      -PI ≤ v ∧ v < PI := by
  obtain ⟨v, hv0, hv1, -, hr⟩ := Readable.angle_of_bytes PI (pre ++ ([b0, b1] ++ post))
    pre.length b0 b1 (getElem?_append_add pre _ 0 b0 (by simp))
    (getElem?_append_add pre _ 1 b1 (by simp))
  exact ⟨_, hr, angle_value_bounds PI hPI v hv0 hv1⟩

/-- The amended C10 at the bytes `FF 7F` with `pi` the real number π. -/
theorem angle_range_witness :
    ∃ v : ℝ, Readable.angle Real.pi ⟨[] ++ ([0xFF, 0x7F] ++ []), ([] : List Byte).length⟩
        = some (v, ⟨[] ++ ([0xFF, 0x7F] ++ []), ([] : List Byte).length + 2⟩) ∧
      -Real.pi ≤ v ∧ v < Real.pi :=
  angle_range Real.pi Real.pi_pos [] [] 0xFF 0x7F

/-- Claim C10 as stated fails at the bytes `00 80`: the int16 is -32768 and the
value returned is exactly `-pi`, which is not strictly greater than `-pi`. -/
theorem angle_range_counterexample :
    Readable.angle Real.pi ⟨[0x00, 0x80], 0⟩ = some (-Real.pi, ⟨[0x00, 0x80], 2⟩) ∧
      ¬ (-Real.pi < -Real.pi ∧ -Real.pi ≤ Real.pi) :=
  ⟨angle_read_lowest Real.pi, fun h => lt_irrefl _ h.1⟩

end AngleClaims

section AngleExact

variable {K : Type} [LinearOrderedField K] [FloorRing K]

/-- Claim C11: for every integer `k` with `-32768 ≤ k ≤ 32767`, the angle
`k * pi / 32768` is exactly reproducible: `Writeable.angle`, its arithmetic done in
doubles, writes the int16 `k`, and `Readable.angle` on those bytes returns
`k * pi / 32768` again. The same bytes are written for every `r` within a quarter
of a step of `k * pi / 32768`, the double nearest to it included. -/
theorem angle_exact_multiple (n : Nat) (PI : K) (h3 : 3 < PI) (h4 : PI < 4) (w : Writeable)
    (hroom : w.position + 2 ≤ w.buffer.length) (k : Int) (h0 : -32768 ≤ k)
    (h1 : k ≤ 32767) :
    ∃ w2 : Writeable,
      Writeable.angle (Engine.binary64 n) PI w ((k : K) * PI / 32768) = some w2 ∧
      Readable.int16 ⟨w2.buffer, w.position⟩ = some (k, ⟨w2.buffer, w.position + 2⟩) ∧
      Readable.angle PI ⟨w2.buffer, w.position⟩
        = some ((k : K) * PI / 32768, ⟨w2.buffer, w.position + 2⟩) ∧
      ∀ r : K, |r - (k : K) * PI / 32768| ≤ PI / 131072 →
        Writeable.angle (Engine.binary64 n) PI w r = some w2 := by
  have hPI : 0 < PI := by linarith
  have hk0 : (-32768 : K) ≤ (k : K) := by exact_mod_cast h0
  have hk1 : (k : K) ≤ 32767 := by exact_mod_cast h1
  have hnear : ∀ r : K, |r - (k : K) * PI / 32768| ≤ PI / 131072 →
      Writeable.angle (Engine.binary64 n) PI w r = w.int16 k := by
    intro r hr
    obtain ⟨hr0, hr1⟩ := abs_le.mp hr
    have hkb : -PI ≤ (k : K) * PI / 32768 ∧ (k : K) * PI / 32768 ≤ PI := by
      constructor
      · rw [le_div_iff₀ (by norm_num)]
        nlinarith
      · rw [div_le_iff₀ (by norm_num)]
        nlinarith
    have hs : PI / 131072 ≤ 1 := by
      rw [div_le_iff₀ (by norm_num)]
      linarith
    apply Writeable.angle_near n PI h3 h4 w r _ k
    · have e : r * 32768 / PI - (k : K) = (r - (k : K) * PI / 32768) * (32768 / PI) := by
        field_simp
        ring
      have hq : |(32768 : K) / PI| = 32768 / PI := abs_of_pos (by positivity)
      rw [e, abs_mul, hq]
      have h5 : |r - (k : K) * PI / 32768| * (32768 / PI) ≤ PI / 131072 * (32768 / PI) :=
        mul_le_mul_of_nonneg_right hr (by positivity)
      have e2 : PI / 131072 * (32768 / PI) = 1 / 4 := by
        field_simp
        ring
      have t1 : (1 : K) / 4 ≤ 1 / 2 - 1 / 2 ^ 29 := by norm_num
      linarith
    · rw [abs_le]
      constructor <;> linarith
  obtain ⟨w2, hw, -, hr, -⟩ := int16_write_read w k hroom
  have e16 : (k + 32768) % 65536 - 32768 = k := by omega
  rw [e16] at hr
  refine ⟨w2, ?_, hr, ?_, ?_⟩
  · rw [hnear _ (by rw [sub_self, abs_zero]; positivity)]
    exact hw
  · simp only [Readable.angle, hr, Option.bind_eq_bind, Option.some_bind, Option.pure_def,
      MULT_INT16_TO_RAD]
    congr 2
    ring
  · intro r hr2
    rw [hnear r hr2]
    exact hw

/-- Claim C11 at `k = -32768` with `pi` the double `Math.PI`. -/
theorem angle_exact_multiple_witness :
    ∃ w2 : Writeable,
      Writeable.angle (Engine.binary64 0) Math.PI (Writeable.new 2)
        (((-32768 : Int) : ℚ) * Math.PI / 32768) = some w2 ∧
      Readable.int16 ⟨w2.buffer, (Writeable.new 2).position⟩
        = some (-32768, ⟨w2.buffer, (Writeable.new 2).position + 2⟩) ∧
      Readable.angle Math.PI ⟨w2.buffer, (Writeable.new 2).position⟩
        = some (((-32768 : Int) : ℚ) * Math.PI / 32768,
            ⟨w2.buffer, (Writeable.new 2).position + 2⟩) ∧
      ∀ r : ℚ, |r - ((-32768 : Int) : ℚ) * Math.PI / 32768| ≤ Math.PI / 131072 →
        Writeable.angle (Engine.binary64 0) Math.PI (Writeable.new 2) r = some w2 :=
  angle_exact_multiple 0 Math.PI Math.PI_bounds.1 Math.PI_bounds.2 (Writeable.new 2)
    (by decide) (-32768) (by decide) (by decide)

end AngleExact

/-- Claim C12: for every byte `b` at the cursor, `Readable.bool` returns true
exactly when `b ≠ 0`, advances the position by 1, and calls the warning logger once
when `b` is neither 0 nor 1 and not at all when `b` is 0 or 1; the call returns
whatever the warning count is, and `b = 2` gives `true` with one warning. -/
theorem bool_decoding (pre post : List Byte) (b : Byte) :
    Readable.bool ⟨pre ++ b :: post, pre.length⟩
      = some (decide (b ≠ 0), (if b = 0 ∨ b = 1 then 0 else 1),
          ⟨pre ++ b :: post, pre.length + 1⟩) ∧
    Readable.bool ⟨[2], 0⟩ = some (true, 1, ⟨[2], 1⟩) := by
  refine ⟨?_, by decide⟩
  have h := Readable.byte_of_bytes (pre ++ b :: post) pre.length b
    (getElem?_append_add pre _ 0 b (by simp))
  simp only [Readable.bool, h, Option.bind_eq_bind, Option.some_bind, Option.pure_def]
  have hb := b.isLt
  have e1 : ((b.val : Int) ≠ 0) ↔ b ≠ 0 := by
    constructor
    · intro h1 h2
      apply h1
      rw [h2]
      rfl
    · intro h1 h2
      apply h1
      apply Fin.ext
      have : b.val = 0 := by exact_mod_cast h2
      rw [this]
      rfl
  have e2 : (1 < (b.val : Int)) ↔ ¬ (b = 0 ∨ b = 1) := by
    constructor
    · intro h1 h2
      rcases h2 with h2 | h2 <;> rw [h2] at h1 <;> simp at h1
    · intro h1
      by_contra h2
      apply h1
      have h3 : b.val = 0 ∨ b.val = 1 := by omega
      rcases h3 with h3 | h3
      · left
        apply Fin.ext
        rw [h3]
        rfl
      · right
        apply Fin.ext
        rw [h3]
        rfl
  congr 2
  · simp only [e1]
  · congr 1
    by_cases h1 : b = 0 ∨ b = 1
    · rw [if_pos h1, if_neg (fun h2 => (e2.mp h2) h1)]
    · rw [if_neg h1, if_pos (e2.mpr h1)]

/-- Claim C13, amended: for every buffer, position `p` and count `n`,
`Readable.bytes(n)` advances the position by `n` and always returns; when `p + n`
is within the buffer the result is exactly the `n` bytes `buffer[p .. p+n)`, and when
`p + n` exceeds the buffer length the result is the bytes from `p` to the end of the
buffer, which is shorter than `n` for `n > 0`, and no error is raised. -/
theorem bytes_clamped (r : Readable) (n : Nat) :
    (r.bytes n).2.position = r.position + n ∧ (r.bytes n).2.buffer = r.buffer ∧
    (r.position + n ≤ r.buffer.length →
      (r.bytes n).1.length = n ∧ ∀ i, i < n → (r.bytes n).1[i]? = r.buffer[r.position + i]?) ∧
    (r.buffer.length < r.position + n →
      (r.bytes n).1 = r.buffer.drop r.position ∧ (0 < n → (r.bytes n).1.length < n)) := by
  refine ⟨rfl, rfl, ?_, ?_⟩
  · intro h
    constructor
    · simp only [Readable.bytes, Buffer.slice, List.length_drop, List.length_take]
      omega
    · intro i hi
      simp only [Readable.bytes, Buffer.slice, List.getElem?_drop]
      rw [List.getElem?_take_of_lt (by omega)]
  · intro h
    have e : (r.bytes n).1 = r.buffer.drop r.position := by
      simp only [Readable.bytes, Buffer.slice]
      rw [List.take_of_length_le (by omega)]
    refine ⟨e, ?_⟩
    intro hn
    rw [e, List.length_drop]
    omega

/-- The amended C13 inside the buffer: 2 bytes at position 1 of `01 02 03`. -/
theorem bytes_clamped_witness :
    ((Readable.mk [1, 2, 3] 1).bytes 2).1.length = 2 ∧
      ∀ i, i < 2 → ((Readable.mk [1, 2, 3] 1).bytes 2).1[i]?
        = (Readable.mk [1, 2, 3] 1).buffer[(Readable.mk [1, 2, 3] 1).position + i]? :=
  (bytes_clamped (Readable.mk [1, 2, 3] 1) 2).2.2.1 (by decide)

/-- Claim C13 as stated fails for 5 bytes at position 1 of `01 02 03`: the call
returns the 2 bytes `02 03` instead of raising an error. -/
theorem bytes_clamped_counterexample :
    (Readable.mk [1, 2, 3] 1).buffer.length < (Readable.mk [1, 2, 3] 1).position + 5 ∧
    (Readable.mk [1, 2, 3] 1).bytes 5 = ([2, 3], ⟨[1, 2, 3], 6⟩) ∧
    ((Readable.mk [1, 2, 3] 1).bytes 5).1.length ≠ 5 := by
  decide

section FieldWidths

variable {K : Type} [LinearOrderedField K] [FloorRing K]

/-- Claim C14: every fixed-width operation advances its cursor by exactly its
tabulated width, and the `Writeable` operation of the same name advances by the same
width: bool 1, byte 1, uint16/int16 2, uint32/int32 4, uint64/int64 8, float 4,
double 8, vec3 12, vec3fa 12, angle 2, skillid 8. A call that returns has advanced by
that width, and with the bytes inside the buffer the call returns. `seek(n)` sets the
position to `n` and `skip(n)` adds `n`. So writing any sequence of such fields from
position 0 and reading the same sequence from position 0 leaves both cursors at the
same position after every field. -/
theorem field_widths (c : FloatCodec K) (e : Engine K) (PI : K) :
    (∀ (b : Bool) (n : Int) (x : K) (v : Vec3 K) (arg : SkillArg),
      (Field.bool b : Field K).width = 1 ∧ (Field.byte n : Field K).width = 1 ∧
      (Field.uint16 n : Field K).width = 2 ∧ (Field.int16 n : Field K).width = 2 ∧
      (Field.uint32 n : Field K).width = 4 ∧ (Field.int32 n : Field K).width = 4 ∧
      (Field.uint64 n : Field K).width = 8 ∧ (Field.int64 n : Field K).width = 8 ∧
      (Field.float x).width = 4 ∧ (Field.double x).width = 8 ∧
      (Field.vec3 v).width = 12 ∧ (Field.vec3fa v).width = 12 ∧
      (Field.angle x).width = 2 ∧ (Field.skillid arg : Field K).width = 8) ∧
    (∀ (w w1 : Writeable) (f : Field K), f.fixedWidth = true →
      w.write c e PI f = some w1 → w1.position = w.position + f.width) ∧
    (∀ (w : Writeable) (f : Field K), f.fixedWidth = true →
      w.position + f.width ≤ w.buffer.length →
      ∃ w1 : Writeable, w.write c e PI f = some w1 ∧ w1.position = w.position + f.width) ∧
    (∀ (r r1 : Readable) (f : Field K), f.fixedWidth = true →
      r.read c e PI f = some r1 → r1.position = r.position + f.width) ∧
    (∀ (r : Readable) (f : Field K), f.fixedWidth = true →
      r.position + f.width ≤ r.buffer.length →
      r.read c e PI f = some ⟨r.buffer, r.position + f.width⟩) ∧
    (∀ (r : Readable) (w : Writeable) (n : Nat),
      (r.seek n).2.position = n ∧ (r.skip n).2.position = r.position + n ∧
      (w.seek n).position = n ∧ (w.skip n).position = w.position + n) ∧
    (∀ (length : Nat) (fs : List (Field K)), (∀ f ∈ fs, f.fixedWidth = true) →
      Field.totalWidth fs ≤ length →
      ∃ wEnd : Writeable, (Writeable.new length).writeAll c e PI fs = some wEnd ∧
        ∀ k : Nat, k ≤ fs.length →
          ∃ (wk : Writeable) (rk : Readable),
            (Writeable.new length).writeAll c e PI (fs.take k) = some wk ∧
            Readable.readAll c e PI ⟨wEnd.buffer, 0⟩ (fs.take k) = some rk ∧
            rk.position = wk.position ∧ wk.position = Field.totalWidth (fs.take k)) := by
  refine ⟨?_, ?_, ?_, ?_, ?_, ?_, ?_⟩
  · intro b n x v arg
    exact ⟨rfl, rfl, rfl, rfl, rfl, rfl, rfl, rfl, rfl, rfl, rfl, rfl, rfl, rfl⟩
  · intro w w1 f hf h
    exact Writeable.write_position c e PI w w1 f hf h
  · intro w f _ hroom
    obtain ⟨w1, h, hp, -⟩ := Writeable.write_wrote c e PI w f hroom
    exact ⟨w1, h, hp⟩
  · intro r r1 f hf h
    by_cases hroom : r.position + f.width ≤ r.buffer.length
    · rw [(Readable.read_cursor c e PI r f hf).1 hroom] at h
      cases h
      rfl
    · rw [(Readable.read_cursor c e PI r f hf).2 (by omega)] at h
      cases h
  · intro r f hf hroom
    exact (Readable.read_cursor c e PI r f hf).1 hroom
  · intro r w n
    exact ⟨rfl, rfl, rfl, rfl⟩
  · intro length fs hfs hroom
    have hlen : (Writeable.new length).buffer.length = length := by
      simp [Writeable.new, Buffer.alloc]
    have hpos : (Writeable.new length).position = 0 := rfl
    obtain ⟨wEnd, hw, -, hl, -⟩ := Writeable.writeAll_wrote c e PI fs (Writeable.new length)
      (by rw [hlen, hpos]; omega)
    refine ⟨wEnd, hw, ?_⟩
    intro k _
    have hk := Field.totalWidth_take_le fs k
    obtain ⟨wk, hwk, hpk, -⟩ := Writeable.writeAll_wrote c e PI (fs.take k)
      (Writeable.new length) (by rw [hlen, hpos]; omega)
    have hr := Readable.readAll_cursor c e PI (fs.take k)
      (fun f hf => hfs f (List.mem_of_mem_take hf)) ⟨wEnd.buffer, 0⟩
      (by simp only; rw [hl, hlen]; omega)
    refine ⟨wk, _, hwk, hr, ?_, ?_⟩
    · simp only [hpk, hpos]
    · rw [hpk, hpos]
      omega

/-- Claim C14 for one field of each fixed-width kind, 76 bytes in all. -/
theorem field_widths_witness :
    ∃ wEnd : Writeable,
      (Writeable.new 76).writeAll FloatCodec.integerPart (Engine.binary64 65535) Math.PI
        [.bool true, .byte 7, .uint16 513, .int16 (-2), .uint32 9, .int32 (-9), .uint64 5,
         .int64 (-5), .float 3, .double 4, .vec3 ⟨1, 2, 3⟩, .vec3fa ⟨1, 2, 3⟩, .angle 1,
         .skillid (.number 12345)] = some wEnd ∧
      ∀ k : Nat, k ≤ ([.bool true, .byte 7, .uint16 513, .int16 (-2), .uint32 9, .int32 (-9),
          .uint64 5, .int64 (-5), .float 3, .double 4, .vec3 ⟨1, 2, 3⟩, .vec3fa ⟨1, 2, 3⟩,
          .angle 1, .skillid (.number 12345)] : List (Field ℚ)).length →
        ∃ (wk : Writeable) (rk : Readable),
          (Writeable.new 76).writeAll FloatCodec.integerPart (Engine.binary64 65535) Math.PI
            (([.bool true, .byte 7, .uint16 513, .int16 (-2), .uint32 9, .int32 (-9),
              .uint64 5, .int64 (-5), .float 3, .double 4, .vec3 ⟨1, 2, 3⟩,
              .vec3fa ⟨1, 2, 3⟩, .angle 1, .skillid (.number 12345)] : List (Field ℚ)).take k)
            = some wk ∧
          Readable.readAll FloatCodec.integerPart (Engine.binary64 65535) Math.PI ⟨wEnd.buffer, 0⟩
            (([.bool true, .byte 7, .uint16 513, .int16 (-2), .uint32 9, .int32 (-9),
              .uint64 5, .int64 (-5), .float 3, .double 4, .vec3 ⟨1, 2, 3⟩,
              .vec3fa ⟨1, 2, 3⟩, .angle 1, .skillid (.number 12345)] : List (Field ℚ)).take k)
            = some rk ∧
          rk.position = wk.position ∧
          wk.position = Field.totalWidth
            (([.bool true, .byte 7, .uint16 513, .int16 (-2), .uint32 9, .int32 (-9),
              .uint64 5, .int64 (-5), .float 3, .double 4, .vec3 ⟨1, 2, 3⟩,
              .vec3fa ⟨1, 2, 3⟩, .angle 1, .skillid (.number 12345)] : List (Field ℚ)).take k) :=
  (field_widths FloatCodec.integerPart (Engine.binary64 65535) Math.PI).2.2.2.2.2.2 76
    [.bool true, .byte 7, .uint16 513, .int16 (-2), .uint32 9, .int32 (-9), .uint64 5,
     .int64 (-5), .float 3, .double 4, .vec3 ⟨1, 2, 3⟩, .vec3fa ⟨1, 2, 3⟩, .angle 1,
     .skillid (.number 12345)]
    (by simp [Field.fixedWidth]) (by simp [Field.totalWidth, Field.width])

end FieldWidths

/-- Claim C15, amended: for every 8-byte input with raw value `raw`, decoding it
with `Readable.skillid` and writing the resulting SkillID with `Writeable.skillid`
writes the value `raw mod 2^34`; the same 8 bytes are reproduced when `raw < 2^34`,
that is when bits 34 to 63 are zero. -/
theorem skillid_decode_encode (buf : Buffer) (p : Nat) (hroom : p + 8 ≤ buf.length) :
    ∃ (raw : Int) (s : SkillID) (w2 : Writeable),
      Readable.uint64 ⟨buf, p⟩ = some (raw, ⟨buf, p + 8⟩) ∧
      Readable.skillid ⟨buf, p⟩ = some (s, ⟨buf, p + 8⟩) ∧
      Writeable.skillid ⟨buf.length, buf, p⟩
        (.object ⟨some s.id, some s.huntingZoneId, some s.type, some s.npc, some s.reserved⟩)
        = some w2 ∧
      Readable.uint64 ⟨w2.buffer, p⟩ = some (raw % 2 ^ 34, ⟨w2.buffer, p + 8⟩) ∧
      (raw < 2 ^ 34 → w2.buffer = buf) := by
  obtain ⟨raw, x0, x1, x2, x3, x4, x5, x6, x7, h0, h1, h2, h3, h4, h5, h6, h7, hraw, hr0,
    hr1, hu⟩ := Readable.uint64_of_room buf p hroom
  have hs := Readable.skillid_of_uint64 ⟨buf, p⟩ ⟨buf, p + 8⟩ raw hr0 hu
  have hpack : ∀ w : Writeable, w.skillid (.object
      ⟨some (if raw / 4294967296 % 2 = 1 then raw % 65536 else raw % 268435456),
       some (if raw / 4294967296 % 2 = 1 then raw / 65536 % 4096 else 0),
       some (raw / 268435456 % 16), some (decide (raw / 4294967296 % 2 = 1)),
       some (raw / 8589934592)⟩) = w.uint64 (raw % 2 ^ 34) := by
    intro w
    rw [Writeable.skillid_eq_uint64]
    congr 1
    simp only [Option.getD_some]
    by_cases hb : raw / 4294967296 % 2 = 1
    · simp only [hb, decide_True, if_true]
      omega
    · simp only [hb, decide_False, Bool.false_eq_true, if_false]
      omega
  obtain ⟨w2, hw, -, -, hlen, hframe, c0, c1, c2, c3, c4, c5, c6, c7⟩ :=
    Writeable.uint64_spec ⟨buf.length, buf, p⟩ (raw % 2 ^ 34) hroom
  have hrd := Readable.uint64_of_bytes w2.buffer p _ _ _ _ _ _ _ _ c0 c1 c2 c3 c4 c5 c6 c7
  refine ⟨raw, _, w2, hu, hs, ?_, ?_, ?_⟩
  · rw [hpack]
    exact hw
  · rw [hrd]
    congr 2
    simp only [toUint8_val]
    omega
  · intro hlt
    have e : raw % 2 ^ 34 = raw := by omega
    rw [e] at c0 c1 c2 c3 c4 c5 c6 c7
    apply List.ext_getElem?
    intro i
    by_cases hi : i < p ∨ p + 8 ≤ i
    · exact hframe i hi
    · have hcases : i = p ∨ i = p + 1 ∨ i = p + 2 ∨ i = p + 3 ∨ i = p + 4 ∨ i = p + 5 ∨
          i = p + 6 ∨ i = p + 7 := by omega
      rcases hcases with h | h | h | h | h | h | h | h <;> subst h
      · rw [c0, h0]; congr 1; apply toUint8_of_val; omega
      · rw [c1, h1]; congr 1; apply toUint8_of_val; omega
      · rw [c2, h2]; congr 1; apply toUint8_of_val; omega
      · rw [c3, h3]; congr 1; apply toUint8_of_val; omega
      · rw [c4, h4]; congr 1; apply toUint8_of_val; omega
      · rw [c5, h5]; congr 1; apply toUint8_of_val; omega
      · rw [c6, h6]; congr 1; apply toUint8_of_val; omega
      · rw [c7, h7]; congr 1; apply toUint8_of_val; omega

/-- The amended C15 at the bytes `C8 00 E7 53 03 00 00 00`. -/
theorem skillid_decode_encode_witness :
    ∃ (raw : Int) (s : SkillID) (w2 : Writeable),
      Readable.uint64 ⟨[200, 0, 231, 83, 3, 0, 0, 0], 0⟩
        = some (raw, ⟨[200, 0, 231, 83, 3, 0, 0, 0], 0 + 8⟩) ∧
      Readable.skillid ⟨[200, 0, 231, 83, 3, 0, 0, 0], 0⟩
        = some (s, ⟨[200, 0, 231, 83, 3, 0, 0, 0], 0 + 8⟩) ∧
      Writeable.skillid
        ⟨([200, 0, 231, 83, 3, 0, 0, 0] : Buffer).length, [200, 0, 231, 83, 3, 0, 0, 0], 0⟩
        (.object ⟨some s.id, some s.huntingZoneId, some s.type, some s.npc, some s.reserved⟩)
        = some w2 ∧
      Readable.uint64 ⟨w2.buffer, 0⟩ = some (raw % 2 ^ 34, ⟨w2.buffer, 0 + 8⟩) ∧
      (raw < 2 ^ 34 → w2.buffer = [200, 0, 231, 83, 3, 0, 0, 0]) :=
  skillid_decode_encode [200, 0, 231, 83, 3, 0, 0, 0] 0 (by decide)

/-- Claim C15 as stated fails at the bytes `00 00 00 00 04 00 00 00`: they decode to
reserved 2, of which the writer keeps bit 0 only, and eight zero bytes are written. -/
theorem skillid_decode_encode_counterexample :
    Readable.skillid ⟨[0, 0, 0, 0, 4, 0, 0, 0], 0⟩
      = some (⟨0, 0, 0, false, 2⟩, ⟨[0, 0, 0, 0, 4, 0, 0, 0], 8⟩) ∧
    Writeable.skillid ⟨8, [0, 0, 0, 0, 4, 0, 0, 0], 0⟩
      (.object ⟨some 0, some 0, some 0, some false, some 2⟩)
      = some ⟨8, [0, 0, 0, 0, 0, 0, 0, 0], 8⟩ ∧
    ([0, 0, 0, 0, 0, 0, 0, 0] : Buffer) ≠ [0, 0, 0, 0, 4, 0, 0, 0] := by
  decide

/-- Claim C16, amended: encoding a SkillID with npc true and id `0x1FFFF` raises
no error and truncates the id to `0x1FFFF & 0xFFFF`: the id written, and read back by
`Readable.skillid`, equals `0xFFFF`. -/
theorem skillid_id_mask (w : Writeable) (huntingZoneId type reserved : Int)
    (hroom : w.position + 8 ≤ w.buffer.length) :
    ∃ (w2 : Writeable) (s : SkillID),
      w.skillid (.object ⟨some 0x1FFFF, some huntingZoneId, some type, some true,
        some reserved⟩) = some w2 ∧
      Readable.skillid ⟨w2.buffer, w.position⟩ = some (s, ⟨w2.buffer, w.position + 8⟩) ∧
      s.id = 0xFFFF ∧ s.id = 0x1FFFF % 0x10000 := by
  obtain ⟨w2, hw, -, hr⟩ := skillid_write_read w
    ⟨some 0x1FFFF, some huntingZoneId, some type, some true, some reserved⟩ hroom
  exact ⟨w2, _, hw, hr, rfl, rfl⟩

/-- The amended C16 with huntingZoneId 999, type 5 and reserved 1. -/
theorem skillid_id_mask_witness :
    ∃ (w2 : Writeable) (s : SkillID),
      (Writeable.new 8).skillid (.object ⟨some 0x1FFFF, some 999, some 5, some true,
        some 1⟩) = some w2 ∧
      Readable.skillid ⟨w2.buffer, (Writeable.new 8).position⟩
        = some (s, ⟨w2.buffer, (Writeable.new 8).position + 8⟩) ∧
      s.id = 0xFFFF ∧ s.id = 0x1FFFF % 0x10000 :=
  skillid_id_mask (Writeable.new 8) 999 5 1 (by decide)

/-- Claim C16 as stated fails: the id written for `0x1FFFF` is stored as `FF FF`
and read back as `0xFFFF`, which is not `0x1FFF`. -/
theorem skillid_id_mask_counterexample :
    (Writeable.new 8).skillid (.object ⟨some 0x1FFFF, some 0, some 0, some true, some 0⟩)
      = some ⟨8, [0xFF, 0xFF, 0, 0, 1, 0, 0, 0], 8⟩ ∧
    Readable.skillid ⟨[0xFF, 0xFF, 0, 0, 1, 0, 0, 0], 0⟩
      = some (⟨0xFFFF, 0, 0, true, 0⟩, ⟨[0xFF, 0xFF, 0, 0, 1, 0, 0, 0], 8⟩) ∧
    (0xFFFF : Int) ≠ 0x1FFF := by
  decide

section Vec3faArgument

variable {K : Type} [LinearOrderedField K] [FloorRing K]

/-- Claim C17, amended: for every vector component `c`, `Writeable.vec3fa` reduces
the double product `P = c * MULT_RAD_TO_INT16` by the sign-keeping remainder `%`
first and rounds afterwards. When `P` is finite the number passed to the 32-bit float
writer is the integer nearest to `P - 65536 * t`, a tie going up, where `t` is the
quotient `P / 65536` truncated towards zero; when `P` is not finite, NaN is passed.
For `|c| ≤ 8` and `k` the integer nearest to `c * 32768 / pi`, that number being at
least `2^-29` away from a tie, the number passed is `k` for `-65535 ≤ k ≤ 65535`,
`k - 65536` for `k ≥ 65537`, `k + 65536` for `k ≤ -65537`, either 0 or 65536 for
`k = 65536`, and either 0 or -65536 for `k = -65536`. -/
theorem vec3fa_argument (n : Nat) (PI : K) (h3 : 3 < PI) (h4 : PI < 4) (c : K) :
    (∀ P : K, Number.mul (Engine.binary64 n) (some c)
        (MULT_RAD_TO_INT16 (Engine.binary64 n) PI) = some P →
      ∃ a t : Int, Writeable.vec3faArg (Engine.binary64 n) PI c = some a ∧
        (a : K) ≤ P - 65536 * (t : K) + 1 / 2 ∧ P - 65536 * (t : K) - 1 / 2 < (a : K) ∧
        (0 ≤ P → 0 ≤ t ∧ 65536 * (t : K) ≤ P ∧ P < 65536 * (t : K) + 65536) ∧
        (P < 0 → t ≤ 0 ∧ 65536 * (t : K) - 65536 < P ∧ P ≤ 65536 * (t : K))) ∧
    (Number.mul (Engine.binary64 n) (some c) (MULT_RAD_TO_INT16 (Engine.binary64 n) PI)
        = none → Writeable.vec3faArg (Engine.binary64 n) PI c = none) ∧
    (|c| ≤ 8 → ∀ k : Int, |c * 32768 / PI - (k : K)| ≤ 1 / 2 - 1 / 2 ^ 29 →
      ∃ a : Int, Writeable.vec3faArg (Engine.binary64 n) PI c = some a ∧
        (0 ≤ k → k ≤ 65535 → a = k) ∧ (65537 ≤ k → a = k - 65536) ∧
        (-65535 ≤ k → k < 0 → a = k) ∧ (k ≤ -65537 → a = k + 65536) ∧
        (k = 65536 → a = 0 ∨ a = 65536) ∧ (k = -65536 → a = 0 ∨ a = -65536)) := by
  refine ⟨?_, ?_, ?_⟩
  · intro P hP
    obtain ⟨a, t, ha, -, h1, h2, hpos, hneg⟩ := Writeable.vec3faArg_of_product n PI c P hP
    exact ⟨a, t, ha, h1, h2, hpos, hneg⟩
  · intro h
    unfold Writeable.vec3faArg
    rw [h]
    rfl
  · intro hc k hk
    exact Writeable.vec3faArg_near n PI h3 h4 c hc k hk

/-- The amended C17 at `c = 1` with `pi` the double `Math.PI`. -/
theorem vec3fa_argument_witness :
    (∀ P : ℚ, Number.mul (Engine.binary64 0) (some 1)
        (MULT_RAD_TO_INT16 (Engine.binary64 0) Math.PI) = some P →
      ∃ a t : Int, Writeable.vec3faArg (Engine.binary64 0) Math.PI 1 = some a ∧
        (a : ℚ) ≤ P - 65536 * (t : ℚ) + 1 / 2 ∧ P - 65536 * (t : ℚ) - 1 / 2 < (a : ℚ) ∧
        (0 ≤ P → 0 ≤ t ∧ 65536 * (t : ℚ) ≤ P ∧ P < 65536 * (t : ℚ) + 65536) ∧
        (P < 0 → t ≤ 0 ∧ 65536 * (t : ℚ) - 65536 < P ∧ P ≤ 65536 * (t : ℚ))) ∧
    (Number.mul (Engine.binary64 0) (some (1 : ℚ))
        (MULT_RAD_TO_INT16 (Engine.binary64 0) Math.PI)
        = none → Writeable.vec3faArg (Engine.binary64 0) Math.PI 1 = none) ∧
    (|(1 : ℚ)| ≤ 8 → ∀ k : Int, |(1 : ℚ) * 32768 / Math.PI - (k : ℚ)| ≤ 1 / 2 - 1 / 2 ^ 29 →
      ∃ a : Int, Writeable.vec3faArg (Engine.binary64 0) Math.PI 1 = some a ∧
        (0 ≤ k → k ≤ 65535 → a = k) ∧ (65537 ≤ k → a = k - 65536) ∧
        (-65535 ≤ k → k < 0 → a = k) ∧ (k ≤ -65537 → a = k + 65536) ∧
        (k = 65536 → a = 0 ∨ a = 65536) ∧ (k = -65536 → a = 0 ∨ a = -65536)) :=
  vec3fa_argument 0 Math.PI Math.PI_bounds.1 Math.PI_bounds.2 1

/-- Claim C17 as stated fails at the component `c = 411773 / 65536`, about 6.28316,
where `c * 32768 / pi` is about 65535.71: the remainder of the double product by
65536 is the product itself, it rounds to 65536, and 65536 is passed to the float
writer; rounding first gives 65536, which is 0 modulo 65536. -/
theorem vec3fa_argument_counterexample :
    Writeable.vec3faArg (Engine.binary64 0) Math.PI (411773 / 65536) = some 65536 ∧
    Math.round ((411773 / 65536 : ℚ) * (32768 / Math.PI)) = 65536 ∧
    Math.round ((411773 / 65536 : ℚ) * (32768 / Math.PI)) % 65536 = 0 := by
  have e : Math.PI = 884279719003555 / 281474976710656 := rfl
  have hround : Math.round ((411773 / 65536 : ℚ) * (32768 / Math.PI)) = 65536 := by
    unfold Math.round
    rw [e, Int.floor_eq_iff]
    constructor <;> norm_num
  refine ⟨?_, hround, ?_⟩
  · obtain ⟨P, hP, hPc⟩ := angle_product_close 0 Math.PI Math.PI_bounds.1 Math.PI_bounds.2
      (411773 / 65536 : ℚ) (by rw [abs_le]; constructor <;> norm_num)
    obtain ⟨hP0, hP1⟩ := abs_le.mp hPc
    have hx0 : (65535 + 6 / 10 : ℚ) ≤ 411773 / 65536 * 32768 / Math.PI := by
      rw [e]
      norm_num
    have hx1 : (411773 / 65536 * 32768 / Math.PI : ℚ) ≤ 65535 + 8 / 10 := by
      rw [e]
      norm_num
    have t1 : (1 : ℚ) / 2 ^ 30 ≤ 1 / 10 := by norm_num
    obtain ⟨a, t, ha, -, h1, h2, hpos, -⟩ :=
      Writeable.vec3faArg_of_product 0 Math.PI (411773 / 65536 : ℚ) P hP
    obtain ⟨ht0, hlo, hhi⟩ := hpos (by linarith)
    have ht : t = 0 := by
      have : (t : ℚ) < ((1 : Int) : ℚ) := by
        push_cast
        linarith
      have := Int.cast_lt.mp this
      omega
    rw [ht] at h1 h2
    have ha0 : ((65535 : Int) : ℚ) < (a : ℚ) := by
      push_cast at h2 ⊢
      linarith
    have ha1 : (a : ℚ) < ((65537 : Int) : ℚ) := by
      push_cast at h1 ⊢
      linarith
    have := Int.cast_lt.mp ha0
    have := Int.cast_lt.mp ha1
    rw [ha]
    congr 1
    omega
  · rw [hround]
    rfl

end Vec3faArgument

section Normalise

variable {K : Type} [LinearOrderedField K] [FloorRing K]

/-- Claim C18, amended: for every integer `n`, negative or wider than the field,
`Writeable.uint16(n)` writes `n mod 2^16`, `Writeable.uint32(n)` writes `n mod 2^32`
and `Writeable.uint64(n)` writes `n mod 2^64`, as the unsigned reader of the same
width reads them back. For every `r`, `Writeable.angle(r)` writes the 16-bit pattern
of `idx mod 2^16`, where `idx` is the integer nearest to the double product
`r * MULT_RAD_TO_INT16`, a tie going up, and `idx` is 0 when that product is not
finite; for `|r| ≤ 8`, `idx` is the integer nearest to `r * 32768 / pi` whenever
that number is at least `2^-29` away from a tie. None of the writers raises an
error. -/
theorem integer_writers_normalise (n : Nat) (PI : K) (h3 : 3 < PI) (h4 : PI < 4)
    (w : Writeable) :
    (∀ v : Int, w.position + 2 ≤ w.buffer.length →
      ∃ w1 : Writeable, w.uint16 v = some w1 ∧
        Readable.uint16 ⟨w1.buffer, w.position⟩
          = some (v % 2 ^ 16, ⟨w1.buffer, w.position + 2⟩)) ∧
    (∀ v : Int, w.position + 4 ≤ w.buffer.length →
      ∃ w1 : Writeable, w.uint32 v = some w1 ∧
        Readable.uint32 ⟨w1.buffer, w.position⟩
          = some (v % 2 ^ 32, ⟨w1.buffer, w.position + 4⟩)) ∧
    (∀ v : Int, w.position + 8 ≤ w.buffer.length →
      ∃ w1 : Writeable, w.uint64 v = some w1 ∧
        Readable.uint64 ⟨w1.buffer, w.position⟩
          = some (v % 2 ^ 64, ⟨w1.buffer, w.position + 8⟩)) ∧
    (∀ r : K, w.position + 2 ≤ w.buffer.length →
      ∃ (w1 : Writeable) (idx : Int),
        Writeable.angle (Engine.binary64 n) PI w r = some w1 ∧
        Readable.uint16 ⟨w1.buffer, w.position⟩
          = some (idx % 2 ^ 16, ⟨w1.buffer, w.position + 2⟩) ∧
        (∀ P : K, Number.mul (Engine.binary64 n) (some r)
            (MULT_RAD_TO_INT16 (Engine.binary64 n) PI) = some P →
          (idx : K) ≤ P + 1 / 2 ∧ P - 1 / 2 < (idx : K)) ∧
        (Number.mul (Engine.binary64 n) (some r) (MULT_RAD_TO_INT16 (Engine.binary64 n) PI)
            = none → idx = 0) ∧
        (|r| ≤ 8 → ∀ k : Int, |r * 32768 / PI - (k : K)| ≤ 1 / 2 - 1 / 2 ^ 29 → idx = k)) := by
  refine ⟨?_, ?_, ?_, ?_⟩
  · intro v hroom
    obtain ⟨w1, hw, -, -, hr⟩ := int16_write_read w v hroom
    exact ⟨w1, hw, hr⟩
  · intro v hroom
    obtain ⟨w1, hw, -, -, -, -, b0, b1, b2, b3⟩ := Writeable.uint32_spec w v hroom
    refine ⟨w1, hw, ?_⟩
    rw [Readable.uint32_of_bytes _ _ _ _ _ _ b0 b1 b2 b3]
    congr 2
    simp only [toUint8_val]
    omega
  · intro v hroom
    obtain ⟨w1, hw, -, -, -, -, b0, b1, b2, b3, b4, b5, b6, b7⟩ :=
      Writeable.uint64_spec w v hroom
    refine ⟨w1, hw, ?_⟩
    rw [Readable.uint64_of_bytes _ _ _ _ _ _ _ _ _ _ b0 b1 b2 b3 b4 b5 b6 b7]
    congr 2
    simp only [toUint8_val]
    omega
  · intro r hroom
    exact angle_normalise n PI h3 h4 w r hroom

/-- The amended C18 with `pi` the double `Math.PI`, at `-1`, `2^32 + 5`, `-1` and
the angle 9. -/
theorem integer_writers_normalise_witness :
    (∃ w1 : Writeable, (Writeable.new 8).uint16 (-1) = some w1 ∧
      Readable.uint16 ⟨w1.buffer, (Writeable.new 8).position⟩
        = some ((-1) % 2 ^ 16, ⟨w1.buffer, (Writeable.new 8).position + 2⟩)) ∧
    (∃ w1 : Writeable, (Writeable.new 8).uint32 4294967301 = some w1 ∧
      Readable.uint32 ⟨w1.buffer, (Writeable.new 8).position⟩
        = some (4294967301 % 2 ^ 32, ⟨w1.buffer, (Writeable.new 8).position + 4⟩)) ∧
    (∃ w1 : Writeable, (Writeable.new 8).uint64 (-1) = some w1 ∧
      Readable.uint64 ⟨w1.buffer, (Writeable.new 8).position⟩
        = some ((-1) % 2 ^ 64, ⟨w1.buffer, (Writeable.new 8).position + 8⟩)) ∧
    (∃ (w1 : Writeable) (idx : Int),
      Writeable.angle (Engine.binary64 0) Math.PI (Writeable.new 8) 9 = some w1 ∧
      Readable.uint16 ⟨w1.buffer, (Writeable.new 8).position⟩
        = some (idx % 2 ^ 16, ⟨w1.buffer, (Writeable.new 8).position + 2⟩) ∧
      (∀ P : ℚ, Number.mul (Engine.binary64 0) (some 9)
          (MULT_RAD_TO_INT16 (Engine.binary64 0) Math.PI) = some P →
        (idx : ℚ) ≤ P + 1 / 2 ∧ P - 1 / 2 < (idx : ℚ)) ∧
      (Number.mul (Engine.binary64 0) (some (9 : ℚ))
          (MULT_RAD_TO_INT16 (Engine.binary64 0) Math.PI) = none → idx = 0) ∧
      (|(9 : ℚ)| ≤ 8 → ∀ k : Int, |(9 : ℚ) * 32768 / Math.PI - (k : ℚ)| ≤ 1 / 2 - 1 / 2 ^ 29 →
        idx = k)) :=
  ⟨(integer_writers_normalise 0 Math.PI Math.PI_bounds.1 Math.PI_bounds.2
      (Writeable.new 8)).1 (-1) (by decide),
   (integer_writers_normalise 0 Math.PI Math.PI_bounds.1 Math.PI_bounds.2
      (Writeable.new 8)).2.1 4294967301 (by decide),
   (integer_writers_normalise 0 Math.PI Math.PI_bounds.1 Math.PI_bounds.2
      (Writeable.new 8)).2.2.1 (-1) (by decide),
   (integer_writers_normalise 0 Math.PI Math.PI_bounds.1 Math.PI_bounds.2
      (Writeable.new 8)).2.2.2 9 (by decide)⟩

/-- Claim C18 as stated fails for the angle writer at `r = 10^20`: the double
product `r * MULT_RAD_TO_INT16` is a multiple of `2^16`, so the bytes written are
`00 00`, whereas `round(r * 32768 / pi) mod 2^16` is 19772, the bytes `3C 4D`. -/
theorem integer_writers_normalise_counterexample :
    Writeable.angle (Engine.binary64 0) Math.PI (Writeable.new 2) (10 ^ 20)
      = some ⟨2, [0x00, 0x00], 2⟩ ∧
    Math.round ((10 ^ 20 : ℚ) * 32768 / Math.PI) % 2 ^ 16 = 19772 ∧
    (Writeable.new 2).int16 19772 = some ⟨2, [0x3C, 0x4D], 2⟩ := by
  refine ⟨?_, ?_, by decide⟩
  · obtain ⟨M, hM, hMc⟩ := MULT_RAD_TO_INT16_close 0 Math.PI Math.PI_bounds.1 Math.PI_bounds.2
    obtain ⟨hMa, hMb⟩ := abs_le.mp hMc
    have hq : (32768 : ℚ) / Math.PI = 9223372036854775808 / 884279719003555 := by
      have e : Math.PI = 884279719003555 / 281474976710656 := rfl
      rw [e]
      norm_num
    rw [hq] at hMa hMb
    have hM0 : (8000 : ℚ) ≤ M := by
      norm_num at hMa
      linarith
    have hM1 : M ≤ 10924 := by
      norm_num at hMb
      linarith
    have hx0 : (2 : ℚ) ^ 68 ≤ |10 ^ 20 * M| := by
      rw [abs_of_nonneg (by positivity)]
      have t : (2 : ℚ) ^ 68 ≤ 10 ^ 20 * 8000 := by norm_num
      linarith
    have hx1 : |(10 : ℚ) ^ 20 * M| ≤ 2 ^ 100 := by
      rw [abs_of_nonneg (by positivity)]
      have t : (10 : ℚ) ^ 20 * 10924 ≤ 2 ^ 100 := by norm_num
      linarith
    obtain ⟨P, hP⟩ := nearestDouble_finite ((10 : ℚ) ^ 20 * M) hx1
    obtain ⟨m, hm⟩ := nearestDouble_multiple _ P hx0 hP
    have hprod : Number.mul (Engine.binary64 0) (some ((10 : ℚ) ^ 20))
        (MULT_RAD_TO_INT16 (Engine.binary64 0) Math.PI) = some P := by
      rw [hM]
      exact hP
    rw [Writeable.angle_of_product 0 Math.PI _ _ P hprod, hm]
    have e : ((m : ℚ) * 65536) = ((m * 65536 : Int) : ℚ) := by push_cast; ring
    rw [e, round_intCast, Writeable.int16_congr _ (m * 65536) 0 (by omega)]
    decide
  · have e : Math.PI = 884279719003555 / 281474976710656 := rfl
    have hf : Math.round ((10 ^ 20 : ℚ) * 32768 / Math.PI) = 1043037835047045313154364 := by
      unfold Math.round
      rw [e, Int.floor_eq_iff]
      constructor <;> norm_num
    rw [hf]
    norm_num

end Normalise

/-- Claim C19, amended: for every string `s` with a zero code unit, `k` being the
index of the first one, `Writeable.string(s)` ends at `start + 2 * (len(s) + 1)`, and
`Readable.string` at the start of the bytes written stops at the embedded zero,
strictly before the writer's end. When `k` is no more than the number of arguments
one call may take, it returns the first `k` code units of `s` only and leaves the
read position at `start + 2 * (k + 1)`; when `k` is larger it throws. -/
theorem string_embedded_zero {K : Type} (e : Engine K) (w : Writeable) (s : List CodeUnit)
    (k : Nat) (hk : k < s.length) (h0 : s[k]? = some 0) (hfirst : ∀ c ∈ s.take k, c ≠ 0)
    (hroom : w.position + (s.length + 1) * 2 ≤ w.buffer.length) :
    ∃ w2 : Writeable, w.string s = some w2 ∧
      w2.position = w.position + 2 * (s.length + 1) ∧
      (k ≤ e.argLimit → Readable.string e ⟨w2.buffer, w.position⟩
        = some (s.take k, ⟨w2.buffer, w.position + 2 * (k + 1)⟩)) ∧
      (e.argLimit < k → Readable.string e ⟨w2.buffer, w.position⟩ = none) ∧
      w.position + 2 * (k + 1) < w2.position := by
  obtain ⟨w2, hw, hp, hr, hlt⟩ := string_written_read_zero e w s k hk h0 hfirst hroom
  refine ⟨w2, hw, hp, ?_, ?_, hlt⟩
  · intro h
    rw [hr, if_neg (by omega)]
  · intro h
    rw [hr, if_pos h]

/-- The amended C19 at the string `A`, zero, `0xD83D`, for an engine that takes up
to 65535 arguments. -/
theorem string_embedded_zero_witness :
    ∃ w2 : Writeable, (Writeable.new 10).string [0x41, 0, 0xD83D] = some w2 ∧
      w2.position = (Writeable.new 10).position + 2 * (3 + 1) ∧
      (1 ≤ (Engine.binary64 65535 : Engine ℚ).argLimit →
        Readable.string (Engine.binary64 65535 : Engine ℚ)
            ⟨w2.buffer, (Writeable.new 10).position⟩
          = some (([0x41, 0, 0xD83D] : List CodeUnit).take 1,
              ⟨w2.buffer, (Writeable.new 10).position + 2 * (1 + 1)⟩)) ∧
      ((Engine.binary64 65535 : Engine ℚ).argLimit < 1 →
        Readable.string (Engine.binary64 65535 : Engine ℚ)
            ⟨w2.buffer, (Writeable.new 10).position⟩ = none) ∧
      (Writeable.new 10).position + 2 * (1 + 1) < w2.position :=
  string_embedded_zero (Engine.binary64 65535) (Writeable.new 10) [0x41, 0, 0xD83D] 1
    (by decide) (by simp) (by simp) (by decide)

/-- Claim C19 as stated fails for the string of 130000 code units `A` followed by a
zero and a `B`, on an engine that takes up to 129999 arguments in one call: the
first zero is at index 130000, and `Readable.string` at the start of the bytes
written throws instead of returning the first 130000 code units. -/
theorem string_embedded_zero_counterexample :
    ((List.replicate 130000 0x41 ++ [0, 0x42] : List CodeUnit)[130000]? = some 0) ∧
    (∀ c ∈ (List.replicate 130000 0x41 ++ [0, 0x42] : List CodeUnit).take 130000, c ≠ 0) ∧
    ∃ w2 : Writeable,
      (Writeable.new ((130000 + 3) * 2)).string (List.replicate 130000 0x41 ++ [0, 0x42])
        = some w2 ∧
      Readable.string (Engine.binary64 129999 : Engine ℚ) ⟨w2.buffer, 0⟩ = none :=
  long_prefix_throws (Engine.binary64 129999 : Engine ℚ) 130000 (Nat.lt_succ_self 129999)

section WriteFrame

variable {K : Type} [LinearOrderedField K] [FloorRing K]

/-- Claim C20: every `Writeable` field operation (bool, byte, bytes, uint16, uint32,
uint64, float, double, vec3, vec3fa, angle, skillid, string and the signed aliases)
that writes a field of width `n` at position `p` with `p + n ≤` the buffer length
changes only the bytes at indexes `p .. p+n-1`: every byte outside that range is the
same after the call as before, and the buffer length does not change; `seek` and
`skip` change no byte at all. -/
theorem write_frame (c : FloatCodec K) (e : Engine K) (PI : K) :
    (∀ (w : Writeable) (f : Field K), w.position + f.width ≤ w.buffer.length →
      ∃ w1 : Writeable, w.write c e PI f = some w1 ∧
        w1.buffer.length = w.buffer.length ∧
        ∀ i, i < w.position ∨ w.position + f.width ≤ i → w1.buffer[i]? = w.buffer[i]?) ∧
    (∀ (w : Writeable) (n : Nat), (w.seek n).buffer = w.buffer ∧ (w.skip n).buffer = w.buffer) := by
  constructor
  · intro w f hroom
    obtain ⟨w1, h, -, hl, hf⟩ := Writeable.write_wrote c e PI w f hroom
    exact ⟨w1, h, hl, hf⟩
  · intro w n
    exact ⟨rfl, rfl⟩

/-- Claim C20 for a two-unit string written at position 2 of an 8-byte buffer. -/
theorem write_frame_witness :
    ∃ w1 : Writeable,
      ((Writeable.new 8).seek 2).write FloatCodec.integerPart (Engine.binary64 65535) Math.PI
        (.string [0x41, 0x3042]) = some w1 ∧
      w1.buffer.length = ((Writeable.new 8).seek 2).buffer.length ∧
      ∀ i, i < ((Writeable.new 8).seek 2).position ∨
          ((Writeable.new 8).seek 2).position
            + (Field.string [0x41, 0x3042] : Field ℚ).width ≤ i →
        w1.buffer[i]? = ((Writeable.new 8).seek 2).buffer[i]? :=
  (write_frame FloatCodec.integerPart (Engine.binary64 65535) Math.PI).1 ((Writeable.new 8).seek 2)
    (.string [0x41, 0x3042]) (by decide)

end WriteFrame

end Tera
